import Mathlib

/-!
# Outbound buffer of an FPNN connection (`core/IOBuffer.cpp`)

A shallow embedding of `SendBuffer` (queue, in-flight buffer, send token,
counters, pre-send transform) and of the WebSocket frame wrapping, followed by
the properties proved about them.

Conventions of the embedding.

* A `std::string` is a `List Nat` of byte values (`Bytes`); a cast to `uint8_t`,
  `uint16_t`, `uint64_t` is written as an explicit `% 2^w`.
* A nullable pointer is an `Option`; the `std::queue` is a `List` whose head is
  the front, `push` appends at the back.
* `write(2)` is an environment: a script `List WriteRes`, one entry consumed
  per call of `write`. When the script is used up while the drain loop is
  about to call `write`, the call has not returned yet (`Ret.pending`).
* In the sequential part operations are executed one after the other, and a
  state with `_sendToken = false` stands for "some other caller is draining".
  Several threads are modelled separately (`threadStep`): every thread has a
  program counter, and one step is one critical section of the code, so that
  the mutex is the atomicity of a step.
-/

namespace fpnn

/-- Contents of a `std::string`: byte values, first byte first. -/
abbrev Bytes := List Nat

/-- Modelled from the spec: the platform's "try again" condition of `write`.
`errno.h` is not part of the sources; the Linux value is used. -/
def EAGAIN : Int := 11

/-- Modelled from the spec: the platform's "would block" condition of `write`
(`errno.h` is not part of the sources; on Linux it is the same value as `EAGAIN`). -/
def EWOULDBLOCK : Int := 11

/-- Modelled from the spec: the platform's "interrupted by a signal" condition
of `write` (`errno.h` is not part of the sources; the Linux value is used). -/
def EINTR : Int := 4

/-- What one call `write(fd, buf, count)` does: `ok room` accepts
`min room count` bytes and returns that number (POSIX `write` never returns
more than `count`); `fail e` returns `-1` with `errno = e`. -/
inductive WriteRes where
  | ok (room : Nat)
  | fail (errno : Int)
deriving DecidableEq, Repr

/-- Modelled from the spec: the `Encryptor` capability (`StreamEncryptor`,
`PackageEncryptor`; their header is not part of the sources): an in-place
transform that is stateful across calls. The running cipher state is kept in
its most general form, the constructor arguments together with the list `fed`
of the buffers passed to `encrypt` so far, oldest first. -/
structure Encryptor where
  streamMode : Bool
  key : Bytes
  iv : Bytes
  fed : List Bytes
deriving DecidableEq, Repr

/-- Modelled from the spec: the byte-level algorithm of the encryptors is out
of scope; it is a parameter giving, for an encryptor in some state and a
buffer, the bytes that replace the buffer. -/
abbrev Cipher := Encryptor → Bytes → Bytes

/-- The object built by `new StreamEncryptor(key, key_len, iv)`. -/
def StreamEncryptor (key iv : Bytes) : Encryptor :=
  { streamMode := true, key := key, iv := iv, fed := [] }

/-- The object built by `new PackageEncryptor(key, key_len, iv)`. -/
def PackageEncryptor (key iv : Bytes) : Encryptor :=
  { streamMode := false, key := key, iv := iv, fed := [] }

/-- Modelled from the spec: `Encryptor.encrypt(buffer) -> void`, in place and
stateful: returns the encryptor after the call and the rewritten buffer. -/
def Encryptor.encrypt (cipher : Cipher) (e : Encryptor) (buf : Bytes) : Encryptor × Bytes :=
  ({ e with fed := e.fed ++ [buf] }, cipher e buf)

/-- The two member functions `_currBufferProcess` can point to. -/
inductive CurrBufferProcessFunc where
  | encryptData
  | addWebSocketWrap
deriving DecidableEq, Repr

/-- The fields of `SendBuffer` used by `IOBuffer.cpp`. The class declaration
(`IOBuffer.h`) is not part of the sources; following the spec the two counters
are monotonically increasing and are kept as unbounded naturals. -/
structure SendBuffer where
  _encryptAfterFirstPackage : Bool
  _offset : Nat
  _currBuffer : Option Bytes
  _outQueue : List Bytes
  _sendToken : Bool
  _sentBytes : Nat
  _sentPackage : Nat
  _encryptor : Option Encryptor
  _currBufferProcess : Option CurrBufferProcessFunc
deriving DecidableEq, Repr

/-- Modelled from the spec: the state of a buffer when the connection is
established (the constructor is in `IOBuffer.h`, not part of the sources):
empty queue, token free, no transform; the policy flag
`encryptAfterFirstPackage` is fixed by the connection. -/
def SendBuffer.fresh (encryptAfterFirstPackage : Bool) : SendBuffer :=
  { _encryptAfterFirstPackage := encryptAfterFirstPackage
    _offset := 0
    _currBuffer := none
    _outQueue := []
    _sendToken := true
    _sentBytes := 0
    _sentPackage := 0
    _encryptor := none
    _currBufferProcess := none }

/-- The statement `_encryptor->encrypt(_currBuffer)`; `none` when one of the
two pointers is null. -/
def encryptCurrBuffer (cipher : Cipher) (s : SendBuffer) : Option SendBuffer :=
  match s._encryptor, s._currBuffer with
  | some e, some buf =>
    let r := e.encrypt cipher buf
    some { s with _encryptor := some r.1, _currBuffer := some r.2 }
  | _, _ => none

/-- `SendBuffer::encryptData`. -/
def encryptData (cipher : Cipher) (s : SendBuffer) : Option SendBuffer :=
  if s._sentPackage > 0 then
    encryptCurrBuffer cipher s
  else
    if !s._encryptAfterFirstPackage then
      encryptCurrBuffer cipher s
    else
      some s

/-- The two bytes of `htobe16(x)` in the order in which they lie in memory. -/
def htobe16 (x : Nat) : Bytes :=
  [x / 2 ^ 8 % 256, x % 256]

/-- The eight bytes of `htobe64(x)` in the order in which they lie in memory. -/
def htobe64 (x : Nat) : Bytes :=
  [x / 2 ^ 56 % 256, x / 2 ^ 48 % 256, x / 2 ^ 40 % 256, x / 2 ^ 32 % 256,
   x / 2 ^ 24 % 256, x / 2 ^ 16 % 256, x / 2 ^ 8 % 256, x % 256]

/-- `SendBuffer::addWebSocketWrap`; `none` when `_currBuffer` is null or when
`at(0)` throws on an empty buffer. -/
def addWebSocketWrap (s : SendBuffer) : Option SendBuffer :=
  if s._sentPackage = 0 then
    some s
  else
    match s._currBuffer with
    | none => none
    | some cur =>
      let dataSize := cur.length
      if dataSize > 1 then
        let wrappedData : Bytes :=
          if dataSize ≤ 126 then
            [0x82, dataSize % 2 ^ 8]
          else if dataSize ≤ 0xffff then
            [0x82, 126] ++ htobe16 (dataSize % 2 ^ 16)
          else
            [0x82, 126] ++ htobe64 (dataSize % 2 ^ 64)
        some { s with _currBuffer := some (wrappedData ++ cur) }
      else
        match cur with
        | [] => none
        | c :: _ => some { s with _currBuffer := some [(0x80 ||| c) % 2 ^ 8, 0x0] }

/-- The call `(this->*currBufferProcess)()`. -/
def callProcess (cipher : Cipher) (f : CurrBufferProcessFunc) (s : SendBuffer) :
    Option SendBuffer :=
  match f with
  | .encryptData => encryptData cipher s
  | .addWebSocketWrap => addWebSocketWrap s

/-- How a call of `send` ends. `returned err needWaitSendEvent` is a normal
return; `pending` means the script of `write` results is used up while the
loop is about to call `write`; `fault` means the code left defined behaviour
(null dereference, `std::out_of_range`, or a read past the end of the
buffer because `_offset` exceeds its length). -/
inductive Ret where
  | returned (err : Int) (needWaitSendEvent : Bool)
  | pending
  | fault
deriving DecidableEq, Repr

/-- Result of running `send` / `realSend`: the state, the bytes accepted by
`write` during the call (in order), the unused part of the script, and how
the call ended. -/
structure Outcome where
  st : SendBuffer
  wire : Bytes
  rest : List WriteRes
  ret : Ret
deriving DecidableEq, Repr

/-- Result of the first half of one iteration of the loop in `realSend`
(lines 45-66). -/
inductive Fetch where
  | done (s : SendBuffer)
  | ready (s : SendBuffer) (buf : Bytes)
  | fault (s : SendBuffer)
deriving DecidableEq, Repr

/-- First half of one iteration of the loop in `realSend`: when no buffer is
in flight, return if the queue is empty, else pop the front and run the
selected process on it. `ready s buf` means `write` is called next on `buf`. -/
def fetch (cipher : Cipher) (s : SendBuffer) (currSendBytes : Nat) : Fetch :=
  match s._currBuffer with
  | some buf => if s._offset ≤ buf.length then .ready s buf else .fault s
  | none =>
    match s._outQueue with
    | [] => .done { s with _sentBytes := s._sentBytes + currSendBytes, _sendToken := true }
    | front :: queue =>
      let s1 := { s with _currBuffer := some front, _outQueue := queue, _offset := 0 }
      match s1._currBufferProcess with
      | none => .ready s1 front
      | some f =>
        match callProcess cipher f s1 with
        | none => .fault s1
        | some s2 =>
          match s2._currBuffer with
          | some buf => .ready s2 buf
          | none => .fault s2

/-- Second half of one iteration, successful `write` (lines 88-99): the state
after `sendBytes` bytes of `buf` were accepted. -/
def advance (s : SendBuffer) (buf : Bytes) (sendBytes : Nat) : SendBuffer :=
  let s1 := { s with _offset := s._offset + sendBytes }
  if s1._offset = buf.length then
    { s1 with _currBuffer := none, _offset := 0, _sentPackage := s1._sentPackage + 1 }
  else
    s1

/-- `SendBuffer::realSend`, with `currSendBytes` the local counter of the
loop. Each iteration that reaches `write` consumes one entry of the script. -/
def realSend (cipher : Cipher) : List WriteRes → SendBuffer → Nat → Outcome
  | [], s, currSendBytes =>
    match fetch cipher s currSendBytes with
    | .done s1 => { st := s1, wire := [], rest := [], ret := .returned 0 false }
    | .fault s1 => { st := s1, wire := [], rest := [], ret := .fault }
    | .ready s1 _ => { st := s1, wire := [], rest := [], ret := .pending }
  | w :: ws, s, currSendBytes =>
    match fetch cipher s currSendBytes with
    | .done s1 => { st := s1, wire := [], rest := w :: ws, ret := .returned 0 false }
    | .fault s1 => { st := s1, wire := [], rest := w :: ws, ret := .fault }
    | .ready s1 buf =>
      match w with
      | .fail errno =>
        if errno = EAGAIN ∨ errno = EWOULDBLOCK then
          { st := { s1 with _sentBytes := s1._sentBytes + currSendBytes, _sendToken := true }
            wire := [], rest := ws, ret := .returned 0 true }
        else if errno = EINTR then
          realSend cipher ws s1 currSendBytes
        else
          { st := { s1 with _sentBytes := s1._sentBytes + currSendBytes, _sendToken := true }
            wire := [], rest := ws, ret := .returned errno false }
      | .ok room =>
        let requireSend := buf.length - s1._offset
        let sendBytes := min room requireSend
        let o := realSend cipher ws (advance s1 buf sendBytes) (currSendBytes + sendBytes)
        { o with wire := (buf.drop s1._offset).take sendBytes ++ o.wire }

/-- The first lines of `send` and of `appendData`: an empty string is deleted
and treated as absent. -/
def dropEmpty (data : Option Bytes) : Option Bytes :=
  match data with
  | some d => if d.isEmpty then none else some d
  | none => none

/-- The statement `if (data) _outQueue.push(data)`. -/
def pushData (s : SendBuffer) (data : Option Bytes) : SendBuffer :=
  match data with
  | some d => { s with _outQueue := s._outQueue ++ [d] }
  | none => s

/-- `SendBuffer::send`; `needWaitSendEvent` is the value the caller's
variable holds on entry (it is left untouched when the token is busy). -/
def send (cipher : Cipher) (s : SendBuffer) (needWaitSendEvent : Bool)
    (data : Option Bytes) (ws : List WriteRes) : Outcome :=
  let s1 := pushData s (dropEmpty data)
  if !s1._sendToken then
    { st := s1, wire := [], rest := ws, ret := .returned 0 needWaitSendEvent }
  else
    realSend cipher ws { s1 with _sendToken := false } 0

/-- `SendBuffer::entryEncryptMode`: the returned flag and the state. -/
def entryEncryptMode (s : SendBuffer) (key iv : Bytes) (streamMode : Bool) :
    Bool × SendBuffer :=
  if s._encryptor.isSome then
    (false, s)
  else
    let encryptor := if streamMode then StreamEncryptor key iv else PackageEncryptor key iv
    if s._sentBytes ≠ 0 then
      (false, s)
    else if s._sendToken = false then
      (false, s)
    else
      (true, { s with _encryptor := some encryptor,
                      _currBufferProcess := some .encryptData })

/-- `SendBuffer::appendData`. -/
def appendData (s : SendBuffer) (data : Option Bytes) : SendBuffer :=
  pushData s (dropEmpty data)

/-- `SendBuffer::entryWebSocketMode`. -/
def entryWebSocketMode (s : SendBuffer) (data : Option Bytes) : SendBuffer :=
  let s1 := { s with _currBufferProcess := some .addWebSocketWrap }
  match data with
  | some d => if d.length ≠ 0 then { s1 with _outQueue := s1._outQueue ++ [d] } else s1
  | none => s1

/-! ## Sequences of operations -/

/-- One call of a public operation of `SendBuffer`, with its arguments. -/
inductive Op where
  | send (needWaitSendEvent : Bool) (data : Option Bytes)
  | appendData (data : Option Bytes)
  | entryEncryptMode (key iv : Bytes) (streamMode : Bool)
  | entryWebSocketMode (data : Option Bytes)
deriving DecidableEq, Repr

/-- The operations that only carry a payload: `send` and `appendData`. -/
def Op.isData : Op → Bool
  | .send _ _ => true
  | .appendData _ => true
  | _ => false

/-- The payload an operation puts in the queue, if any. -/
def Op.payload : Op → Option Bytes
  | .send _ data => dropEmpty data
  | .appendData data => dropEmpty data
  | .entryEncryptMode _ _ _ => none
  | .entryWebSocketMode data => dropEmpty data

/-- The non-empty payloads carried by a sequence of operations, in call order. -/
def payloads (ops : List Op) : List Bytes :=
  ops.filterMap Op.payload

/-- Result of a sequence of operations: final state, all bytes accepted by
`write` in order, the unused script, the operations that were not executed
because an earlier `send` did not return (`stuck`). -/
structure RunOut where
  st : SendBuffer
  wire : Bytes
  rest : List WriteRes
  left : List Op
  stuck : Bool
deriving DecidableEq, Repr

/-- Execute the operations one after the other on one script of `write`
results. A `send` that does not return (script used up, or fault) ends the
run. -/
def run (cipher : Cipher) : List Op → SendBuffer → List WriteRes → RunOut
  | [], s, ws => { st := s, wire := [], rest := ws, left := [], stuck := false }
  | .send needWait data :: ops, s, ws =>
    let o := send cipher s needWait data ws
    match o.ret with
    | .returned _ _ =>
      let r := run cipher ops o.st o.rest
      { r with wire := o.wire ++ r.wire }
    | _ => { st := o.st, wire := o.wire, rest := o.rest, left := ops, stuck := true }
  | .appendData data :: ops, s, ws => run cipher ops (appendData s data) ws
  | .entryEncryptMode key iv streamMode :: ops, s, ws =>
    run cipher ops (entryEncryptMode s key iv streamMode).2 ws
  | .entryWebSocketMode data :: ops, s, ws => run cipher ops (entryWebSocketMode s data) ws

/-- States reachable from a fresh buffer by `send` / `appendData` calls under
some behaviour of `write`. -/
def ReachableByData (cipher : Cipher) (s : SendBuffer) : Prop :=
  ∃ (flag : Bool) (ops : List Op) (ws : List WriteRes),
    (∀ op ∈ ops, op.isData = true) ∧ (run cipher ops (SendBuffer.fresh flag) ws).st = s

/-! ## Reference functions used in the statements -/

/-- The frame `addWebSocketWrap` turns a payload into once a package has been
sent: the contents of `_currBuffer` after the call (empty if the call faults). -/
def wsFrame (P : Bytes) : Bytes :=
  match addWebSocketWrap { SendBuffer.fresh false with _sentPackage := 1, _currBuffer := some P } with
  | some s => s._currBuffer.getD []
  | none => []

/-- Successive `encrypt` calls on a list of buffers: the outputs, in order. -/
def encryptSeq (cipher : Cipher) : Encryptor → List Bytes → List Bytes
  | _, [] => []
  | e, p :: ps => (e.encrypt cipher p).2 :: encryptSeq cipher (e.encrypt cipher p).1 ps

/-- Value of a big-endian byte sequence. -/
def beValue (bs : Bytes) : Nat :=
  bs.foldl (fun acc b => acc * 256 + b) 0

/-- One WebSocket frame as read by a receiver. -/
structure WsFrame where
  fin : Bool
  opcode : Nat
  masked : Bool
  payload : Bytes
deriving DecidableEq, Repr

/-- Undo the masking of RFC 6455 section 5.3: byte `i` is xor-ed with byte
`i mod 4` of the key. -/
def unmask (key : Bytes) (i : Nat) : Bytes → Bytes
  | [] => []
  | b :: bs => (b ^^^ key.getD (i % 4) 0) :: unmask key (i + 1) bs

/-- Base framing rules of RFC 6455 section 5.2, as a receiver applies them to
the front of a byte stream: the first byte holds FIN (bit 7) and the opcode
(low 4 bits), the second the mask bit (bit 7) and a 7-bit length; 0..125 is the
payload length, 126 announces a 2-byte and 127 an 8-byte big-endian length; a
masked frame carries a 4-byte key. Returns the frame and the bytes after it,
`none` when the stream ends inside the frame. -/
def rfcParseFrame (bs : Bytes) : Option (WsFrame × Bytes) :=
  match bs with
  | b0 :: b1 :: bs1 =>
    let len7 := b1 % 128
    let extLen := if len7 = 126 then 2 else if len7 = 127 then 8 else 0
    if bs1.length < extLen then none
    else
      let len := if extLen = 0 then len7 else beValue (bs1.take extLen)
      let bs2 := bs1.drop extLen
      let masked := decide (b1 / 128 % 2 = 1)
      let keyLen := if masked then 4 else 0
      if bs2.length < keyLen + len then none
      else
        let key := bs2.take keyLen
        let body := (bs2.drop keyLen).take len
        some ({ fin := decide (b0 / 128 % 2 = 1), opcode := b0 % 16, masked := masked,
                payload := if masked then unmask key 0 body else body },
              (bs2.drop keyLen).drop len)
  | _ => none

/-! ## Devices of the proofs -/

/-- What a payload popped from the queue is turned into before its first
byte is written, and the encryptor afterwards, when `count` packages have
been sent: the effect of the selected process, as a function. -/
def processed (cipher : Cipher) (flag : Bool) (proc : Option CurrBufferProcessFunc)
    (enc : Option Encryptor) (count : Nat) (q : Bytes) : Bytes × Option Encryptor :=
  match proc with
  | none => (q, enc)
  | some .addWebSocketWrap => (if count = 0 then q else wsFrame q, enc)
  | some .encryptData =>
    if count > 0 ∨ flag = false then
      match enc with
      | some e => ((e.encrypt cipher q).2, some (e.encrypt cipher q).1)
      | none => (q, enc)
    else (q, enc)

/-- The buffers a queue is turned into when it is drained in order starting
with `count` packages sent, and the encryptor afterwards. -/
def expectQueue (cipher : Cipher) (flag : Bool) (proc : Option CurrBufferProcessFunc) :
    Option Encryptor → Nat → List Bytes → List Bytes × Option Encryptor
  | enc, _, [] => ([], enc)
  | enc, count, q :: qs =>
    let r := processed cipher flag proc enc count q
    let t := expectQueue cipher flag proc r.2 (count + 1) qs
    (r.1 :: t.1, t.2)

/-- The bytes still to be written by a state whose queue is extended by
`extra`: the rest of the in-flight buffer, then the queue as it will be
transformed; and the encryptor after that. -/
def pend (cipher : Cipher) (s : SendBuffer) (extra : List Bytes) : Bytes × Option Encryptor :=
  match s._currBuffer with
  | some buf =>
    let t := expectQueue cipher s._encryptAfterFirstPackage s._currBufferProcess s._encryptor
      (s._sentPackage + 1) (s._outQueue ++ extra)
    (buf.drop s._offset ++ t.1.flatten, t.2)
  | none =>
    let t := expectQueue cipher s._encryptAfterFirstPackage s._currBufferProcess s._encryptor
      s._sentPackage (s._outQueue ++ extra)
    (t.1.flatten, t.2)

/-- The unwritten rest of the in-flight buffer. -/
def inFlight (s : SendBuffer) : Bytes :=
  match s._currBuffer with
  | some buf => buf.drop s._offset
  | none => []

/-- Number of payloads not yet completely written. -/
def pendingCount (s : SendBuffer) : Nat :=
  (if s._currBuffer.isSome then 1 else 0) + s._outQueue.length

/-- Well-formed states: no empty string in the queue, the offset within the
in-flight buffer, and an encryptor present when `encryptData` is selected. -/
def WF (s : SendBuffer) : Prop :=
  (∀ q ∈ s._outQueue, q ≠ []) ∧
  (∀ buf, s._currBuffer = some buf → s._offset ≤ buf.length) ∧
  (s._currBufferProcess = some .encryptData → s._encryptor.isSome = true)

/-- Relation between a state `s` and a later state `ns` reached while the
bytes `w` were accepted by `write`: `ns` is well formed, what remains to be
written after `w` is what remained in `s` (for every extension of the queue),
the policy flag and the selected process are the same, and every payload
that left the pending set was counted once in `_sentPackage`. -/
def Drained (cipher : Cipher) (s : SendBuffer) (w : Bytes) (ns : SendBuffer) : Prop :=
  WF ns ∧
  (∀ extra, w ++ (pend cipher ns extra).1 = (pend cipher s extra).1 ∧
    (pend cipher ns extra).2 = (pend cipher s extra).2) ∧
  ns._encryptAfterFirstPackage = s._encryptAfterFirstPackage ∧
  ns._currBufferProcess = s._currBufferProcess ∧
  pendingCount ns + ns._sentPackage = pendingCount s + s._sentPackage

/-- A concrete cipher used to evaluate the model on examples: it adds to
every byte one more than the number of buffers encrypted before. -/
def sampleCipher : Cipher :=
  fun e buf => buf.map (fun b => (b + e.fed.length + 1) % 256)

/-- The state reached from a fresh buffer (plain policy flag) when the first
payload `[1, 2]` is sent and its first `write` reports "try again": the
payload is in flight with no byte written. -/
def blockedFirst : SendBuffer :=
  (run sampleCipher [.send false (some [1, 2])] (SendBuffer.fresh false) [.fail EAGAIN]).st

/-! ## Inbound buffer -/

/-- Modelled from the spec: the receiver strategies (`EncryptedStreamReceiver`,
`EncryptedPackageReceiver`, `WebSocketReceiver` and the raw receiver a
connection starts with; their headers are not part of the sources). Only the
variant and the constructor arguments are kept; the decoding state of a
receiver is out of scope. -/
inductive Receiver where
  | raw
  | EncryptedStreamReceiver (key iv : Bytes)
  | EncryptedPackageReceiver (key iv : Bytes)
  | WebSocketReceiver
deriving DecidableEq, Repr

/-- The fields of `RecvBuffer` used by `IOBuffer.cpp` (the class declaration
is in `IOBuffer.h`, not part of the sources; the counter is kept as an
unbounded natural). -/
structure RecvBuffer where
  _receivedPackage : Nat
  _receiver : Receiver
deriving DecidableEq, Repr

/-- `RecvBuffer::entryEncryptMode`: the returned flag and the state. -/
def RecvBuffer.entryEncryptMode (r : RecvBuffer) (key iv : Bytes) (streamMode : Bool) :
    Bool × RecvBuffer :=
  if r._receivedPackage > 1 then
    (false, r)
  else
    if streamMode then
      (true, { r with _receiver := .EncryptedStreamReceiver key iv })
    else
      (true, { r with _receiver := .EncryptedPackageReceiver key iv })

/-- `RecvBuffer::entryWebSocketMode`. -/
def RecvBuffer.entryWebSocketMode (r : RecvBuffer) : RecvBuffer :=
  { r with _receiver := .WebSocketReceiver }

/-! ## Further notions used in the statements -/

/-- A script with failures `EINTR` inserted: `ks[i]` of them in front of the
`i`-th entry of `ws`; counts beyond the end of `ws` are inserted at the end. -/
def withEINTR : List Nat → List WriteRes → List WriteRes
  | [], ws => ws
  | k :: ks, [] => List.replicate k (.fail EINTR) ++ withEINTR ks []
  | k :: ks, w :: ws => List.replicate k (.fail EINTR) ++ w :: withEINTR ks ws

/-- A `write` result that succeeds and has room for at least one byte. -/
def WriteRes.accepts : WriteRes → Bool
  | .ok room => decide (1 ≤ room)
  | .fail _ => false

/-- States reachable from a fresh buffer by the four public operations
under some behaviour of `write`. -/
def Reachable (cipher : Cipher) (s : SendBuffer) : Prop :=
  ∃ (flag : Bool) (ops : List Op) (ws : List WriteRes),
    (run cipher ops (SendBuffer.fresh flag) ws).st = s

/-- The offset is 0 when nothing is in flight. -/
def IdleZero (s : SendBuffer) : Prop :=
  s._currBuffer = none → s._offset = 0

/-- Bound on the number of `write` calls a drain needs when every call
accepts at least one byte: the bytes still to be written plus the number of
pending payloads. -/
def work (cipher : Cipher) (s : SendBuffer) : Nat :=
  (pend cipher s []).1.length + pendingCount s

/-- The state carried by the result of `fetch`. -/
def Fetch.state : Fetch → SendBuffer
  | .done s => s
  | .ready s _ => s
  | .fault s => s

/-- What identifies an installed encryptor: its mode, key and IV (its
running state `fed` changes with every `encrypt`). -/
def encId (enc : Option Encryptor) : Option (Bool × Bytes × Bytes) :=
  enc.map (fun e => (e.streamMode, e.key, e.iv))

/-- The call kept the installed encryptor (up to its running state) and the
selected process. -/
def Keeps (s ns : SendBuffer) : Prop :=
  encId ns._encryptor = encId s._encryptor ∧ ns._currBufferProcess = s._currBufferProcess

/-- The operation is a call of `entryWebSocketMode`. -/
def Op.isEntryWebSocketMode : Op → Bool
  | .entryWebSocketMode _ => true
  | _ => false

/-- Two outcomes of `send` agree on the final state, the bytes written and
the way the call ended (return code and flag). -/
def Agree (o o2 : Outcome) : Prop :=
  o.st = o2.st ∧ o.wire = o2.wire ∧ o.ret = o2.ret

/-- Where a thread is with respect to `send`: outside of it, inside
`realSend` at the head of the loop (line 45), inside `realSend` about to call
`write` (line 69), or stopped inside `realSend` by a fault. The local counter
`currSendBytes` belongs to the thread. -/
inductive Pc where
  | outside
  | loopHead (currSendBytes : Nat)
  | atWrite (currSendBytes : Nat)
  | faulted
deriving DecidableEq, Repr

/-- The thread is inside `realSend`. -/
def Pc.inside : Pc → Bool
  | .outside => false
  | .loopHead _ => true
  | .atWrite _ => true
  | .faulted => true

/-- One buffer shared by the threads `0 .. pcs.length - 1`. -/
structure Sys where
  buf : SendBuffer
  pcs : List Pc
deriving DecidableEq, Repr

/-- One step of one thread `t`. `sendEnter` is the first critical section of
`send` (lines 105-120), `fetchStep` the first half of a loop iteration of
`realSend` (lines 45-66), `writeStep` the call of `write` with its result and
the second half of the iteration (lines 68-99); the other three are whole
calls of the operations, whose accesses to the queue, to the token and to the
selected process are under the mutex. -/
inductive Act where
  | sendEnter (t : Nat) (data : Option Bytes)
  | fetchStep (t : Nat)
  | writeStep (t : Nat) (w : WriteRes)
  | appendData (t : Nat) (data : Option Bytes)
  | entryEncryptMode (t : Nat) (key iv : Bytes) (streamMode : Bool)
  | entryWebSocketMode (t : Nat) (data : Option Bytes)
deriving DecidableEq, Repr

/-- The thread that takes the step. -/
def Act.thread : Act → Nat
  | .sendEnter t _ => t
  | .fetchStep t => t
  | .writeStep t _ => t
  | .appendData t _ => t
  | .entryEncryptMode t _ _ _ => t
  | .entryWebSocketMode t _ => t

/-- The effect of one step. A step a thread cannot take where it is (or of a
thread that does not exist) leaves the system as it is. -/
def threadStep (cipher : Cipher) (sys : Sys) : Act → Sys
  | .sendEnter t data =>
    match sys.pcs[t]? with
    | some .outside =>
      let s1 := pushData sys.buf (dropEmpty data)
      if !s1._sendToken then
        { sys with buf := s1 }
      else
        { buf := { s1 with _sendToken := false }, pcs := sys.pcs.set t (.loopHead 0) }
    | _ => sys
  | .fetchStep t =>
    match sys.pcs[t]? with
    | some (.loopHead n) =>
      match fetch cipher sys.buf n with
      | .done s1 => { buf := s1, pcs := sys.pcs.set t .outside }
      | .ready s1 _ => { buf := s1, pcs := sys.pcs.set t (.atWrite n) }
      | .fault s1 => { buf := s1, pcs := sys.pcs.set t .faulted }
    | _ => sys
  | .writeStep t w =>
    match sys.pcs[t]? with
    | some (.atWrite n) =>
      match sys.buf._currBuffer with
      | none => { sys with pcs := sys.pcs.set t .faulted }
      | some buf =>
        match w with
        | .fail errno =>
          if errno = EAGAIN ∨ errno = EWOULDBLOCK then
            { buf := { sys.buf with _sentBytes := sys.buf._sentBytes + n, _sendToken := true }
              pcs := sys.pcs.set t .outside }
          else if errno = EINTR then
            { sys with pcs := sys.pcs.set t (.loopHead n) }
          else
            { buf := { sys.buf with _sentBytes := sys.buf._sentBytes + n, _sendToken := true }
              pcs := sys.pcs.set t .outside }
        | .ok room =>
          let sendBytes := min room (buf.length - sys.buf._offset)
          { buf := advance sys.buf buf sendBytes
            pcs := sys.pcs.set t (.loopHead (n + sendBytes)) }
    | _ => sys
  | .appendData t data =>
    match sys.pcs[t]? with
    | some .outside => { sys with buf := appendData sys.buf data }
    | _ => sys
  | .entryEncryptMode t key iv streamMode =>
    match sys.pcs[t]? with
    | some .outside => { sys with buf := (entryEncryptMode sys.buf key iv streamMode).2 }
    | _ => sys
  | .entryWebSocketMode t data =>
    match sys.pcs[t]? with
    | some .outside => { sys with buf := entryWebSocketMode sys.buf data }
    | _ => sys

/-- Any interleaving: the steps are taken in the order of the list. -/
def runThreads (cipher : Cipher) (sys : Sys) (acts : List Act) : Sys :=
  acts.foldl (threadStep cipher) sys

/-- A fresh buffer shared by `N` threads, all outside `send`. -/
def Sys.init (encryptAfterFirstPackage : Bool) (N : Nat) : Sys :=
  { buf := SendBuffer.fresh encryptAfterFirstPackage, pcs := List.replicate N .outside }

/-- Number of threads inside `realSend`. -/
def Sys.insideCount (sys : Sys) : Nat :=
  sys.pcs.countP Pc.inside

/-- Thread `t` is inside `realSend`. -/
def Sys.isInside (sys : Sys) (t : Nat) : Bool :=
  match sys.pcs[t]? with
  | some pc => pc.inside
  | none => false

/-- The token accounts for the drainer: nobody is inside `realSend` while
the token is free, and exactly one thread is inside while it is taken. -/
def TokenInv (sys : Sys) : Prop :=
  (sys.buf._sendToken = true → sys.insideCount = 0) ∧
  (sys.buf._sendToken = false → sys.insideCount = 1)

/-- The steps of one thread that runs `realSend` alone against the script of
`write` results: each round is the head of the loop followed by `write`. -/
def drainActs (t : Nat) : List WriteRes → List Act
  | [] => [.fetchStep t]
  | w :: ws => .fetchStep t :: .writeStep t w :: drainActs t ws

/-! ## Lemmas on the drain loop and on runs -/

theorem wsFrame_eq (s : SendBuffer) (P : Bytes) (hcur : s._currBuffer = some P)
    (hP : P ≠ []) (hpk : s._sentPackage ≠ 0) :
    addWebSocketWrap s = some { s with _currBuffer := some (wsFrame P) } := by
  cases P with
  | nil => exact absurd rfl hP
  | cons c cs =>
    by_cases h1 : (c :: cs).length > 1
    · simp only [wsFrame, addWebSocketWrap, SendBuffer.fresh, hpk, hcur, h1, if_true, if_false,
        Option.getD_some]
      simp
    · simp only [wsFrame, addWebSocketWrap, SendBuffer.fresh, hpk, hcur, h1, if_true, if_false,
        Option.getD_some]
      simp

theorem fetch_curr (cipher : Cipher) (s : SendBuffer) (n : Nat) (buf : Bytes)
    (hcur : s._currBuffer = some buf) (hoff : s._offset ≤ buf.length) :
    fetch cipher s n = .ready s buf := by
  simp [fetch, hcur, hoff]

theorem fetch_empty (cipher : Cipher) (s : SendBuffer) (n : Nat)
    (hcur : s._currBuffer = none) (hq : s._outQueue = []) :
    fetch cipher s n =
      .done { s with _sentBytes := s._sentBytes + n, _sendToken := true } := by
  simp [fetch, hcur, hq]

theorem fetch_pop (cipher : Cipher) (s : SendBuffer) (n : Nat) (q : Bytes) (qs : List Bytes)
    (hwf : WF s) (hcur : s._currBuffer = none) (hq : s._outQueue = q :: qs) :
    fetch cipher s n =
      .ready { s with
          _currBuffer := some (processed cipher s._encryptAfterFirstPackage s._currBufferProcess
            s._encryptor s._sentPackage q).1
          _outQueue := qs
          _offset := 0
          _encryptor := (processed cipher s._encryptAfterFirstPackage s._currBufferProcess
            s._encryptor s._sentPackage q).2 }
        (processed cipher s._encryptAfterFirstPackage s._currBufferProcess
            s._encryptor s._sentPackage q).1 := by
  obtain ⟨hne, -, henc⟩ := hwf
  have hqne : q ≠ [] := hne q (by simp [hq])
  cases hp : s._currBufferProcess with
  | none => simp [fetch, hcur, hq, hp, processed]
  | some f =>
    cases f with
    | encryptData =>
      have he := henc hp
      obtain ⟨e, he⟩ := Option.isSome_iff_exists.mp he
      by_cases hc : s._sentPackage > 0
      · simp [fetch, hcur, hq, hp, processed, callProcess, encryptData, encryptCurrBuffer, hc, he]
      · cases hf : s._encryptAfterFirstPackage <;>
          simp [fetch, hcur, hq, hp, processed, callProcess, encryptData, encryptCurrBuffer, hc,
            he, hf]
    | addWebSocketWrap =>
      by_cases hc : s._sentPackage = 0
      · simp [fetch, hcur, hq, hp, processed, callProcess, addWebSocketWrap, hc]
      · have := wsFrame_eq { s with _currBuffer := some q, _outQueue := qs, _offset := 0 } q rfl
          hqne hc
        simp only [hp] at this
        simp [fetch, hcur, hq, hp, processed, callProcess, hc, this]

theorem drained_refl (cipher : Cipher) (s : SendBuffer) (hwf : WF s) : Drained cipher s [] s :=
  ⟨hwf, fun _ => ⟨rfl, rfl⟩, rfl, rfl, rfl⟩

theorem drained_trans (cipher : Cipher) (s s1 s2 : SendBuffer) (w1 w2 : Bytes)
    (h1 : Drained cipher s w1 s1) (h2 : Drained cipher s1 w2 s2) :
    Drained cipher s (w1 ++ w2) s2 := by
  obtain ⟨-, hp1, hf1, hc1, hn1⟩ := h1
  obtain ⟨hwf2, hp2, hf2, hc2, hn2⟩ := h2
  refine ⟨hwf2, fun extra => ⟨?_, ?_⟩, hf2.trans hf1, hc2.trans hc1, hn2.trans hn1⟩
  · rw [List.append_assoc, (hp2 extra).1, (hp1 extra).1]
  · rw [(hp2 extra).2, (hp1 extra).2]

theorem drained_release (cipher : Cipher) (s ns : SendBuffer) (w : Bytes) (a : Nat) (b : Bool)
    (h : Drained cipher s w ns) :
    Drained cipher s w { ns with _sentBytes := a, _sendToken := b } := h

theorem fetch_drained (cipher : Cipher) (s : SendBuffer) (n : Nat) (hwf : WF s) :
    match fetch cipher s n with
    | .done s1 => s1 = { s with _sentBytes := s._sentBytes + n, _sendToken := true } ∧
        s._currBuffer = none ∧ s._outQueue = []
    | .ready s1 buf => Drained cipher s [] s1 ∧ s1._currBuffer = some buf ∧
        s1._offset ≤ buf.length ∧ s1._sendToken = s._sendToken ∧ s1._sentBytes = s._sentBytes
    | .fault _ => False := by
  cases hcur : s._currBuffer with
  | some buf =>
    have hoff := hwf.2.1 buf hcur
    rw [fetch_curr cipher s n buf hcur hoff]
    exact ⟨drained_refl cipher s hwf, hcur, hoff, rfl, rfl⟩
  | none =>
    cases hq : s._outQueue with
    | nil =>
      rw [fetch_empty cipher s n hcur hq]
      exact ⟨by simp [hcur, hq], rfl, rfl⟩
    | cons q qs =>
      rw [fetch_pop cipher s n q qs hwf hcur hq]
      refine ⟨⟨⟨?_, ?_, ?_⟩, fun extra => ?_, rfl, rfl, ?_⟩, rfl, Nat.zero_le _, rfl, rfl⟩
      · intro x hx
        exact hwf.1 x (by rw [hq]; exact List.mem_cons_of_mem _ hx)
      · intro buf hb
        exact Nat.zero_le _
      · intro hp
        have hp2 : s._currBufferProcess = some .encryptData := hp
        have he := hwf.2.2 hp2
        obtain ⟨e, he⟩ := Option.isSome_iff_exists.mp he
        show (processed cipher s._encryptAfterFirstPackage s._currBufferProcess
            s._encryptor s._sentPackage q).2.isSome = true
        simp only [processed, hp2, he]
        split <;> simp
      · simp [pend, hcur, hq, expectQueue]
      · simp [pendingCount, hcur, hq]
        omega

theorem advance_drained (cipher : Cipher) (s : SendBuffer) (buf : Bytes) (k : Nat)
    (hwf : WF s) (hcur : s._currBuffer = some buf) (hoff : s._offset ≤ buf.length)
    (hk : k ≤ buf.length - s._offset) :
    Drained cipher s ((buf.drop s._offset).take k) (advance s buf k) := by
  unfold advance
  by_cases hfull : s._offset + k = buf.length
  · simp only [hfull, if_true]
    refine ⟨⟨hwf.1, ?_, hwf.2.2⟩, fun extra => ?_, rfl, rfl, ?_⟩
    · intro b hb
      exact absurd hb (by simp)
    · have hk2 : k = buf.length - s._offset := by omega
      have : (buf.drop s._offset).take k = buf.drop s._offset := by
        apply List.take_of_length_le
        simp [hk2]
      simp [pend, hcur, this]
    · simp [pendingCount, hcur]
      omega
  · simp only [hfull, if_false]
    refine ⟨⟨hwf.1, ?_, hwf.2.2⟩, fun extra => ?_, rfl, rfl, ?_⟩
    · intro b hb
      have : b = buf := by
        have h2 : s._currBuffer = some b := hb
        rw [hcur] at h2
        exact (Option.some.inj h2).symm
      subst this
      show s._offset + k ≤ b.length
      omega
    · have : (buf.drop s._offset).take k ++ buf.drop (s._offset + k) = buf.drop s._offset := by
        rw [← List.drop_drop]
        exact List.take_append_drop k _
      simp only [pend, hcur]
      constructor
      · rw [← List.append_assoc, this]
      · trivial
    · simp [pendingCount, hcur]

theorem advance_frame (s : SendBuffer) (buf : Bytes) (k : Nat) :
    (advance s buf k)._sendToken = s._sendToken ∧ (advance s buf k)._sentBytes = s._sentBytes := by
  simp only [advance]
  split_ifs <;> exact ⟨rfl, rfl⟩

theorem realSend_drained (cipher : Cipher) (ws : List WriteRes) :
    ∀ (s : SendBuffer) (n : Nat), WF s →
      Drained cipher s (realSend cipher ws s n).wire (realSend cipher ws s n).st ∧
      (realSend cipher ws s n).ret ≠ .fault ∧
      ((realSend cipher ws s n).ret = .pending →
        (realSend cipher ws s n).st._currBuffer.isSome = true ∧
        (realSend cipher ws s n).rest = [] ∧
        (realSend cipher ws s n).st._sendToken = s._sendToken ∧
        (realSend cipher ws s n).st._sentBytes = s._sentBytes) ∧
      (∀ e nw, (realSend cipher ws s n).ret = .returned e nw →
        (realSend cipher ws s n).st._sendToken = true ∧
        (realSend cipher ws s n).st._sentBytes =
          s._sentBytes + n + (realSend cipher ws s n).wire.length) := by
  induction ws with
  | nil =>
    intro s n hwf
    have hf := fetch_drained cipher s n hwf
    simp only [realSend]
    generalize fetch cipher s n = f at hf ⊢
    cases f with
    | done s1 =>
      obtain ⟨h1, -, -⟩ := hf
      subst h1
      exact ⟨drained_release cipher s s _ _ _ (drained_refl cipher s hwf), by simp, by simp,
        by simp⟩
    | fault s1 => exact absurd hf id
    | ready s1 buf =>
      obtain ⟨hd, hc, -, ht, hb⟩ := hf
      exact ⟨hd, by simp, by simp [hc, ht, hb], by simp⟩
  | cons w ws ih =>
    intro s n hwf
    have hf := fetch_drained cipher s n hwf
    simp only [realSend]
    generalize fetch cipher s n = f at hf ⊢
    cases f with
    | done s1 =>
      obtain ⟨h1, -, -⟩ := hf
      subst h1
      exact ⟨drained_release cipher s s _ _ _ (drained_refl cipher s hwf), by simp, by simp,
        by simp⟩
    | fault s1 => exact absurd hf id
    | ready s1 buf =>
      obtain ⟨hd, hc, hoff, ht, hb⟩ := hf
      cases w with
      | fail errno =>
        simp only
        by_cases h1 : errno = EAGAIN ∨ errno = EWOULDBLOCK
        · simp only [h1, if_true]
          exact ⟨drained_release cipher s s1 _ _ _ hd, by simp, by simp, by simp [hb]⟩
        · by_cases h2 : errno = EINTR
          · subst h2
            simp only [h1, if_false, if_true]
            obtain ⟨i1, i2, i3, i4⟩ := ih s1 n hd.1
            refine ⟨?_, i2, ?_, ?_⟩
            · simpa using drained_trans cipher s s1 _ [] _ hd i1
            · intro hp
              obtain ⟨a, b, c, d⟩ := i3 hp
              exact ⟨a, b, c.trans ht, d.trans hb⟩
            · intro e nw hr
              obtain ⟨a, b⟩ := i4 e nw hr
              exact ⟨a, by rw [b, hb]⟩
          · simp only [h1, h2, if_false]
            exact ⟨drained_release cipher s s1 _ _ _ hd, by simp, by simp, by simp [hb]⟩
      | ok room =>
        simp only
        have hk : min room (buf.length - s1._offset) ≤ buf.length - s1._offset :=
          Nat.min_le_right _ _
        have ha := advance_drained cipher s1 buf _ hd.1 hc hoff hk
        obtain ⟨i1, i2, i3, i4⟩ := ih (advance s1 buf (min room (buf.length - s1._offset)))
          (n + min room (buf.length - s1._offset)) ha.1
        have hadv : (advance s1 buf (min room (buf.length - s1._offset)))._sendToken =
              s1._sendToken ∧
            (advance s1 buf (min room (buf.length - s1._offset)))._sentBytes = s1._sentBytes := by
          exact advance_frame s1 buf _
        refine ⟨?_, i2, ?_, ?_⟩
        · have := drained_trans cipher s s1 _ [] _ hd (drained_trans cipher s1 _ _ _ _ ha i1)
          simpa using this
        · intro hp
          obtain ⟨a, b, c, d⟩ := i3 hp
          exact ⟨a, b, c.trans (hadv.1.trans ht), d.trans (hadv.2.trans hb)⟩
        · intro e nw hr
          obtain ⟨a, b⟩ := i4 e nw hr
          refine ⟨a, ?_⟩
          rw [b, hadv.2, hb]
          simp only [List.length_append, List.length_take, List.length_drop]
          omega

theorem dropEmpty_ne (data : Option Bytes) (d : Bytes) (h : dropEmpty data = some d) : d ≠ [] := by
  unfold dropEmpty at h
  cases data with
  | none => simp at h
  | some x =>
    by_cases hx : x.isEmpty
    · simp [hx] at h
    · simp only [hx] at h
      simp at h
      subst h
      intro h2
      simp [h2] at hx

theorem pushData_drained (cipher : Cipher) (s : SendBuffer) (data : Option Bytes) (hwf : WF s) :
    WF (pushData s (dropEmpty data)) ∧
    (∀ extra, pend cipher (pushData s (dropEmpty data)) extra =
      pend cipher s ((dropEmpty data).toList ++ extra)) ∧
    (pushData s (dropEmpty data))._encryptAfterFirstPackage = s._encryptAfterFirstPackage ∧
    (pushData s (dropEmpty data))._currBufferProcess = s._currBufferProcess ∧
    pendingCount (pushData s (dropEmpty data)) + (pushData s (dropEmpty data))._sentPackage =
      pendingCount s + s._sentPackage + (dropEmpty data).toList.length ∧
    (pushData s (dropEmpty data))._sendToken = s._sendToken ∧
    (pushData s (dropEmpty data))._currBuffer = s._currBuffer ∧
    (pushData s (dropEmpty data))._sentBytes = s._sentBytes := by
  cases hd : dropEmpty data with
  | none =>
    exact ⟨hwf, fun _ => rfl, rfl, rfl, rfl, rfl, rfl, rfl⟩
  | some d =>
    have hne := dropEmpty_ne data d hd
    refine ⟨⟨?_, hwf.2.1, hwf.2.2⟩, fun extra => ?_, rfl, rfl, ?_, rfl, rfl, rfl⟩
    · intro q hq
      have hq2 : q ∈ s._outQueue ++ [d] := hq
      rcases List.mem_append.mp hq2 with h | h
      · exact hwf.1 q h
      · simp at h
        subst h
        exact hne
    · simp [pend, pushData, List.append_assoc]
    · simp [pendingCount, pushData]
      omega

theorem send_drained (cipher : Cipher) (s : SendBuffer) (nw : Bool) (data : Option Bytes)
    (ws : List WriteRes) (hwf : WF s) :
    WF (send cipher s nw data ws).st ∧
    (send cipher s nw data ws).ret ≠ .fault ∧
    (∀ extra, (send cipher s nw data ws).wire ++ (pend cipher (send cipher s nw data ws).st extra).1 =
        (pend cipher s ((dropEmpty data).toList ++ extra)).1 ∧
      (pend cipher (send cipher s nw data ws).st extra).2 =
        (pend cipher s ((dropEmpty data).toList ++ extra)).2) ∧
    (send cipher s nw data ws).st._encryptAfterFirstPackage = s._encryptAfterFirstPackage ∧
    (send cipher s nw data ws).st._currBufferProcess = s._currBufferProcess ∧
    pendingCount (send cipher s nw data ws).st + (send cipher s nw data ws).st._sentPackage =
      pendingCount s + s._sentPackage + (dropEmpty data).toList.length ∧
    ((send cipher s nw data ws).ret = .pending →
      (send cipher s nw data ws).st._currBuffer.isSome = true) ∧
    (∀ e f, (send cipher s nw data ws).ret = .returned e f → s._sendToken = true →
      (send cipher s nw data ws).st._sendToken = true) := by
  obtain ⟨p1, p2, p3, p4, p5, p6, p7, p8⟩ := pushData_drained cipher s data hwf
  unfold send
  simp only
  by_cases ht : (pushData s (dropEmpty data))._sendToken = true
  · simp only [ht, Bool.not_true, Bool.false_eq_true, if_false]
    have hwf1 : WF { pushData s (dropEmpty data) with _sendToken := false } := p1
    obtain ⟨⟨i1, i2, i3, i4, i5⟩, j2, j3, j4⟩ :=
      realSend_drained cipher ws { pushData s (dropEmpty data) with _sendToken := false } 0 hwf1
    refine ⟨i1, j2, fun extra => ?_, i3.trans p3, i4.trans p4, ?_, fun h => (j3 h).1,
      fun e f h _ => (j4 e f h).1⟩
    · have := i2 extra
      have hp : pend cipher { pushData s (dropEmpty data) with _sendToken := false } extra =
          pend cipher s ((dropEmpty data).toList ++ extra) := p2 extra
      rw [hp] at this
      exact this
    · have hc : pendingCount { pushData s (dropEmpty data) with _sendToken := false } =
          pendingCount (pushData s (dropEmpty data)) := rfl
      rw [i5, hc]
      exact p5
  · have ht2 : (pushData s (dropEmpty data))._sendToken = false := by
      cases h : (pushData s (dropEmpty data))._sendToken
      · rfl
      · exact absurd h ht
    simp only [ht2, Bool.not_false, if_true]
    refine ⟨p1, by simp, fun extra => ?_, p3, p4, p5, by simp, ?_⟩
    · rw [p2 extra]
      exact ⟨rfl, rfl⟩
    · intro e f _ hs
      rw [p6] at ht2
      rw [hs] at ht2
      exact absurd ht2 (by simp)

theorem payloads_cons (op : Op) (ops : List Op) :
    payloads (op :: ops) = op.payload.toList ++ payloads ops := by
  unfold payloads
  cases h : op.payload <;> simp [List.filterMap_cons, h]

theorem run_drained (cipher : Cipher) :
    ∀ (ops : List Op) (s : SendBuffer) (ws : List WriteRes), WF s →
      (∀ op ∈ ops, op.isData = true) →
      WF (run cipher ops s ws).st ∧
      (∀ extra,
        (run cipher ops s ws).wire ++
            (pend cipher (run cipher ops s ws).st (payloads (run cipher ops s ws).left ++ extra)).1 =
          (pend cipher s (payloads ops ++ extra)).1 ∧
        (pend cipher (run cipher ops s ws).st (payloads (run cipher ops s ws).left ++ extra)).2 =
          (pend cipher s (payloads ops ++ extra)).2) ∧
      (run cipher ops s ws).st._encryptAfterFirstPackage = s._encryptAfterFirstPackage ∧
      (run cipher ops s ws).st._currBufferProcess = s._currBufferProcess ∧
      pendingCount (run cipher ops s ws).st + (run cipher ops s ws).st._sentPackage +
          (payloads (run cipher ops s ws).left).length =
        pendingCount s + s._sentPackage + (payloads ops).length ∧
      ((run cipher ops s ws).stuck = true → (run cipher ops s ws).st._currBuffer.isSome = true) ∧
      ((run cipher ops s ws).stuck = false → (run cipher ops s ws).left = []) ∧
      (s._sendToken = true → (run cipher ops s ws).stuck = false →
        (run cipher ops s ws).st._sendToken = true) := by
  intro ops
  induction ops with
  | nil =>
    intro s ws hwf _
    exact ⟨hwf, fun _ => ⟨rfl, rfl⟩, rfl, rfl, rfl, by simp [run], by simp [run], fun h _ => h⟩
  | cons op ops ih =>
    intro s ws hwf hops
    have hop : op.isData = true := hops op (List.mem_cons_self _ _)
    have hrest : ∀ o ∈ ops, o.isData = true := fun o ho => hops o (List.mem_cons_of_mem _ ho)
    cases op with
    | entryEncryptMode key iv sm => simp [Op.isData] at hop
    | entryWebSocketMode d => simp [Op.isData] at hop
    | appendData d =>
      obtain ⟨p1, p2, p3, p4, p5, p6, p7, p8⟩ := pushData_drained cipher s d hwf
      obtain ⟨i1, i2, i3, i4, i5, i6, i7, i8⟩ := ih (pushData s (dropEmpty d)) ws p1 hrest
      have ha : appendData s d = pushData s (dropEmpty d) := rfl
      simp only [run, payloads_cons, Op.payload, ha]
      refine ⟨i1, fun extra => ?_, i3.trans p3, i4.trans p4, ?_, i6, i7, fun h => i8 (p6.trans h)⟩
      · have := i2 extra
        have hp := p2 (payloads ops ++ extra)
        rw [hp] at this
        simpa [List.append_assoc] using this
      · rw [i5, List.length_append]
        omega
    | send nw d =>
      obtain ⟨p1, p2, p3, p4, p5, p6, p7, p8⟩ := send_drained cipher s nw d ws hwf
      simp only [run, payloads_cons, Op.payload]
      cases hret : (send cipher s nw d ws).ret with
      | fault => exact absurd hret p2
      | pending =>
        simp only
        refine ⟨p1, fun extra => ?_, p4, p5, ?_, fun _ => p7 hret, by simp, by simp⟩
        · have := p3 (payloads ops ++ extra)
          simpa [List.append_assoc] using this
        · rw [List.length_append]
          omega
      | returned e f =>
        simp only
        obtain ⟨i1, i2, i3, i4, i5, i6, i7, i8⟩ :=
          ih (send cipher s nw d ws).st (send cipher s nw d ws).rest p1 hrest
        refine ⟨i1, fun extra => ?_, i3.trans p4, i4.trans p5, ?_, i6, i7,
          fun h => i8 (p8 e f hret h)⟩
        · have h1 := i2 extra
          have h2 := p3 (payloads ops ++ extra)
          constructor
          · rw [List.append_assoc, h1.1, h2.1, List.append_assoc]
          · rw [h1.2, h2.2, List.append_assoc]
        · rw [i5, List.length_append]
          omega

theorem expectQueue_none (cipher : Cipher) (flag : Bool) (enc : Option Encryptor) (k : Nat)
    (ps : List Bytes) : expectQueue cipher flag none enc k ps = (ps, enc) := by
  induction ps generalizing k with
  | nil => rfl
  | cons p ps ih => simp [expectQueue, processed, ih]

theorem expectQueue_wrap_succ (cipher : Cipher) (flag : Bool) (enc : Option Encryptor) (k : Nat)
    (ps : List Bytes) :
    expectQueue cipher flag (some .addWebSocketWrap) enc (k + 1) ps = (ps.map wsFrame, enc) := by
  induction ps generalizing k with
  | nil => rfl
  | cons p ps ih => simp [expectQueue, processed, ih]

theorem encryptSeq_append (cipher : Cipher) (e : Encryptor) (a b : List Bytes) :
    encryptSeq cipher e (a ++ b) =
      encryptSeq cipher e a ++ encryptSeq cipher { e with fed := e.fed ++ a } b := by
  induction a generalizing e with
  | nil => simp [encryptSeq]
  | cons p ps ih =>
    have := ih { e with fed := e.fed ++ [p] }
    simp only [List.append_assoc, List.singleton_append] at this
    simp only [List.cons_append, encryptSeq, Encryptor.encrypt]
    exact congrArg (fun l => cipher e p :: l) this

theorem expectQueue_encrypt (cipher : Cipher) (flag : Bool) (e : Encryptor) (k : Nat)
    (ps : List Bytes) (h : k > 0 ∨ flag = false) :
    expectQueue cipher flag (some .encryptData) (some e) k ps =
      (encryptSeq cipher e ps, some { e with fed := e.fed ++ ps }) := by
  induction ps generalizing e k with
  | nil => simp [expectQueue, encryptSeq]
  | cons p ps ih =>
    have h2 : k + 1 > 0 ∨ flag = false := Or.inl (Nat.succ_pos k)
    simp only [expectQueue, processed, h, if_true, encryptSeq, ih _ _ h2]
    simp [Encryptor.encrypt]

theorem wf_fresh (flag : Bool) : WF (SendBuffer.fresh flag) := by
  refine ⟨?_, ?_, ?_⟩ <;> simp [SendBuffer.fresh]

theorem run_idle (cipher : Cipher) (ops : List Op) (s : SendBuffer) (ws : List WriteRes)
    (hwf : WF s) (hops : ∀ op ∈ ops, op.isData = true)
    (hq : (run cipher ops s ws).st._outQueue = [])
    (hc : (run cipher ops s ws).st._currBuffer = none) :
    (run cipher ops s ws).wire = (pend cipher s (payloads ops)).1 ∧
    (run cipher ops s ws).st._encryptor = (pend cipher s (payloads ops)).2 ∧
    (run cipher ops s ws).left = [] := by
  obtain ⟨i1, i2, i3, i4, i5, i6, i7, i8⟩ := run_drained cipher ops s ws hwf hops
  have hstuck : (run cipher ops s ws).stuck = false := by
    cases h : (run cipher ops s ws).stuck
    · rfl
    · have := i6 h
      rw [hc] at this
      simp at this
  have hleft := i7 hstuck
  have h0 := i2 []
  rw [hleft] at h0
  simp only [List.append_nil] at h0
  refine ⟨?_, ?_, hleft⟩
  · rw [← h0.1]
    simp [pend, hc, hq, payloads, expectQueue]
  · rw [← h0.2]
    simp [pend, hc, hq, payloads, expectQueue]

theorem entryWebSocketMode_eq (s : SendBuffer) (d : Option Bytes) :
    entryWebSocketMode s d =
      { pushData s (dropEmpty d) with _currBufferProcess := some .addWebSocketWrap } := by
  cases d with
  | none => rfl
  | some x =>
    cases x with
    | nil => rfl
    | cons a as => rfl

theorem wf_entryWebSocketMode (s : SendBuffer) (d : Option Bytes) (hwf : WF s) :
    WF (entryWebSocketMode s d) := by
  rw [entryWebSocketMode_eq]
  obtain ⟨p1, -⟩ := pushData_drained (fun _ b => b) s d hwf
  exact ⟨p1.1, p1.2.1, fun h => by simp at h⟩

theorem newEncryptor_eq (key iv : Bytes) (sm : Bool) :
    (if sm then StreamEncryptor key iv else PackageEncryptor key iv) =
      { streamMode := sm, key := key, iv := iv, fed := [] } := by
  cases sm <;> rfl

theorem entryEncryptMode_eq (s : SendBuffer) (key iv : Bytes) (sm : Bool) :
    entryEncryptMode s key iv sm =
      if s._encryptor = none ∧ s._sentBytes = 0 ∧ s._sendToken = true then
        (true, { s with
          _encryptor := some { streamMode := sm, key := key, iv := iv, fed := [] }
          _currBufferProcess := some CurrBufferProcessFunc.encryptData })
      else (false, s) := by
  unfold entryEncryptMode
  rw [newEncryptor_eq]
  cases he : s._encryptor <;> by_cases hb : s._sentBytes = 0 <;>
    cases ht : s._sendToken <;> simp [hb]

theorem entryEncryptMode_true (s : SendBuffer) (key iv : Bytes) (sm : Bool)
    (hact : (entryEncryptMode s key iv sm).1 = true) :
    entryEncryptMode s key iv sm =
      (true, { s with
          _encryptor := some { streamMode := sm, key := key, iv := iv, fed := [] }
          _currBufferProcess := some CurrBufferProcessFunc.encryptData }) := by
  rw [entryEncryptMode_eq] at hact ⊢
  split_ifs at hact ⊢ with h
  rfl

theorem wf_reachable (cipher : Cipher) (s : SendBuffer) (h : ReachableByData cipher s) : WF s := by
  obtain ⟨flag, ops, ws, hops, rfl⟩ := h
  exact (run_drained cipher ops (SendBuffer.fresh flag) ws (wf_fresh flag) hops).1

theorem pend_encrypt (cipher : Cipher) (t : SendBuffer) (e : Encryptor) (X : List Bytes)
    (hproc : t._currBufferProcess = some .encryptData)
    (hflag : t._encryptAfterFirstPackage = false) (henc : t._encryptor = some e) :
    pend cipher t X =
      (inFlight t ++ (encryptSeq cipher e (t._outQueue ++ X)).flatten,
        some { e with fed := e.fed ++ (t._outQueue ++ X) }) := by
  cases hc : t._currBuffer <;>
    simp [pend, inFlight, hc, hproc, hflag, henc, expectQueue_encrypt]

theorem activation_aux (cipher : Cipher) (s1 : SendBuffer) (e0 : Encryptor) (ops : List Op)
    (ws : List WriteRes) (hwf1 : WF s1)
    (hproc1 : s1._currBufferProcess = some .encryptData)
    (hflag : s1._encryptAfterFirstPackage = false) (henc : s1._encryptor = some e0)
    (hfed0 : e0.fed = []) (hops : ∀ op ∈ ops, op.isData = true) :
    ∃ fed : List Bytes,
      (run cipher ops s1 ws).st._encryptor = some { e0 with fed := fed } ∧
      fed ++ ((run cipher ops s1 ws).st._outQueue ++ payloads (run cipher ops s1 ws).left) =
        s1._outQueue ++ payloads ops ∧
      (run cipher ops s1 ws).wire ++ inFlight (run cipher ops s1 ws).st =
        inFlight s1 ++ (encryptSeq cipher e0 fed).flatten := by
  obtain ⟨i1, i2, i3, i4, -⟩ := run_drained cipher ops s1 ws hwf1 hops
  generalize run cipher ops s1 ws = r at i1 i2 i3 i4 ⊢
  have hproc : r.st._currBufferProcess = some .encryptData := i4.trans hproc1
  have hfl : r.st._encryptAfterFirstPackage = false := i3.trans hflag
  obtain ⟨er, her⟩ := Option.isSome_iff_exists.mp (i1.2.2 hproc)
  have h0 := i2 []
  simp only [List.append_nil] at h0
  rw [pend_encrypt cipher r.st er _ hproc hfl her,
    pend_encrypt cipher s1 e0 _ hproc1 hflag henc] at h0
  obtain ⟨hw, he⟩ := h0
  simp only [Option.some.injEq, Encryptor.mk.injEq, hfed0, List.nil_append] at he
  obtain ⟨hsm, hkey, hiv, hfed⟩ := he
  have her2 : er = { e0 with fed := er.fed } := by
    cases er
    cases e0
    simp_all
  refine ⟨er.fed, ?_, hfed, ?_⟩
  · rw [her]
    exact congrArg some her2
  · simp only at hw hfed
    rw [← hfed, encryptSeq_append cipher e0 er.fed, hfed0, List.nil_append, ← her2,
      List.flatten_append, ← List.append_assoc, ← List.append_assoc] at hw
    exact List.append_cancel_right hw

theorem callProcess_frame (cipher : Cipher) (f : CurrBufferProcessFunc) (s s2 : SendBuffer)
    (h : callProcess cipher f s = some s2) :
    s2._offset = s._offset ∧ s2._sentBytes = s._sentBytes ∧ s2._sendToken = s._sendToken ∧
      s2._sentPackage = s._sentPackage := by
  cases f with
  | encryptData =>
    simp only [callProcess, encryptData, encryptCurrBuffer] at h
    split_ifs at h <;> first
      | (split at h
         · simp only [Option.some.injEq] at h
           subst h
           exact ⟨rfl, rfl, rfl, rfl⟩
         · simp at h)
      | (simp only [Option.some.injEq] at h
         subst h
         exact ⟨rfl, rfl, rfl, rfl⟩)
  | addWebSocketWrap =>
    simp only [callProcess, addWebSocketWrap] at h
    split_ifs at h <;> (try split at h) <;> (try split_ifs at h) <;> (try split at h) <;>
      first
        | (simp only [Option.some.injEq] at h
           subst h
           exact ⟨rfl, rfl, rfl, rfl⟩)
        | simp at h

theorem fetch_ready (cipher : Cipher) (s s1 : SendBuffer) (n : Nat) (buf : Bytes)
    (h : fetch cipher s n = .ready s1 buf) :
    s1._currBuffer = some buf ∧ s1._offset ≤ buf.length ∧ s1._sentBytes = s._sentBytes ∧
      s1._sendToken = s._sendToken ∧ s1._sentPackage = s._sentPackage := by
  unfold fetch at h
  split at h
  · rename_i b hb
    split_ifs at h with hle
    simp only [Fetch.ready.injEq] at h
    obtain ⟨rfl, rfl⟩ := h
    exact ⟨hb, hle, rfl, rfl, rfl⟩
  · split at h
    · simp at h
    · simp only at h
      split at h
      · simp only [Fetch.ready.injEq] at h
        obtain ⟨rfl, rfl⟩ := h
        exact ⟨rfl, Nat.zero_le _, rfl, rfl, rfl⟩
      · split at h
        · simp at h
        · rename_i s2 hs2
          have hfr := callProcess_frame cipher _ _ _ hs2
          split at h
          · rename_i b hb
            simp only [Fetch.ready.injEq] at h
            obtain ⟨rfl, rfl⟩ := h
            refine ⟨hb, ?_, hfr.2.1, hfr.2.2.1, hfr.2.2.2⟩
            rw [hfr.1]
            exact Nat.zero_le _
          · simp at h

theorem realSend_of_fetch_ready (cipher : Cipher) (ws : List WriteRes) (s s1 : SendBuffer)
    (n : Nat) (buf : Bytes) (h : fetch cipher s n = .ready s1 buf) :
    realSend cipher ws s n = realSend cipher ws s1 n := by
  obtain ⟨hc, hoff, -, -, -⟩ := fetch_ready cipher s s1 n buf h
  have h1 := fetch_curr cipher s1 n buf hc hoff
  cases ws <;> simp only [realSend, h, h1]

theorem chunk_length (buf : Bytes) (off room : Nat) :
    ((buf.drop off).take (min room (buf.length - off))).length = min room (buf.length - off) := by
  simp only [List.length_take, List.length_drop]
  omega

theorem realSend_pending (cipher : Cipher) (pre : List WriteRes) :
    ∀ (s : SendBuffer) (n : Nat), (realSend cipher pre s n).ret = .pending →
      (realSend cipher pre s n).st._sentBytes = s._sentBytes ∧
      (realSend cipher pre s n).st._sendToken = s._sendToken ∧
      (∃ buf, (realSend cipher pre s n).st._currBuffer = some buf ∧
        (realSend cipher pre s n).st._offset ≤ buf.length) ∧
      ∀ post, realSend cipher (pre ++ post) s n =
        { st := (realSend cipher post (realSend cipher pre s n).st
            (n + (realSend cipher pre s n).wire.length)).st
          wire := (realSend cipher pre s n).wire ++ (realSend cipher post (realSend cipher pre s n).st
            (n + (realSend cipher pre s n).wire.length)).wire
          rest := (realSend cipher post (realSend cipher pre s n).st
            (n + (realSend cipher pre s n).wire.length)).rest
          ret := (realSend cipher post (realSend cipher pre s n).st
            (n + (realSend cipher pre s n).wire.length)).ret } := by
  induction pre with
  | nil =>
    intro s n h
    cases hf : fetch cipher s n with
    | done s1 => simp [realSend, hf] at h
    | fault s1 => simp [realSend, hf] at h
    | ready s1 buf =>
      obtain ⟨hc, hoff, hb, ht, -⟩ := fetch_ready cipher s s1 n buf hf
      have hr : realSend cipher [] s n = { st := s1, wire := [], rest := [], ret := .pending } := by
        simp only [realSend, hf]
      rw [hr]
      refine ⟨hb, ht, ⟨buf, hc, hoff⟩, fun post => ?_⟩
      simp only [List.nil_append, List.length_nil, Nat.add_zero]
      rw [realSend_of_fetch_ready cipher post s s1 n buf hf]
  | cons w pre ih =>
    intro s n h
    cases hf : fetch cipher s n with
    | done s1 => simp [realSend, hf] at h
    | fault s1 => simp [realSend, hf] at h
    | ready s1 buf =>
      obtain ⟨hc, hoff, hb, ht, -⟩ := fetch_ready cipher s s1 n buf hf
      cases w with
      | fail e =>
        by_cases h1 : e = EAGAIN ∨ e = EWOULDBLOCK
        · simp [realSend, hf, h1] at h
        · by_cases h2 : e = EINTR
          · have hr : ∀ l, realSend cipher (.fail e :: l) s n = realSend cipher l s1 n := by
              intro l
              subst h2
              simp only [realSend, hf, h1, if_false, if_true]
            rw [hr] at h
            obtain ⟨i1, i2, i3, i4⟩ := ih s1 n h
            rw [hr]
            refine ⟨i1.trans hb, i2.trans ht, i3, fun post => ?_⟩
            rw [List.cons_append, hr]
            exact i4 post
          · simp [realSend, hf, h1, h2] at h
      | ok room =>
        have hr : ∀ l, realSend cipher (.ok room :: l) s n =
            { realSend cipher l (advance s1 buf (min room (buf.length - s1._offset)))
                (n + min room (buf.length - s1._offset)) with
              wire := (buf.drop s1._offset).take (min room (buf.length - s1._offset)) ++
                (realSend cipher l (advance s1 buf (min room (buf.length - s1._offset)))
                  (n + min room (buf.length - s1._offset))).wire } := by
          intro l
          simp only [realSend, hf]
        rw [hr] at h
        obtain ⟨i1, i2, i3, i4⟩ := ih _ _ h
        have hadv := advance_frame s1 buf (min room (buf.length - s1._offset))
        rw [hr]
        refine ⟨i1.trans (hadv.2.trans hb), i2.trans (hadv.1.trans ht), i3, fun post => ?_⟩
        rw [List.cons_append, hr, i4 post]
        simp only [List.length_append, chunk_length, List.append_assoc, Nat.add_assoc]

theorem pushData_frame (s : SendBuffer) (data : Option Bytes) :
    (pushData s data)._sendToken = s._sendToken ∧ (pushData s data)._sentBytes = s._sentBytes ∧
    (pushData s data)._currBuffer = s._currBuffer ∧ (pushData s data)._offset = s._offset ∧
    (pushData s data)._sentPackage = s._sentPackage := by
  cases data <;> exact ⟨rfl, rfl, rfl, rfl, rfl⟩

theorem send_holding (cipher : Cipher) (s : SendBuffer) (nw : Bool) (data : Option Bytes)
    (ws : List WriteRes) (htok : s._sendToken = true) :
    send cipher s nw data ws =
      realSend cipher ws { pushData s (dropEmpty data) with _sendToken := false } 0 := by
  have h := (pushData_frame s (dropEmpty data)).1
  rw [htok] at h
  simp [send, h]

theorem realSend_failure (cipher : Cipher) (s0 : SendBuffer) (n : Nat) (pre post : List WriteRes)
    (e : Int) (he : e ≠ EINTR) (hpre : (realSend cipher pre s0 n).ret = .pending) :
    (realSend cipher pre s0 n).st._sendToken = s0._sendToken ∧
    realSend cipher (pre ++ .fail e :: post) s0 n =
      { st := { (realSend cipher pre s0 n).st with
          _sendToken := true
          _sentBytes := s0._sentBytes + (n + (realSend cipher pre s0 n).wire.length) }
        wire := (realSend cipher pre s0 n).wire
        rest := post
        ret := if e = EAGAIN ∨ e = EWOULDBLOCK then .returned 0 true else .returned e false } := by
  obtain ⟨i1, i2, ⟨buf, hc, hoff⟩, i4⟩ := realSend_pending cipher pre s0 n hpre
  refine ⟨i2, ?_⟩
  rw [i4]
  generalize realSend cipher pre s0 n = o at i1 i2 hc hoff ⊢
  have hf := fetch_curr cipher o.st (n + o.wire.length) buf hc hoff
  by_cases h1 : e = EAGAIN ∨ e = EWOULDBLOCK
  · simp only [realSend, hf, h1, if_true, List.append_nil, i1]
  · simp only [realSend, hf, h1, he, if_false, List.append_nil, i1]

theorem realSend_short (cipher : Cipher) (ws : List WriteRes) :
    ∀ (s : SendBuffer) (n : Nat) (buf : Bytes), s._currBuffer = some buf →
      s._offset ≤ buf.length →
      (realSend cipher ws s n).wire.length < buf.length - s._offset →
      (realSend cipher ws s n).st._currBuffer = some buf ∧
      (realSend cipher ws s n).st._offset = s._offset + (realSend cipher ws s n).wire.length ∧
      (realSend cipher ws s n).st._sentPackage = s._sentPackage := by
  induction ws with
  | nil =>
    intro s n buf hc hoff _
    have hf := fetch_curr cipher s n buf hc hoff
    simp only [realSend, hf]
    refine ⟨hc, ?_, ?_⟩ <;> simp
  | cons w ws ih =>
    intro s n buf hc hoff hlen
    have hf := fetch_curr cipher s n buf hc hoff
    cases w with
    | fail e =>
      by_cases h1 : e = EAGAIN ∨ e = EWOULDBLOCK
      · simp only [realSend, hf, h1, if_true]
        refine ⟨hc, ?_, ?_⟩ <;> simp
      · by_cases h2 : e = EINTR
        · subst h2
          simp only [realSend, hf, h1, if_false, if_true] at hlen ⊢
          exact ih s n buf hc hoff hlen
        · simp only [realSend, hf, h1, h2, if_false]
          refine ⟨hc, ?_, ?_⟩ <;> simp
    | ok room =>
      simp only [realSend, hf, List.length_append, chunk_length] at hlen ⊢
      have hk : s._offset + min room (buf.length - s._offset) ≠ buf.length := by omega
      have hadv : advance s buf (min room (buf.length - s._offset)) =
          { s with _offset := s._offset + min room (buf.length - s._offset) } := by
        simp only [advance, hk, if_false]
      rw [hadv] at hlen ⊢
      obtain ⟨i1, i2, i3⟩ := ih { s with _offset := s._offset + min room (buf.length - s._offset) }
        (n + min room (buf.length - s._offset)) buf hc (by show _ + _ ≤ _; omega)
        (by show _ < _ - (_ + _); omega)
      refine ⟨i1, ?_, i3⟩
      rw [i2]
      show _ + _ + _ = _
      omega

theorem send_short (cipher : Cipher) (s : SendBuffer) (nw : Bool) (data : Option Bytes)
    (ws : List WriteRes) (buf : Bytes) (hc : s._currBuffer = some buf)
    (hoff : s._offset ≤ buf.length)
    (hlen : (send cipher s nw data ws).wire.length < buf.length - s._offset) :
    (send cipher s nw data ws).st._currBuffer = some buf ∧
    (send cipher s nw data ws).st._offset = s._offset + (send cipher s nw data ws).wire.length ∧
    (send cipher s nw data ws).st._sentPackage = s._sentPackage := by
  obtain ⟨p1, -, p3, p4, p5⟩ := pushData_frame s (dropEmpty data)
  by_cases ht : s._sendToken = true
  · rw [send_holding cipher s nw data ws ht] at hlen ⊢
    generalize pushData s (dropEmpty data) = s1 at p1 p3 p4 p5 hlen ⊢
    have hc1 : ({ s1 with _sendToken := false } : SendBuffer)._currBuffer = some buf := p3.trans hc
    obtain ⟨i1, i2, i3⟩ := realSend_short cipher ws { s1 with _sendToken := false } 0 buf hc1
      (by show s1._offset ≤ _; omega)
      (lt_of_lt_of_eq hlen (congrArg (fun x => buf.length - x) p4.symm))
    exact ⟨i1, i2.trans (congrArg (fun x => x + _) p4), i3.trans p5⟩
  · have ht2 : (pushData s (dropEmpty data))._sendToken = false := by
      rw [p1]
      cases h : s._sendToken
      · rfl
      · exact absurd h ht
    simp only [send, ht2, Bool.not_false, if_true]
    exact ⟨p3.trans hc, by simp [p4], p5⟩

theorem run_short (cipher : Cipher) :
    ∀ (ops : List Op) (s : SendBuffer) (ws : List WriteRes) (buf : Bytes),
      (∀ op ∈ ops, op.isData = true) → s._currBuffer = some buf → s._offset ≤ buf.length →
      (run cipher ops s ws).wire.length < buf.length - s._offset →
      (run cipher ops s ws).st._currBuffer = some buf ∧
      (run cipher ops s ws).st._offset = s._offset + (run cipher ops s ws).wire.length ∧
      (run cipher ops s ws).st._sentPackage = s._sentPackage := by
  intro ops
  induction ops with
  | nil =>
    intro s ws buf _ hc _ _
    exact ⟨hc, rfl, rfl⟩
  | cons op ops ih =>
    intro s ws buf hops hc hoff hlen
    have hop : op.isData = true := hops op (List.mem_cons_self _ _)
    have hrest : ∀ o ∈ ops, o.isData = true := fun o ho => hops o (List.mem_cons_of_mem _ ho)
    cases op with
    | entryEncryptMode key iv sm => simp [Op.isData] at hop
    | entryWebSocketMode d => simp [Op.isData] at hop
    | appendData d =>
      obtain ⟨-, -, p3, p4, p5⟩ := pushData_frame s (dropEmpty d)
      have ha : appendData s d = pushData s (dropEmpty d) := rfl
      simp only [run, ha] at hlen ⊢
      obtain ⟨i1, i2, i3⟩ := ih (pushData s (dropEmpty d)) ws buf hrest (p3.trans hc)
        (by rw [p4]; exact hoff) (by rw [p4]; exact hlen)
      exact ⟨i1, by rw [i2, p4], i3.trans p5⟩
    | send nw d =>
      simp only [run] at hlen ⊢
      cases hret : (send cipher s nw d ws).ret with
      | fault =>
        simp only [hret] at hlen ⊢
        exact send_short cipher s nw d ws buf hc hoff hlen
      | pending =>
        simp only [hret] at hlen ⊢
        exact send_short cipher s nw d ws buf hc hoff hlen
      | returned e f =>
        simp only [hret, List.length_append] at hlen ⊢
        obtain ⟨j1, j2, j3⟩ := send_short cipher s nw d ws buf hc hoff (by omega)
        obtain ⟨i1, i2, i3⟩ := ih (send cipher s nw d ws).st (send cipher s nw d ws).rest buf
          hrest j1 (by rw [j2]; omega) (by rw [j2]; omega)
        exact ⟨i1, by rw [i2, j2]; omega, i3.trans j3⟩

theorem realSend_ok (cipher : Cipher) (l : List WriteRes) (s s1 : SendBuffer) (buf : Bytes)
    (room n : Nat) (hf : fetch cipher s n = .ready s1 buf) :
    realSend cipher (.ok room :: l) s n =
      { st := (realSend cipher l (advance s1 buf (min room (buf.length - s1._offset)))
            (n + min room (buf.length - s1._offset))).st
        wire := (buf.drop s1._offset).take (min room (buf.length - s1._offset)) ++
          (realSend cipher l (advance s1 buf (min room (buf.length - s1._offset)))
            (n + min room (buf.length - s1._offset))).wire
        rest := (realSend cipher l (advance s1 buf (min room (buf.length - s1._offset)))
            (n + min room (buf.length - s1._offset))).rest
        ret := (realSend cipher l (advance s1 buf (min room (buf.length - s1._offset)))
            (n + min room (buf.length - s1._offset))).ret } := by
  simp only [realSend, hf]

theorem realSend_again (cipher : Cipher) (l : List WriteRes) (s s1 : SendBuffer) (buf : Bytes)
    (n : Nat) (hf : fetch cipher s n = .ready s1 buf) :
    realSend cipher (.fail EAGAIN :: l) s n =
      { st := { s1 with _sentBytes := s1._sentBytes + n, _sendToken := true }
        wire := [], rest := l, ret := .returned 0 true } := by
  simp only [realSend, hf, true_or, if_true]

theorem fetch_count (cipher : Cipher) (s : SendBuffer) (n : Nat) :
    (fetch cipher s n).state._sentPackage = s._sentPackage := by
  unfold fetch
  split
  · split_ifs <;> rfl
  · split
    · rfl
    · simp only
      split
      · rfl
      · split
        · rfl
        · rename_i s2 hs2
          have hfr := callProcess_frame cipher _ _ _ hs2
          split <;> exact hfr.2.2.2

theorem advance_mono (s : SendBuffer) (buf : Bytes) (k : Nat) :
    s._sentPackage ≤ (advance s buf k)._sentPackage := by
  simp only [advance]
  split_ifs
  · exact Nat.le_succ _
  · exact Nat.le_refl _

/-- The counter of completed payloads never decreases during `realSend`. -/
theorem realSend_mono (cipher : Cipher) (ws : List WriteRes) :
    ∀ (s : SendBuffer) (n : Nat), s._sentPackage ≤ (realSend cipher ws s n).st._sentPackage := by
  induction ws with
  | nil =>
    intro s n
    have hf := fetch_count cipher s n
    simp only [realSend]
    cases h : fetch cipher s n <;> rw [h] at hf <;> exact le_of_eq hf.symm
  | cons w ws ih =>
    intro s n
    have hf := fetch_count cipher s n
    simp only [realSend]
    cases h : fetch cipher s n with
    | done s1 =>
      rw [h] at hf
      exact le_of_eq hf.symm
    | fault s1 =>
      rw [h] at hf
      exact le_of_eq hf.symm
    | ready s1 buf =>
      rw [h] at hf
      have hf1 : s1._sentPackage = s._sentPackage := hf
      cases w with
      | fail e =>
        simp only
        split_ifs
        · exact le_of_eq hf1.symm
        · exact le_trans (le_of_eq hf1.symm) (ih s1 n)
        · exact le_of_eq hf1.symm
      | ok room =>
        simp only
        exact le_trans (le_of_eq hf1.symm) (le_trans (advance_mono s1 buf _) (ih _ _))

theorem send_mono (cipher : Cipher) (s : SendBuffer) (nw : Bool) (data : Option Bytes)
    (ws : List WriteRes) : s._sentPackage ≤ (send cipher s nw data ws).st._sentPackage := by
  have p5 := (pushData_frame s (dropEmpty data)).2.2.2.2
  simp only [send]
  split_ifs
  · exact le_of_eq p5.symm
  · exact le_trans (le_of_eq p5.symm)
      (realSend_mono cipher ws { pushData s (dropEmpty data) with _sendToken := false } 0)

theorem run_mono (cipher : Cipher) :
    ∀ (ops : List Op) (s : SendBuffer) (ws : List WriteRes),
      (∀ op ∈ ops, op.isData = true) → s._sentPackage ≤ (run cipher ops s ws).st._sentPackage := by
  intro ops
  induction ops with
  | nil =>
    intro s ws _
    exact Nat.le_refl _
  | cons op ops ih =>
    intro s ws hops
    have hop : op.isData = true := hops op (List.mem_cons_self _ _)
    have hrest : ∀ o ∈ ops, o.isData = true := fun o ho => hops o (List.mem_cons_of_mem _ ho)
    cases op with
    | entryEncryptMode key iv sm => simp [Op.isData] at hop
    | entryWebSocketMode d => simp [Op.isData] at hop
    | appendData d =>
      have p5 := (pushData_frame s (dropEmpty d)).2.2.2.2
      have ha : appendData s d = pushData s (dropEmpty d) := rfl
      simp only [run, ha]
      exact le_trans (le_of_eq p5.symm) (ih _ ws hrest)
    | send nw d =>
      simp only [run]
      cases hret : (send cipher s nw d ws).ret with
      | fault => exact send_mono cipher s nw d ws
      | pending => exact send_mono cipher s nw d ws
      | returned e f => exact le_trans (send_mono cipher s nw d ws) (ih _ _ hrest)

/-- Once `write` has accepted the rest of the buffer in flight, the buffer
has been counted in `_sentPackage`. -/
theorem realSend_long (cipher : Cipher) (ws : List WriteRes) :
    ∀ (s : SendBuffer) (n : Nat) (buf : Bytes), s._currBuffer = some buf →
      s._offset < buf.length →
      buf.length - s._offset ≤ (realSend cipher ws s n).wire.length →
      s._sentPackage + 1 ≤ (realSend cipher ws s n).st._sentPackage := by
  induction ws with
  | nil =>
    intro s n buf hc hoff hlen
    have hf := fetch_curr cipher s n buf hc (Nat.le_of_lt hoff)
    simp only [realSend, hf, List.length_nil] at hlen
    omega
  | cons w ws ih =>
    intro s n buf hc hoff hlen
    have hf := fetch_curr cipher s n buf hc (Nat.le_of_lt hoff)
    cases w with
    | fail e =>
      by_cases h1 : e = EAGAIN ∨ e = EWOULDBLOCK
      · simp only [realSend, hf, h1, if_true, List.length_nil] at hlen
        omega
      · by_cases h2 : e = EINTR
        · subst h2
          simp only [realSend, hf, h1, if_false, if_true] at hlen ⊢
          exact ih s n buf hc hoff hlen
        · simp only [realSend, hf, h1, h2, if_false, List.length_nil] at hlen
          omega
    | ok room =>
      simp only [realSend, hf, List.length_append, chunk_length] at hlen ⊢
      by_cases hk : s._offset + min room (buf.length - s._offset) = buf.length
      · have hadv : (advance s buf (min room (buf.length - s._offset)))._sentPackage =
            s._sentPackage + 1 := by
          simp only [advance, hk, if_true]
        have hm := realSend_mono cipher ws (advance s buf (min room (buf.length - s._offset)))
          (n + min room (buf.length - s._offset))
        omega
      · have hadv : advance s buf (min room (buf.length - s._offset)) =
            { s with _offset := s._offset + min room (buf.length - s._offset) } := by
          simp only [advance, hk, if_false]
        rw [hadv] at hlen ⊢
        exact ih { s with _offset := s._offset + min room (buf.length - s._offset) }
          (n + min room (buf.length - s._offset)) buf hc (by show _ + _ < _; omega)
          (by show _ - (_ + _) ≤ _; omega)

theorem send_long (cipher : Cipher) (s : SendBuffer) (nw : Bool) (data : Option Bytes)
    (ws : List WriteRes) (buf : Bytes) (hc : s._currBuffer = some buf)
    (hoff : s._offset < buf.length)
    (hlen : buf.length - s._offset ≤ (send cipher s nw data ws).wire.length) :
    s._sentPackage + 1 ≤ (send cipher s nw data ws).st._sentPackage := by
  obtain ⟨p1, -, p3, p4, p5⟩ := pushData_frame s (dropEmpty data)
  by_cases ht : s._sendToken = true
  · rw [send_holding cipher s nw data ws ht] at hlen ⊢
    generalize pushData s (dropEmpty data) = s1 at p1 p3 p4 p5 hlen ⊢
    have hc1 : ({ s1 with _sendToken := false } : SendBuffer)._currBuffer = some buf := p3.trans hc
    have i := realSend_long cipher ws { s1 with _sendToken := false } 0 buf hc1
      (by show s1._offset < _; omega)
      (le_of_eq_of_le (congrArg (fun x => buf.length - x) p4) hlen)
    exact le_of_eq_of_le (congrArg (fun x => x + 1) p5.symm) i
  · have ht2 : (pushData s (dropEmpty data))._sendToken = false := by
      rw [p1]
      cases h : s._sendToken
      · rfl
      · exact absurd h ht
    simp only [send, ht2, Bool.not_false, if_true, List.length_nil] at hlen
    omega

theorem run_long (cipher : Cipher) :
    ∀ (ops : List Op) (s : SendBuffer) (ws : List WriteRes) (buf : Bytes),
      (∀ op ∈ ops, op.isData = true) → s._currBuffer = some buf → s._offset < buf.length →
      buf.length - s._offset ≤ (run cipher ops s ws).wire.length →
      s._sentPackage + 1 ≤ (run cipher ops s ws).st._sentPackage := by
  intro ops
  induction ops with
  | nil =>
    intro s ws buf _ hc hoff hlen
    simp only [run, List.length_nil] at hlen
    omega
  | cons op ops ih =>
    intro s ws buf hops hc hoff hlen
    have hop : op.isData = true := hops op (List.mem_cons_self _ _)
    have hrest : ∀ o ∈ ops, o.isData = true := fun o ho => hops o (List.mem_cons_of_mem _ ho)
    cases op with
    | entryEncryptMode key iv sm => simp [Op.isData] at hop
    | entryWebSocketMode d => simp [Op.isData] at hop
    | appendData d =>
      obtain ⟨-, -, p3, p4, p5⟩ := pushData_frame s (dropEmpty d)
      have ha : appendData s d = pushData s (dropEmpty d) := rfl
      simp only [run, ha] at hlen ⊢
      have i := ih (pushData s (dropEmpty d)) ws buf hrest (p3.trans hc)
        (by rw [p4]; exact hoff) (by rw [p4]; exact hlen)
      omega
    | send nw d =>
      simp only [run] at hlen ⊢
      cases hret : (send cipher s nw d ws).ret with
      | fault =>
        simp only [hret] at hlen ⊢
        exact send_long cipher s nw d ws buf hc hoff hlen
      | pending =>
        simp only [hret] at hlen ⊢
        exact send_long cipher s nw d ws buf hc hoff hlen
      | returned e f =>
        simp only [hret, List.length_append] at hlen ⊢
        by_cases hsh : (send cipher s nw d ws).wire.length < buf.length - s._offset
        · obtain ⟨j1, j2, j3⟩ := send_short cipher s nw d ws buf hc (Nat.le_of_lt hoff) hsh
          have i := ih (send cipher s nw d ws).st (send cipher s nw d ws).rest buf
            hrest j1 (by rw [j2]; omega) (by rw [j2]; omega)
          omega
        · have j := send_long cipher s nw d ws buf hc hoff (by omega)
          have i := run_mono cipher ops (send cipher s nw d ws).st (send cipher s nw d ws).rest hrest
          omega

/-- The call of `send` whose single `write` accepts the whole rest of the
buffer in flight writes that rest and counts the buffer once. -/
theorem send_finish (cipher : Cipher) (s : SendBuffer) (nw : Bool) (buf : Bytes) (room : Nat)
    (hc : s._currBuffer = some buf) (hoff : s._offset ≤ buf.length)
    (htok : s._sendToken = true) (hroom : buf.length - s._offset ≤ room) :
    (send cipher s nw none [.ok room]).wire = buf.drop s._offset ∧
    (send cipher s nw none [.ok room]).st._sentPackage = s._sentPackage + 1 := by
  have h0 : send cipher s nw none [.ok room] =
      realSend cipher [.ok room] { s with _sendToken := false } 0 :=
    send_holding cipher s nw none _ htok
  have hf := fetch_curr cipher { s with _sendToken := false } 0 buf hc hoff
  rw [h0, realSend_ok cipher _ _ _ buf room 0 hf]
  have hmin : min room (buf.length - s._offset) = buf.length - s._offset := Nat.min_eq_right hroom
  have hfull : s._offset + (buf.length - s._offset) = buf.length := by omega
  have hadv : (advance { s with _sendToken := false } buf (buf.length - s._offset))._sentPackage =
      s._sentPackage + 1 := by
    simp only [advance, hfull, if_true]
  show (buf.drop s._offset).take (min room (buf.length - s._offset)) ++
      (realSend cipher [] (advance { s with _sendToken := false } buf
        (min room (buf.length - s._offset))) (0 + min room (buf.length - s._offset))).wire = _ ∧
    (realSend cipher [] (advance { s with _sendToken := false } buf
        (min room (buf.length - s._offset))) (0 + min room (buf.length - s._offset))).st._sentPackage = _
  rw [hmin]
  have htake : (buf.drop s._offset).take (buf.length - s._offset) = buf.drop s._offset :=
    List.take_of_length_le (le_of_eq (List.length_drop _ _))
  have hfc := fetch_count cipher (advance { s with _sendToken := false } buf
    (buf.length - s._offset)) (0 + (buf.length - s._offset))
  rw [htake]
  simp only [realSend]
  cases hfe : fetch cipher (advance { s with _sendToken := false } buf
      (buf.length - s._offset)) (0 + (buf.length - s._offset)) with
  | done s1 =>
    rw [hfe] at hfc
    exact ⟨List.append_nil _, (show s1._sentPackage = _ from hfc).trans hadv⟩
  | ready s1 b =>
    rw [hfe] at hfc
    exact ⟨List.append_nil _, (show s1._sentPackage = _ from hfc).trans hadv⟩
  | fault s1 =>
    rw [hfe] at hfc
    exact ⟨List.append_nil _, (show s1._sentPackage = _ from hfc).trans hadv⟩

/-! ## Lemmas on the frame encoding -/

theorem beValue_htobe64 (n : Nat) (h : n < 2 ^ 64) : beValue (htobe64 n) = n := by
  simp only [beValue, htobe64, List.foldl]
  omega

theorem lor_byte (c : Nat) : (128 ||| c) % 256 = 128 ||| (c % 256) := by
  show (0x80 ||| c) % 2 ^ 8 = 0x80 ||| (c % 2 ^ 8)
  apply Nat.eq_of_testBit_eq
  intro i
  simp only [Nat.testBit_mod_two_pow, Nat.testBit_or]
  by_cases hi : i < 8
  · simp [hi]
  · have h128 : Nat.testBit 0x80 i = false := by
      apply Nat.testBit_lt_two_pow
      calc 0x80 < 2 ^ 8 := by norm_num
        _ ≤ 2 ^ i := Nat.pow_le_pow_right (by norm_num) (by omega)
    simp [hi, h128]

theorem wsFrame_small (P : Bytes) (h1 : 2 ≤ P.length) (h2 : P.length ≤ 126) :
    wsFrame P = [0x82, P.length] ++ P := by
  have hg : P.length > 1 := by omega
  have hm : P.length % 2 ^ 8 = P.length := Nat.mod_eq_of_lt (by omega)
  simp only [wsFrame, addWebSocketWrap, SendBuffer.fresh, hg, h2, hm, if_true, if_false,
    Option.getD_some]
  simp

theorem wsFrame_medium (P : Bytes) (h1 : 126 < P.length) (h2 : P.length ≤ 0xFFFF) :
    wsFrame P = [0x82, 126, P.length / 256, P.length % 256] ++ P := by
  have hg : P.length > 1 := by omega
  have h3 : ¬ P.length ≤ 126 := by omega
  have hm : P.length % 2 ^ 16 = P.length := Nat.mod_eq_of_lt (by omega)
  have hd : P.length / 2 ^ 8 % 256 = P.length / 256 := by omega
  simp only [wsFrame, addWebSocketWrap, SendBuffer.fresh, hg, h2, h3, hm, hd, htobe16, if_true,
    if_false, Option.getD_some]
  simp

theorem wsFrame_rfc_ok (P : Bytes)
    (h : (2 ≤ P.length ∧ P.length ≤ 125) ∨ (127 ≤ P.length ∧ P.length ≤ 0xFFFF)) :
    rfcParseFrame (wsFrame P) =
      some ({ fin := true, opcode := 2, masked := false, payload := P }, []) := by
  rcases h with ⟨h1, h2⟩ | ⟨h1, h2⟩
  · rw [wsFrame_small P h1 (by omega)]
    have e1 : P.length % 128 = P.length := Nat.mod_eq_of_lt (by omega)
    have e2 : P.length ≠ 126 := by omega
    have e3 : P.length ≠ 127 := by omega
    have e4 : P.length / 128 % 2 = 0 := by omega
    simp [rfcParseFrame, e1, e2, e3, e4]
  · rw [wsFrame_medium P (by omega) h2]
    have e1 : beValue [P.length / 256, P.length % 256] = P.length := by
      simp only [beValue, List.foldl]
      omega
    have e2 : 2 ≤ P.length := by omega
    simp [rfcParseFrame, e1, e2, List.take]

theorem wsFrame_large (P : Bytes) (h1 : 0xFFFF < P.length) :
    wsFrame P = [0x82, 126] ++ htobe64 (P.length % 2 ^ 64) ++ P := by
  have hg : P.length > 1 := by omega
  have h3 : ¬ P.length ≤ 126 := by omega
  have h4 : ¬ P.length ≤ 0xffff := by omega
  simp only [wsFrame, addWebSocketWrap, SendBuffer.fresh, hg, h3, h4, if_true, if_false,
    Option.getD_some]
  simp

theorem wsFrame_large_misread (P : Bytes) (h1 : 0xFFFF < P.length) (h2 : P.length < 2 ^ 48) :
    rfcParseFrame (wsFrame P) =
      some ({ fin := true, opcode := 2, masked := false, payload := [] },
        (htobe64 P.length).drop 2 ++ P) := by
  rw [wsFrame_large P h1]
  have hm : P.length % 2 ^ 64 = P.length := Nat.mod_eq_of_lt (by omega)
  rw [hm]
  have e1 : P.length / 2 ^ 56 % 256 = 0 := by omega
  have e2 : P.length / 2 ^ 48 % 256 = 0 := by omega
  simp only [htobe64, e1, e2]
  simp [rfcParseFrame, beValue]

/-! ## The properties -/

/-- C1 (FIFO order on the wire). On a fresh buffer with no transform active,
for every sequence of `send` / `appendData` calls and every behaviour of
`write`, the bytes accepted by `write` are an initial segment of the
concatenation of the non-empty payloads in call order, and they are the whole
concatenation whenever the run ends with an empty queue and no payload in
flight. -/
theorem fifo_order (cipher : Cipher) (flag : Bool) (ops : List Op) (ws : List WriteRes)
    (hops : ∀ op ∈ ops, op.isData = true) :
    (run cipher ops (SendBuffer.fresh flag) ws).wire <+: (payloads ops).flatten ∧
    ((run cipher ops (SendBuffer.fresh flag) ws).st._outQueue = [] →
      (run cipher ops (SendBuffer.fresh flag) ws).st._currBuffer = none →
      (run cipher ops (SendBuffer.fresh flag) ws).wire = (payloads ops).flatten) := by
  have hs : (pend cipher (SendBuffer.fresh flag) (payloads ops)).1 = (payloads ops).flatten := by
    simp [pend, SendBuffer.fresh, expectQueue_none]
  constructor
  · have h0 := ((run_drained cipher ops (SendBuffer.fresh flag) ws (wf_fresh flag) hops).2.1 []).1
    simp only [List.append_nil] at h0
    rw [hs] at h0
    exact ⟨_, h0⟩
  · intro hq hc
    rw [(run_idle cipher ops (SendBuffer.fresh flag) ws (wf_fresh flag) hops hq hc).1, hs]

theorem fifo_order_witness :
    (∀ op ∈ [Op.send false (some [1, 2, 3]), Op.appendData (some [4]), Op.send true none],
      op.isData = true) ∧
    ((run sampleCipher [Op.send false (some [1, 2, 3]), Op.appendData (some [4]), Op.send true none]
        (SendBuffer.fresh false) [.ok 2, .fail EAGAIN, .fail EINTR, .ok 9, .ok 9]).wire <+:
      (payloads [Op.send false (some [1, 2, 3]), Op.appendData (some [4]),
        Op.send true none]).flatten ∧
    ((run sampleCipher [Op.send false (some [1, 2, 3]), Op.appendData (some [4]), Op.send true none]
        (SendBuffer.fresh false) [.ok 2, .fail EAGAIN, .fail EINTR, .ok 9, .ok 9]).st._outQueue = [] →
      (run sampleCipher [Op.send false (some [1, 2, 3]), Op.appendData (some [4]), Op.send true none]
        (SendBuffer.fresh false) [.ok 2, .fail EAGAIN, .fail EINTR, .ok 9, .ok 9]).st._currBuffer
        = none →
      (run sampleCipher [Op.send false (some [1, 2, 3]), Op.appendData (some [4]), Op.send true none]
        (SendBuffer.fresh false) [.ok 2, .fail EAGAIN, .fail EINTR, .ok 9, .ok 9]).wire =
      (payloads [Op.send false (some [1, 2, 3]), Op.appendData (some [4]),
        Op.send true none]).flatten)) :=
  ⟨by decide, fifo_order sampleCipher false _ _ (by decide)⟩

/-- C2 (resumption after a short write). Let `p` be the buffer the drain loop
is about to write from its first byte (`fetch` yields it at offset 0) and let
`K < length p`. If `write` accepts `K` bytes and then reports "try again",
`send` returns `0` with `needWaitSendEvent = true`, having written exactly the
first `K` bytes, with `p` still in flight at offset `K` and `_sentPackage`
unchanged. In every continuation by `send` / `appendData` calls, under every
behaviour of `write`: as long as fewer than `length p - K` further bytes were
accepted, `p` is still in flight, its offset is `K` plus the number of bytes
accepted, `_sentPackage` is unchanged and the bytes accepted are an initial
segment of `p` from byte `K` on, and a further `send` (token free) whose
`write` accepts the rest writes exactly the bytes of `p` not yet written and
leaves `_sentPackage` at exactly the old count plus 1; once at least
`length p - K` bytes were
accepted, they start with the whole rest of `p`, `p` has been counted
(`_sentPackage` is at least the old count plus 1), `p` is no longer pending
(the payloads still pending are at most those that were behind `p`), and
`_sentPackage` is exactly the old count plus 1 for `p` plus the number of
payloads behind `p` that are no longer pending; and at every point
`_sentPackage` plus the number of payloads still pending equals the old
count plus the number of payloads handed over, so that each payload is counted
exactly once, however many `write` or `send` calls it took. -/
theorem partial_write_resumption (cipher : Cipher) (s s1 : SendBuffer) (p : Bytes) (K : Nat)
    (nw : Bool) (ws : List WriteRes) (ops : List Op) (ws2 : List WriteRes)
    (hwf : WF s) (htok : s._sendToken = true)
    (hfetch : fetch cipher { s with _sendToken := false } 0 = .ready s1 p)
    (hoff : s1._offset = 0) (hKn : K < p.length)
    (hops : ∀ op ∈ ops, op.isData = true) :
    send cipher s nw none (.ok K :: .fail EAGAIN :: ws) =
      { st := { s1 with _offset := K, _sentBytes := s1._sentBytes + K, _sendToken := true }
        wire := p.take K, rest := ws, ret := .returned 0 true } ∧
    s1._sentPackage = s._sentPackage ∧
    ((run cipher ops (send cipher s nw none (.ok K :: .fail EAGAIN :: ws)).st ws2).wire.length
        < p.length - K →
      (run cipher ops (send cipher s nw none (.ok K :: .fail EAGAIN :: ws)).st ws2).st._currBuffer
        = some p ∧
      (run cipher ops (send cipher s nw none (.ok K :: .fail EAGAIN :: ws)).st ws2).st._offset =
        K + (run cipher ops (send cipher s nw none (.ok K :: .fail EAGAIN :: ws)).st ws2).wire.length ∧
      (run cipher ops (send cipher s nw none (.ok K :: .fail EAGAIN :: ws)).st ws2).st._sentPackage
        = s._sentPackage ∧
      (run cipher ops (send cipher s nw none (.ok K :: .fail EAGAIN :: ws)).st ws2).wire <+:
        p.drop K) ∧
    (∀ (room : Nat) (nw2 : Bool),
      (run cipher ops (send cipher s nw none (.ok K :: .fail EAGAIN :: ws)).st ws2).wire.length
        < p.length - K →
      (run cipher ops (send cipher s nw none (.ok K :: .fail EAGAIN :: ws)).st ws2).st._sendToken
        = true →
      p.length - K -
          (run cipher ops (send cipher s nw none (.ok K :: .fail EAGAIN :: ws)).st ws2).wire.length
        ≤ room →
      (send cipher (run cipher ops (send cipher s nw none (.ok K :: .fail EAGAIN :: ws)).st ws2).st
          nw2 none [.ok room]).wire =
        p.drop (K +
          (run cipher ops (send cipher s nw none (.ok K :: .fail EAGAIN :: ws)).st ws2).wire.length) ∧
      (send cipher (run cipher ops (send cipher s nw none (.ok K :: .fail EAGAIN :: ws)).st ws2).st
          nw2 none [.ok room]).st._sentPackage = s._sentPackage + 1) ∧
    (p.length - K ≤
        (run cipher ops (send cipher s nw none (.ok K :: .fail EAGAIN :: ws)).st ws2).wire.length →
      p.drop K <+:
        (run cipher ops (send cipher s nw none (.ok K :: .fail EAGAIN :: ws)).st ws2).wire ∧
      s._sentPackage + 1 ≤
        (run cipher ops (send cipher s nw none (.ok K :: .fail EAGAIN :: ws)).st ws2).st._sentPackage ∧
      pendingCount (run cipher ops (send cipher s nw none (.ok K :: .fail EAGAIN :: ws)).st ws2).st +
          (payloads (run cipher ops (send cipher s nw none (.ok K :: .fail EAGAIN :: ws)).st ws2).left).length ≤
        s1._outQueue.length + (payloads ops).length ∧
      (run cipher ops (send cipher s nw none (.ok K :: .fail EAGAIN :: ws)).st ws2).st._sentPackage =
        s._sentPackage + 1 + (s1._outQueue.length + (payloads ops).length -
          (pendingCount (run cipher ops (send cipher s nw none (.ok K :: .fail EAGAIN :: ws)).st ws2).st +
            (payloads (run cipher ops (send cipher s nw none (.ok K :: .fail EAGAIN :: ws)).st ws2).left).length))) ∧
    (run cipher ops (send cipher s nw none (.ok K :: .fail EAGAIN :: ws)).st ws2).st._sentPackage +
        pendingCount (run cipher ops (send cipher s nw none (.ok K :: .fail EAGAIN :: ws)).st ws2).st +
        (payloads (run cipher ops (send cipher s nw none (.ok K :: .fail EAGAIN :: ws)).st ws2).left).length =
      s._sentPackage + 1 + s1._outQueue.length + (payloads ops).length := by
  obtain ⟨hc, -, -, -, hpk⟩ := fetch_ready cipher _ s1 0 p hfetch
  have hpk : s1._sentPackage = s._sentPackage := hpk
  have hwf0 : WF { s with _sendToken := false } := hwf
  have hfd := fetch_drained cipher { s with _sendToken := false } 0 hwf0
  rw [hfetch] at hfd
  have hwf1 : WF s1 := hfd.1.1
  have hsend : send cipher s nw none (.ok K :: .fail EAGAIN :: ws) =
      { st := { s1 with _offset := K, _sentBytes := s1._sentBytes + K, _sendToken := true }
        wire := p.take K, rest := ws, ret := .returned 0 true } := by
    have h0 : send cipher s nw none (.ok K :: .fail EAGAIN :: ws) =
        realSend cipher (.ok K :: .fail EAGAIN :: ws) { s with _sendToken := false } 0 :=
      send_holding cipher s nw none _ htok
    rw [h0, realSend_ok cipher _ _ s1 p K 0 hfetch]
    have hmin : min K (p.length - s1._offset) = K := by rw [hoff]; omega
    have hadv : advance s1 p K = { s1 with _offset := K } := by
      have hne : K ≠ p.length := by omega
      simp only [advance, hne, if_false, hoff, Nat.zero_add]
    rw [hmin, hadv]
    have hf2 := fetch_curr cipher { s1 with _offset := K } (0 + K) p hc (Nat.le_of_lt hKn)
    rw [realSend_again cipher ws _ _ p (0 + K) hf2]
    simp [hoff]
  refine ⟨hsend, hpk, ?_⟩
  rw [hsend]
  simp only
  have hwf2 : WF { s1 with _offset := K, _sentBytes := s1._sentBytes + K, _sendToken := true } :=
    ⟨hwf1.1, fun b hb => by
      have : b = p := by
        have h2 : s1._currBuffer = some b := hb
        rw [hc] at h2
        exact (Option.some.inj h2).symm
      subst this
      exact Nat.le_of_lt hKn, hwf1.2.2⟩
  obtain ⟨i1, i2, i3, i4, i5, -⟩ := run_drained cipher ops _ ws2 hwf2 hops
  have hshort := run_short cipher ops
    { s1 with _offset := K, _sentBytes := s1._sentBytes + K, _sendToken := true } ws2 p hops hc
    (Nat.le_of_lt hKn)
  have hlong := run_long cipher ops
    { s1 with _offset := K, _sentBytes := s1._sentBytes + K, _sendToken := true } ws2 p hops hc hKn
  generalize run cipher ops
    ({ s1 with _offset := K, _sentBytes := s1._sentBytes + K, _sendToken := true }) ws2 = r
    at i1 i2 i3 i4 i5 hshort hlong ⊢
  have hw := (i2 []).1
  have hpend : ∃ Y, (pend cipher
      { s1 with _offset := K, _sentBytes := s1._sentBytes + K, _sendToken := true }
      (payloads ops ++ [])).1 = p.drop K ++ Y := by
    simp only [pend, hc]
    exact ⟨_, rfl⟩
  obtain ⟨Y, hY⟩ := hpend
  rw [hY] at hw
  have hp1 : r.wire <+: p.drop K ++ Y := ⟨_, hw⟩
  have hp2 : p.drop K <+: p.drop K ++ Y := List.prefix_append _ _
  have hdl : (p.drop K).length = p.length - K := List.length_drop _ _
  have hcnt : pendingCount
      { s1 with _offset := K, _sentBytes := s1._sentBytes + K, _sendToken := true } =
      1 + s1._outQueue.length := by
    simp [pendingCount, hc]
  rw [hcnt] at i5
  have hpk2 : ({ s1 with _offset := K, _sentBytes := s1._sentBytes + K, _sendToken := true } :
      SendBuffer)._sentPackage = s._sentPackage := hpk
  rw [hpk2] at i5 hlong
  refine ⟨fun hlt => ?_, fun room nw2 hlt htk hroom => ?_, fun hge => ?_, ?_⟩
  · obtain ⟨j1, j2, j3⟩ := hshort hlt
    exact ⟨j1, j2, j3.trans hpk, List.prefix_of_prefix_length_le hp1 hp2 (by omega)⟩
  · obtain ⟨j1, j2, j3⟩ := hshort hlt
    have j2a : r.st._offset = K + r.wire.length := j2
    have hfin := send_finish cipher r.st nw2 p room j1 (by omega) htk (by omega)
    exact ⟨hfin.1.trans (congrArg (fun x => p.drop x) j2a),
      hfin.2.trans (congrArg (fun x => x + 1) (j3.trans hpk))⟩
  · have hl := hlong hge
    refine ⟨List.prefix_of_prefix_length_le hp2 hp1 (by omega), hl, ?_, ?_⟩ <;> omega
  · omega

theorem partial_write_resumption_witness :
    send sampleCipher { SendBuffer.fresh false with _outQueue := [[1, 2, 3], [4]] } false none
        [.ok 2, .fail EAGAIN, .ok 7] =
      { st := { SendBuffer.fresh false with
          _outQueue := [[4]], _currBuffer := some [1, 2, 3], _offset := 2, _sentBytes := 2 }
        wire := [1, 2], rest := [.ok 7], ret := .returned 0 true } ∧
    [1, 2, 3].drop 2 <+:
      (run sampleCipher [Op.send false none]
        (send sampleCipher { SendBuffer.fresh false with _outQueue := [[1, 2, 3], [4]] } false none
          [.ok 2, .fail EAGAIN, .ok 7]).st [.ok 1, .fail EAGAIN]).wire ∧
    (SendBuffer.fresh false)._sentPackage + 1 ≤
      (run sampleCipher [Op.send false none]
        (send sampleCipher { SendBuffer.fresh false with _outQueue := [[1, 2, 3], [4]] } false none
          [.ok 2, .fail EAGAIN, .ok 7]).st [.ok 1, .fail EAGAIN]).st._sentPackage ∧
    (run sampleCipher [Op.send false none]
        (send sampleCipher { SendBuffer.fresh false with _outQueue := [[1, 2, 3], [4]] } false none
          [.ok 2, .fail EAGAIN, .ok 7]).st [.ok 1, .fail EAGAIN]).st._sentPackage = 1 ∧
    (send sampleCipher
        (run sampleCipher [Op.send false none]
          (send sampleCipher { SendBuffer.fresh false with _outQueue := [[1, 2, 3], [4]] } false none
            [.ok 2, .fail EAGAIN, .ok 7]).st [.fail EAGAIN]).st
        true none [.ok 5]).st._sentPackage = (SendBuffer.fresh false)._sentPackage + 1 :=
  have h := partial_write_resumption sampleCipher
    { SendBuffer.fresh false with _outQueue := [[1, 2, 3], [4]] }
    { SendBuffer.fresh false with
      _outQueue := [[4]], _currBuffer := some [1, 2, 3], _sendToken := false }
    [1, 2, 3] 2 false [.ok 7] [Op.send false none] [.ok 1, .fail EAGAIN]
    (by refine ⟨?_, ?_, ?_⟩ <;> simp [SendBuffer.fresh]) rfl rfl rfl (by decide) (by decide)
  have h4 := h.2.2.2.2.1 (by decide)
  have g := partial_write_resumption sampleCipher
    { SendBuffer.fresh false with _outQueue := [[1, 2, 3], [4]] }
    { SendBuffer.fresh false with
      _outQueue := [[4]], _currBuffer := some [1, 2, 3], _sendToken := false }
    [1, 2, 3] 2 false [.ok 7] [Op.send false none] [.fail EAGAIN]
    (by refine ⟨?_, ?_, ?_⟩ <;> simp [SendBuffer.fresh]) rfl rfl rfl (by decide) (by decide)
  ⟨h.1, h4.1, h4.2.1, h4.2.2.2.trans (by decide),
    (g.2.2.2.1 5 true (by decide) (by decide) (by decide)).2⟩

/-- C3 (outbound encryption gating). `entryEncryptMode` returns true exactly
when no encryptor is installed, `_sentBytes` is 0 and the send token is free.
When it returns false the state is the one before the call; when it returns
true the state differs from it only in `_encryptor`, which holds the new
stream-mode encryptor if `streamMode` and the new package-mode encryptor
otherwise, and in `_currBufferProcess`, which selects `encryptData`. -/
theorem entryEncryptMode_gating (s : SendBuffer) (key iv : Bytes) (streamMode : Bool) :
    ((entryEncryptMode s key iv streamMode).1 = true ↔
      (s._encryptor = none ∧ s._sentBytes = 0 ∧ s._sendToken = true)) ∧
    entryEncryptMode s key iv streamMode =
      if s._encryptor = none ∧ s._sentBytes = 0 ∧ s._sendToken = true then
        (true, { s with
          _encryptor :=
            some (if streamMode then StreamEncryptor key iv else PackageEncryptor key iv)
          _currBufferProcess := some CurrBufferProcessFunc.encryptData })
      else (false, s) := by
  rw [newEncryptor_eq, entryEncryptMode_eq]
  by_cases h : s._encryptor = none ∧ s._sentBytes = 0 ∧ s._sendToken = true
  · simp [h]
  · simp [h]

/-- C4 as stated fails: a payload whose first `write` reported "try again" is
in flight with no byte written, so `_sentBytes` is 0 and the token is free;
`entryEncryptMode` succeeds in that reachable state (policy flag false), and
the next `send` writes the payload `[1, 2]` as it is, while the encryptor has
been fed nothing. -/
theorem encrypt_skips_payload_in_flight :
    ReachableByData sampleCipher blockedFirst ∧
    blockedFirst._encryptAfterFirstPackage = false ∧
    (entryEncryptMode blockedFirst [7] [9] true).1 = true ∧
    (send sampleCipher (entryEncryptMode blockedFirst [7] [9] true).2 false none [.ok 2]).ret =
      .returned 0 false ∧
    (send sampleCipher (entryEncryptMode blockedFirst [7] [9] true).2 false none [.ok 2]).wire =
      [1, 2] ∧
    (send sampleCipher (entryEncryptMode blockedFirst [7] [9] true).2 false none
        [.ok 2]).st._encryptor =
      some { streamMode := true, key := [7], iv := [9], fed := [] } ∧
    sampleCipher { streamMode := true, key := [7], iv := [9], fed := [] } [1, 2] ≠ [1, 2] :=
  ⟨⟨false, [.send false (some [1, 2])], [.fail EAGAIN], by decide, rfl⟩, by decide, by decide,
    by decide, by decide, by decide, by decide⟩

/-- C4, amended (encryption covers what is dequeued after the activation).
In every state reachable from a fresh buffer by `send` / `appendData` calls
in which `entryEncryptMode` returns true with the policy flag false, and for
every continuation by `send` / `appendData` calls under every behaviour of
`write`: the installed encryptor has been fed exactly an initial part `fed`
of the payloads queued at the activation followed by those handed over
afterwards, each once and in order (the others are still queued or not yet
handed over), and the bytes accepted by `write` after the activation, followed
by the unwritten rest of the buffer in flight, are the unwritten rest of the
buffer that was in flight at the activation followed by the successive
outputs of `encrypt` on `fed`. -/
theorem encrypt_after_activation (cipher : Cipher) (s : SendBuffer) (key iv : Bytes) (sm : Bool)
    (ops : List Op) (ws : List WriteRes)
    (hreach : ReachableByData cipher s) (hflag : s._encryptAfterFirstPackage = false)
    (hact : (entryEncryptMode s key iv sm).1 = true)
    (hops : ∀ op ∈ ops, op.isData = true) :
    ∃ fed : List Bytes,
      (run cipher ops (entryEncryptMode s key iv sm).2 ws).st._encryptor =
        some { streamMode := sm, key := key, iv := iv, fed := fed } ∧
      fed ++ ((run cipher ops (entryEncryptMode s key iv sm).2 ws).st._outQueue ++
          payloads (run cipher ops (entryEncryptMode s key iv sm).2 ws).left) =
        s._outQueue ++ payloads ops ∧
      (run cipher ops (entryEncryptMode s key iv sm).2 ws).wire ++
          inFlight (run cipher ops (entryEncryptMode s key iv sm).2 ws).st =
        inFlight s ++
          (encryptSeq cipher { streamMode := sm, key := key, iv := iv, fed := [] } fed).flatten := by
  have hwf := wf_reachable cipher s hreach
  rw [entryEncryptMode_true s key iv sm hact]
  have hwf1 : WF { s with
      _encryptor := some { streamMode := sm, key := key, iv := iv, fed := [] }
      _currBufferProcess := some .encryptData } :=
    ⟨hwf.1, hwf.2.1, fun _ => rfl⟩
  exact activation_aux cipher _ { streamMode := sm, key := key, iv := iv, fed := [] } ops ws hwf1
    rfl hflag rfl rfl hops

theorem encrypt_after_activation_witness :
    ∃ fed : List Bytes,
      (run sampleCipher [Op.send false (some [5]), Op.send false (some [6, 6])]
          (entryEncryptMode blockedFirst [7] [9] true).2 [.ok 9, .ok 9, .ok 1]).st._encryptor =
        some { streamMode := true, key := [7], iv := [9], fed := fed } ∧
      fed ++ ((run sampleCipher [Op.send false (some [5]), Op.send false (some [6, 6])]
            (entryEncryptMode blockedFirst [7] [9] true).2 [.ok 9, .ok 9, .ok 1]).st._outQueue ++
          payloads (run sampleCipher [Op.send false (some [5]), Op.send false (some [6, 6])]
            (entryEncryptMode blockedFirst [7] [9] true).2 [.ok 9, .ok 9, .ok 1]).left) =
        blockedFirst._outQueue ++ payloads [Op.send false (some [5]), Op.send false (some [6, 6])] ∧
      (run sampleCipher [Op.send false (some [5]), Op.send false (some [6, 6])]
          (entryEncryptMode blockedFirst [7] [9] true).2 [.ok 9, .ok 9, .ok 1]).wire ++
          inFlight (run sampleCipher [Op.send false (some [5]), Op.send false (some [6, 6])]
            (entryEncryptMode blockedFirst [7] [9] true).2 [.ok 9, .ok 9, .ok 1]).st =
        inFlight blockedFirst ++
          (encryptSeq sampleCipher { streamMode := true, key := [7], iv := [9], fed := [] }
            fed).flatten :=
  encrypt_after_activation sampleCipher blockedFirst [7] [9] true
    [Op.send false (some [5]), Op.send false (some [6, 6])] [.ok 9, .ok 9, .ok 1]
    ⟨false, [.send false (some [1, 2])], [.fail EAGAIN], by decide, rfl⟩ (by decide) (by decide)
    (by decide)

/-- C5 (first-package exemption). On a fresh buffer `entryEncryptMode`
succeeds. If it is followed by `send` / `appendData` calls carrying the
non-empty payloads `p0, p1, ..., pn` and the run ends fully drained (empty
queue, nothing in flight), then under every behaviour of `write`: with
`encryptAfterFirstPackage = true` the bytes written are `p0` unmodified
followed by the successive outputs of `encrypt` on `p1, ..., pn`, and the
encryptor has been fed exactly `p1, ..., pn`, each once and in order; with
`encryptAfterFirstPackage = false` the bytes written are the successive outputs
of `encrypt` on `p0, ..., pn` and the encryptor has been fed exactly these. -/
theorem first_package_exemption (cipher : Cipher) (flag : Bool) (key iv : Bytes) (sm : Bool)
    (ops : List Op) (ws : List WriteRes) (p0 : Bytes) (ps : List Bytes)
    (hops : ∀ op ∈ ops, op.isData = true)
    (hp : payloads ops = p0 :: ps)
    (hq : (run cipher (Op.entryEncryptMode key iv sm :: ops) (SendBuffer.fresh flag) ws).st._outQueue
      = [])
    (hc : (run cipher (Op.entryEncryptMode key iv sm :: ops) (SendBuffer.fresh flag)
      ws).st._currBuffer = none) :
    (entryEncryptMode (SendBuffer.fresh flag) key iv sm).1 = true ∧
    (run cipher (Op.entryEncryptMode key iv sm :: ops) (SendBuffer.fresh flag) ws).wire =
      (if flag then
        p0 ++ (encryptSeq cipher { streamMode := sm, key := key, iv := iv, fed := [] } ps).flatten
      else
        (encryptSeq cipher { streamMode := sm, key := key, iv := iv, fed := [] }
          (p0 :: ps)).flatten) ∧
    (run cipher (Op.entryEncryptMode key iv sm :: ops) (SendBuffer.fresh flag) ws).st._encryptor =
      some { streamMode := sm, key := key, iv := iv, fed := if flag then ps else p0 :: ps } := by
  have hrun : run cipher (Op.entryEncryptMode key iv sm :: ops) (SendBuffer.fresh flag) ws =
      run cipher ops (entryEncryptMode (SendBuffer.fresh flag) key iv sm).2 ws := rfl
  have hact : (entryEncryptMode (SendBuffer.fresh flag) key iv sm).1 = true := by
    simp [entryEncryptMode, SendBuffer.fresh]
  refine ⟨hact, ?_⟩
  rw [hrun] at hq hc ⊢
  rw [entryEncryptMode_true _ key iv sm hact] at hq hc ⊢
  simp only at hq hc ⊢
  have hwf : WF { SendBuffer.fresh flag with
      _encryptor := some { streamMode := sm, key := key, iv := iv, fed := [] }
      _currBufferProcess := some .encryptData } := by
    refine ⟨?_, ?_, ?_⟩ <;> simp [SendBuffer.fresh]
  obtain ⟨h1, h2, -⟩ := run_idle cipher ops _ ws hwf hops hq hc
  rw [h1, h2, hp]
  cases flag with
  | true =>
    simp [pend, SendBuffer.fresh, expectQueue, processed, expectQueue_encrypt]
  | false =>
    simp [pend, SendBuffer.fresh, expectQueue_encrypt]

theorem first_package_exemption_witness :
    (entryEncryptMode (SendBuffer.fresh true) [7] [9] false).1 = true ∧
    (run sampleCipher
        [Op.entryEncryptMode [7] [9] false, Op.send false (some [1, 2]), Op.send false (some [3])]
        (SendBuffer.fresh true) [.ok 1, .fail EAGAIN, .ok 5, .ok 5]).wire =
      (if true then
        [1, 2] ++ (encryptSeq sampleCipher { streamMode := false, key := [7], iv := [9], fed := [] }
          [[3]]).flatten
      else
        (encryptSeq sampleCipher { streamMode := false, key := [7], iv := [9], fed := [] }
          ([1, 2] :: [[3]])).flatten) ∧
    (run sampleCipher
        [Op.entryEncryptMode [7] [9] false, Op.send false (some [1, 2]), Op.send false (some [3])]
        (SendBuffer.fresh true) [.ok 1, .fail EAGAIN, .ok 5, .ok 5]).st._encryptor =
      some { streamMode := false, key := [7], iv := [9],
             fed := if true then [[3]] else [1, 2] :: [[3]] } :=
  first_package_exemption sampleCipher true [7] [9] false
    [Op.send false (some [1, 2]), Op.send false (some [3])] [.ok 1, .fail EAGAIN, .ok 5, .ok 5]
    [1, 2] [[3]] (by decide) (by decide) (by decide) (by decide)

/-- C6 (layout of a data frame). When a package has already been sent and the
current buffer is a payload `P` of length `n ≥ 2` (a `std::string`, so
`n < 2^64`), `addWebSocketWrap` changes nothing but the current buffer, which
becomes `header ++ P` with `header = [0x82, n]` if `n ≤ 126`,
`header = [0x82, 126, n / 256, n % 256]` if `126 < n ≤ 0xFFFF`, and
`header = [0x82, 126]` followed by eight bytes whose big-endian value is `n`
if `n > 0xFFFF`. No masking key is added and `P` follows unchanged. -/
theorem addWebSocketWrap_data_frame (s : SendBuffer) (P : Bytes)
    (hcur : s._currBuffer = some P) (hn : 2 ≤ P.length) (hsz : P.length < 2 ^ 64)
    (hpk : 0 < s._sentPackage) :
    ∃ header : Bytes,
      addWebSocketWrap s = some { s with _currBuffer := some (header ++ P) } ∧
      (P.length ≤ 126 → header = [0x82, P.length]) ∧
      (126 < P.length → P.length ≤ 0xFFFF →
        header = [0x82, 126, P.length / 256, P.length % 256]) ∧
      (0xFFFF < P.length →
        ∃ ext : Bytes, header = [0x82, 126] ++ ext ∧ ext.length = 8 ∧
          (∀ b ∈ ext, b < 256) ∧ beValue ext = P.length) := by
  have h0 : s._sentPackage ≠ 0 := by omega
  have h1 : P.length > 1 := by omega
  by_cases ha : P.length ≤ 126
  · refine ⟨[0x82, P.length], ?_, fun _ => rfl, fun h => by omega, fun h => by omega⟩
    have hm : P.length % 2 ^ 8 = P.length := Nat.mod_eq_of_lt (by omega)
    simp only [addWebSocketWrap, h0, hcur, h1, ha, hm, if_true, if_false]
  · by_cases hb : P.length ≤ 0xffff
    · refine ⟨[0x82, 126, P.length / 256, P.length % 256], ?_, fun h => by omega,
        fun _ _ => rfl, fun h => by omega⟩
      have hm : P.length % 2 ^ 16 = P.length := Nat.mod_eq_of_lt (by omega)
      have hd : P.length / 2 ^ 8 % 256 = P.length / 256 := by omega
      simp only [addWebSocketWrap, h0, hcur, h1, ha, hb, htobe16, hm, hd, if_true, if_false]
      rfl
    · refine ⟨[0x82, 126] ++ htobe64 P.length, ?_, fun h => by omega, fun h => by omega,
        fun _ => ⟨htobe64 P.length, rfl, rfl, ?_, beValue_htobe64 _ hsz⟩⟩
      · have hm : P.length % 2 ^ 64 = P.length := Nat.mod_eq_of_lt hsz
        simp only [addWebSocketWrap, h0, hcur, h1, ha, hb, hm, if_true, if_false]
      · intro b hb
        simp only [htobe64, List.mem_cons, List.mem_singleton, List.not_mem_nil, or_false] at hb
        omega

set_option maxRecDepth 8192 in
theorem addWebSocketWrap_data_frame_witness :
    addWebSocketWrap
        { SendBuffer.fresh false with _sentPackage := 1, _currBuffer := some (List.replicate 200 7) } =
      some { SendBuffer.fresh false with
        _sentPackage := 1
        _currBuffer := some ([0x82, 126, 0x00, 0xC8] ++ List.replicate 200 7) } := by
  obtain ⟨header, h1, _, h3, _⟩ := addWebSocketWrap_data_frame
    { SendBuffer.fresh false with _sentPackage := 1, _currBuffer := some (List.replicate 200 7) }
    (List.replicate 200 7) rfl (by rw [List.length_replicate]; decide)
    (by rw [List.length_replicate]; decide) (by decide)
  rw [h3 (by rw [List.length_replicate]; decide) (by rw [List.length_replicate]; decide)] at h1
  exact h1

/-- C7 (control encoding). When a package has already been sent and the
current buffer is the single byte `b`, `addWebSocketWrap` changes nothing but
the current buffer, which becomes the two bytes `0x80 OR b` (on the low 8
bits of `b`) and `0x00`. -/
theorem addWebSocketWrap_control_frame (s : SendBuffer) (b : Nat)
    (hcur : s._currBuffer = some [b]) (hpk : 0 < s._sentPackage) :
    addWebSocketWrap s = some { s with _currBuffer := some [0x80 ||| (b % 256), 0x00] } := by
  have h0 : s._sentPackage ≠ 0 := by omega
  simp [addWebSocketWrap, h0, hcur, lor_byte]

theorem addWebSocketWrap_control_frame_witness :
    addWebSocketWrap { SendBuffer.fresh false with _sentPackage := 1, _currBuffer := some [0x41] } =
      some { SendBuffer.fresh false with _sentPackage := 1, _currBuffer := some [0xC1, 0x00] } :=
  addWebSocketWrap_control_frame
    { SendBuffer.fresh false with _sentPackage := 1, _currBuffer := some [0x41] } 0x41 rfl (by decide)

/-- C8 (the first payload is sent bare, every later one framed once). On a
fresh buffer, if `entryWebSocketMode` is followed by `send` / `appendData`
calls, the non-empty payloads handed over (the one of `entryWebSocketMode`
included) are `p0, p1, ..., pn`, and the run ends fully drained, then under
every behaviour of `write` the bytes written are `p0` followed by the frames
`wsFrame p1, ..., wsFrame pn`, where `wsFrame` is what `addWebSocketWrap`
makes of a payload once a package has been sent. Moreover `addWebSocketWrap`
leaves the state unchanged whenever `_sentPackage` is 0. -/
theorem websocket_first_bare_rest_framed (cipher : Cipher) (flag : Bool) (d0 : Option Bytes)
    (ops : List Op) (ws : List WriteRes) (p0 : Bytes) (ps : List Bytes)
    (hops : ∀ op ∈ ops, op.isData = true)
    (hp : payloads (Op.entryWebSocketMode d0 :: ops) = p0 :: ps)
    (hq : (run cipher (Op.entryWebSocketMode d0 :: ops) (SendBuffer.fresh flag) ws).st._outQueue = [])
    (hc : (run cipher (Op.entryWebSocketMode d0 :: ops) (SendBuffer.fresh flag) ws).st._currBuffer
      = none) :
    (run cipher (Op.entryWebSocketMode d0 :: ops) (SendBuffer.fresh flag) ws).wire =
      p0 ++ (ps.map wsFrame).flatten ∧
    (∀ s : SendBuffer, s._sentPackage = 0 → addWebSocketWrap s = some s) := by
  refine ⟨?_, fun s h => by simp [addWebSocketWrap, h]⟩
  have hrun : run cipher (Op.entryWebSocketMode d0 :: ops) (SendBuffer.fresh flag) ws =
      run cipher ops (entryWebSocketMode (SendBuffer.fresh flag) d0) ws := rfl
  rw [hrun] at hq hc ⊢
  have hwf := wf_entryWebSocketMode (SendBuffer.fresh flag) d0 (wf_fresh flag)
  obtain ⟨h1, -, -⟩ := run_idle cipher ops _ ws hwf hops hq hc
  rw [h1]
  rw [payloads_cons] at hp
  have hpe : pend cipher (entryWebSocketMode (SendBuffer.fresh flag) d0) (payloads ops) =
      pend cipher { SendBuffer.fresh flag with _currBufferProcess := some .addWebSocketWrap }
        ((dropEmpty d0).toList ++ payloads ops) := by
    rw [entryWebSocketMode_eq]
    cases hd : dropEmpty d0 <;> simp [pend, pushData, SendBuffer.fresh]
  rw [hpe]
  have hp2 : (dropEmpty d0).toList ++ payloads ops = p0 :: ps := hp
  rw [hp2]
  simp [pend, SendBuffer.fresh, expectQueue, processed, expectQueue_wrap_succ]

theorem websocket_first_bare_rest_framed_witness :
    (run sampleCipher
        [Op.entryWebSocketMode (some [9, 9]), Op.send false (some [1, 2, 3]),
          Op.send false (some [0x41])]
        (SendBuffer.fresh false) [.ok 1, .fail EAGAIN, .ok 9, .ok 2, .fail EINTR, .ok 9, .ok 9]).wire =
      [9, 9] ++ ([[1, 2, 3], [0x41]].map wsFrame).flatten ∧
    [9, 9] ++ ([[1, 2, 3], [0x41]].map wsFrame).flatten =
      [9, 9, 0x82, 3, 1, 2, 3, 0xC1, 0x00] :=
  ⟨(websocket_first_bare_rest_framed sampleCipher false (some [9, 9])
    [Op.send false (some [1, 2, 3]), Op.send false (some [0x41])]
    [.ok 1, .fail EAGAIN, .ok 9, .ok 2, .fail EINTR, .ok 9, .ok 9] [9, 9] [[1, 2, 3], [0x41]]
    (by decide) (by decide) (by decide) (by decide)).1, by decide⟩

set_option maxRecDepth 8192 in
/-- C9, evaluated at a payload of 126 zero bytes: with a package already
sent, `addWebSocketWrap` produces `[0x82, 126]` followed by the payload, and
a receiver applying the RFC 6455 framing rules reads the length byte 126 as
the announcement of a 2-byte length, takes the first two payload bytes as the
length 0, and obtains a frame with an empty payload and 124 bytes left over:
not one frame whose payload is the 126 bytes. -/
theorem addWebSocketWrap_126_bytes_misread :
    addWebSocketWrap
        { SendBuffer.fresh false with _sentPackage := 1, _currBuffer := some (List.replicate 126 0) } =
      some { SendBuffer.fresh false with
        _sentPackage := 1, _currBuffer := some ([0x82, 126] ++ List.replicate 126 0) } ∧
    rfcParseFrame ([0x82, 126] ++ List.replicate 126 0) =
      some ({ fin := true, opcode := 2, masked := false, payload := [] }, List.replicate 124 0) ∧
    rfcParseFrame ([0x82, 126] ++ List.replicate 126 0) ≠
      some ({ fin := true, opcode := 2, masked := false, payload := List.replicate 126 0 }, []) := by
  refine ⟨by decide, by decide, by decide⟩

/-- C10 (exits of `send` on a failed `write`). Let `send` be called with the
token free, and let the script `pre` bring the call to the point where it is
about to call `write` again (the call holds the token there). If that `write`
fails with an error `e` other than `EINTR`, `send` returns with the state of
that moment except that the token is released and `_sentBytes` is the value
at entry plus the number of bytes accepted during the call; the bytes written
are those accepted under `pre`, no further `write` is attempted, and the
result is `(0, true)` when `e` is `EAGAIN` / `EWOULDBLOCK` and `(e, false)`
otherwise. -/
theorem write_failure_exit (cipher : Cipher) (s : SendBuffer) (nw : Bool) (data : Option Bytes)
    (pre post : List WriteRes) (e : Int)
    (htok : s._sendToken = true) (he : e ≠ EINTR)
    (hpre : (send cipher s nw data pre).ret = .pending) :
    (send cipher s nw data pre).st._sendToken = false ∧
    send cipher s nw data (pre ++ .fail e :: post) =
      { st := { (send cipher s nw data pre).st with
          _sendToken := true
          _sentBytes := s._sentBytes + (send cipher s nw data pre).wire.length }
        wire := (send cipher s nw data pre).wire
        rest := post
        ret := if e = EAGAIN ∨ e = EWOULDBLOCK then .returned 0 true else .returned e false } := by
  rw [send_holding cipher s nw data _ htok] at hpre ⊢
  rw [send_holding cipher s nw data _ htok]
  obtain ⟨h1, h2⟩ := realSend_failure cipher _ 0 pre post e he hpre
  refine ⟨h1, ?_⟩
  rw [h2]
  have hb : ({ pushData s (dropEmpty data) with _sendToken := false } : SendBuffer)._sentBytes =
      s._sentBytes := (pushData_frame s (dropEmpty data)).2.1
  rw [hb, Nat.zero_add]

theorem write_failure_exit_witness :
    send sampleCipher (SendBuffer.fresh false) false (some [1, 2, 3])
        ([.ok 2, .fail EINTR] ++ .fail 32 :: [.ok 5]) =
      { st := { SendBuffer.fresh false with
          _currBuffer := some [1, 2, 3], _offset := 2, _sentBytes := 2 }
        wire := [1, 2], rest := [.ok 5], ret := .returned 32 false } :=
  (write_failure_exit sampleCipher (SendBuffer.fresh false) false (some [1, 2, 3])
    [.ok 2, .fail EINTR] [.ok 5] 32 rfl (by decide) (by decide)).2

/-! ## Lemmas on reachable states, on scripts and on completion -/

theorem wsFrame_length (P : Bytes) (h : 2 ≤ P.length) :
    (wsFrame P).length =
      P.length + (if P.length ≤ 126 then 2 else if P.length ≤ 0xFFFF then 4 else 10) := by
  by_cases h1 : P.length ≤ 126
  · rw [wsFrame_small P h h1]
    simp [h1]
  · by_cases h2 : P.length ≤ 0xFFFF
    · rw [wsFrame_medium P (by omega) h2]
      simp [h1, h2]
    · rw [wsFrame_large P (by omega)]
      simp [h1, h2, htobe64]

theorem wsFrame_control (b : Nat) : wsFrame [b] = [(0x80 ||| b) % 2 ^ 8, 0x0] := by
  simp [wsFrame, addWebSocketWrap, SendBuffer.fresh]

theorem wsFrame_injective (A B : Bytes) (hA : 2 ≤ A.length) (hB : 2 ≤ B.length)
    (h : wsFrame A = wsFrame B) : A = B := by
  have hl := congrArg List.length h
  rw [wsFrame_length A hA, wsFrame_length B hB] at hl
  have hn : A.length = B.length := by
    split_ifs at hl <;> omega
  by_cases h1 : A.length ≤ 126
  · rw [wsFrame_small A hA h1, wsFrame_small B hB (by omega), hn] at h
    exact List.append_cancel_left h
  · by_cases h2 : A.length ≤ 0xFFFF
    · rw [wsFrame_medium A (by omega) h2, wsFrame_medium B (by omega) (by omega), hn] at h
      exact List.append_cancel_left h
    · rw [wsFrame_large A (by omega), wsFrame_large B (by omega), hn] at h
      exact List.append_cancel_left h

theorem wrap_output (s : SendBuffer) (P : Bytes) (hcur : s._currBuffer = some P)
    (hP : 1 ≤ P.length) (hpk : 0 < s._sentPackage) :
    (addWebSocketWrap s).map (fun x => x._currBuffer) = some (some (wsFrame P)) := by
  have hne : P ≠ [] := by
    intro h
    rw [h] at hP
    simp at hP
  rw [wsFrame_eq s P hcur hne (by omega)]
  rfl

theorem run_preserves (cipher : Cipher) (P : SendBuffer → Prop) (ok : Op → Prop)
    (hsend : ∀ s nw d ws, ok (.send nw d) → P s → P (send cipher s nw d ws).st)
    (happ : ∀ s d, ok (.appendData d) → P s → P (appendData s d))
    (henc : ∀ s k i m, ok (.entryEncryptMode k i m) → P s → P (entryEncryptMode s k i m).2)
    (hws : ∀ s d, ok (.entryWebSocketMode d) → P s → P (entryWebSocketMode s d)) :
    ∀ (ops : List Op) (s : SendBuffer) (ws : List WriteRes),
      (∀ op ∈ ops, ok op) → P s → P (run cipher ops s ws).st := by
  intro ops
  induction ops with
  | nil =>
    intro s ws _ h
    exact h
  | cons op ops ih =>
    intro s ws hops h
    have hop : ok op := hops op (List.mem_cons_self _ _)
    have hrest : ∀ o ∈ ops, ok o := fun o ho => hops o (List.mem_cons_of_mem _ ho)
    cases op with
    | send nw d =>
      have hs := hsend s nw d ws hop h
      simp only [run]
      cases hret : (send cipher s nw d ws).ret with
      | returned e f => exact ih _ _ hrest hs
      | pending => exact hs
      | fault => exact hs
    | appendData d => exact ih _ _ hrest (happ s d hop h)
    | entryEncryptMode k i m => exact ih _ _ hrest (henc s k i m hop h)
    | entryWebSocketMode d => exact ih _ _ hrest (hws s d hop h)

theorem keeps_refl (s : SendBuffer) : Keeps s s := ⟨rfl, rfl⟩

theorem keeps_trans (s s1 s2 : SendBuffer) (h1 : Keeps s s1) (h2 : Keeps s1 s2) : Keeps s s2 :=
  ⟨h2.1.trans h1.1, h2.2.trans h1.2⟩

theorem callProcess_keeps (cipher : Cipher) (f : CurrBufferProcessFunc) (s s2 : SendBuffer)
    (h : callProcess cipher f s = some s2) : Keeps s s2 := by
  cases f with
  | encryptData =>
    simp only [callProcess, encryptData, encryptCurrBuffer] at h
    split_ifs at h <;> first
      | (split at h
         · simp only [Option.some.injEq] at h
           subst h
           rename_i e buf he hb
           exact ⟨by simp [encId, he, Encryptor.encrypt], rfl⟩
         · simp at h)
      | (simp only [Option.some.injEq] at h
         subst h
         exact ⟨rfl, rfl⟩)
  | addWebSocketWrap =>
    simp only [callProcess, addWebSocketWrap] at h
    split_ifs at h <;> (try split at h) <;> (try split_ifs at h) <;> (try split at h) <;>
      first
        | (simp only [Option.some.injEq] at h
           subst h
           exact ⟨rfl, rfl⟩)
        | simp at h

theorem fetch_keeps (cipher : Cipher) (s : SendBuffer) (n : Nat) :
    Keeps s (fetch cipher s n).state := by
  unfold fetch
  split
  · split_ifs <;> exact keeps_refl s
  · split
    · exact ⟨rfl, rfl⟩
    · simp only
      split
      · exact ⟨rfl, rfl⟩
      · split
        · exact ⟨rfl, rfl⟩
        · rename_i s2 hs2
          have hk := callProcess_keeps cipher _ _ _ hs2
          split <;> exact ⟨hk.1, hk.2⟩

theorem advance_keeps (s : SendBuffer) (buf : Bytes) (k : Nat) : Keeps s (advance s buf k) := by
  simp only [advance]
  split_ifs <;> exact ⟨rfl, rfl⟩

theorem realSend_keeps (cipher : Cipher) (ws : List WriteRes) :
    ∀ (s : SendBuffer) (n : Nat), Keeps s (realSend cipher ws s n).st := by
  induction ws with
  | nil =>
    intro s n
    have hf := fetch_keeps cipher s n
    simp only [realSend]
    cases hfe : fetch cipher s n <;> rw [hfe] at hf <;> exact hf
  | cons w ws ih =>
    intro s n
    have hf := fetch_keeps cipher s n
    simp only [realSend]
    cases hfe : fetch cipher s n with
    | done s1 => rw [hfe] at hf; exact hf
    | fault s1 => rw [hfe] at hf; exact hf
    | ready s1 buf =>
      rw [hfe] at hf
      have hf : Keeps s s1 := hf
      cases w with
      | fail e =>
        simp only
        split_ifs
        · exact hf
        · exact keeps_trans _ _ _ hf (ih s1 n)
        · exact hf
      | ok room =>
        simp only
        exact keeps_trans _ _ _ hf (keeps_trans _ _ _ (advance_keeps s1 buf _) (ih _ _))

theorem pushData_keeps (s : SendBuffer) (data : Option Bytes) : Keeps s (pushData s data) := by
  cases data <;> exact ⟨rfl, rfl⟩

theorem send_keeps (cipher : Cipher) (s : SendBuffer) (nw : Bool) (data : Option Bytes)
    (ws : List WriteRes) : Keeps s (send cipher s nw data ws).st := by
  have hp := pushData_keeps s (dropEmpty data)
  simp only [send]
  split_ifs
  · exact hp
  · exact keeps_trans _ _ _ hp (realSend_keeps cipher ws _ 0)

theorem encId_some (enc : Option Encryptor) (sm : Bool) (key iv : Bytes)
    (h : encId enc = some (sm, key, iv)) :
    ∃ fed, enc = some { streamMode := sm, key := key, iv := iv, fed := fed } := by
  cases enc with
  | none => simp [encId] at h
  | some e =>
    cases e with
    | mk a b c d =>
      simp only [encId, Option.map_some', Option.some.injEq, Prod.mk.injEq] at h
      obtain ⟨rfl, rfl, rfl⟩ := h
      exact ⟨d, rfl⟩

theorem entryEncryptMode_installed (s : SendBuffer) (key iv : Bytes) (sm : Bool)
    (h : s._encryptor.isSome = true) : entryEncryptMode s key iv sm = (false, s) := by
  simp [entryEncryptMode, h]

theorem entryWebSocketMode_encryptor (s : SendBuffer) (d : Option Bytes) :
    (entryWebSocketMode s d)._encryptor = s._encryptor := by
  rw [entryWebSocketMode_eq]
  cases dropEmpty d <;> rfl

theorem run_keeps_encryptor (cipher : Cipher) (sm : Bool) (key iv : Bytes) (ops : List Op)
    (s : SendBuffer) (ws : List WriteRes) (h : encId s._encryptor = some (sm, key, iv)) :
    encId (run cipher ops s ws).st._encryptor = some (sm, key, iv) := by
  refine run_preserves cipher (fun t => encId t._encryptor = some (sm, key, iv)) (fun _ => True)
    ?_ ?_ ?_ ?_ ops s ws (fun _ _ => trivial) h
  · intro t nw d ws2 _ ht
    exact (send_keeps cipher t nw d ws2).1.trans ht
  · intro t d _ ht
    exact (pushData_keeps t (dropEmpty d)).1.trans ht
  · intro t k i m _ ht
    have hs : t._encryptor.isSome = true := by
      cases he : t._encryptor with
      | none => simp [encId, he] at ht
      | some e => rfl
    rw [entryEncryptMode_installed t k i m hs]
    exact ht
  · intro t d _ ht
    show encId (entryWebSocketMode t d)._encryptor = _
    rw [entryWebSocketMode_encryptor]
    exact ht

theorem run_keeps_process (cipher : Cipher) (ops : List Op) (s : SendBuffer) (ws : List WriteRes)
    (hops : ∀ op ∈ ops, op.isEntryWebSocketMode = false)
    (he : s._encryptor.isSome = true) (hp : s._currBufferProcess = some .encryptData) :
    (run cipher ops s ws).st._currBufferProcess = some .encryptData := by
  have h := run_preserves cipher
    (fun t => t._encryptor.isSome = true ∧ t._currBufferProcess = some .encryptData)
    (fun op => op.isEntryWebSocketMode = false) ?_ ?_ ?_ ?_ ops s ws hops ⟨he, hp⟩
  · exact h.2
  · intro t nw d ws2 _ ht
    have hk := send_keeps cipher t nw d ws2
    refine ⟨?_, hk.2.trans ht.2⟩
    have h1 := hk.1
    cases h2 : (send cipher t nw d ws2).st._encryptor with
    | some e => rfl
    | none =>
      rw [h2] at h1
      cases h3 : t._encryptor with
      | none => rw [h3] at ht; simp at ht
      | some e => rw [h3] at h1; simp [encId] at h1
  · intro t d _ ht
    have hk := pushData_frame t (dropEmpty d)
    have hk2 := pushData_keeps t (dropEmpty d)
    refine ⟨?_, hk2.2.trans ht.2⟩
    show (pushData t (dropEmpty d))._encryptor.isSome = true
    cases dropEmpty d <;> exact ht.1
  · intro t k i m _ ht
    rw [entryEncryptMode_installed t k i m ht.1]
    exact ht
  · intro t d hd _
    simp [Op.isEntryWebSocketMode] at hd

theorem agree_refl (o : Outcome) : Agree o o := ⟨rfl, rfl, rfl⟩

theorem agree_trans (a b c : Outcome) (h1 : Agree a b) (h2 : Agree b c) : Agree a c :=
  ⟨h1.1.trans h2.1, h1.2.1.trans h2.2.1, h1.2.2.trans h2.2.2⟩

theorem realSend_eintr (cipher : Cipher) (ws : List WriteRes) (s s1 : SendBuffer) (buf : Bytes)
    (n : Nat) (hf : fetch cipher s n = .ready s1 buf) :
    realSend cipher (.fail EINTR :: ws) s n = realSend cipher ws s1 n := by
  have h1 : ¬ (EINTR = EAGAIN ∨ EINTR = EWOULDBLOCK) := by decide
  simp only [realSend, hf, h1, if_false, if_true]

theorem realSend_skip_eintr (cipher : Cipher) (ws : List WriteRes) (s : SendBuffer) (n : Nat) :
    Agree (realSend cipher (.fail EINTR :: ws) s n) (realSend cipher ws s n) := by
  cases hf : fetch cipher s n with
  | done s1 => cases ws <;> simp [Agree, realSend, hf]
  | fault s1 => cases ws <;> simp [Agree, realSend, hf]
  | ready s1 buf =>
    rw [realSend_eintr cipher ws s s1 buf n hf, realSend_of_fetch_ready cipher ws s s1 n buf hf]
    exact agree_refl _

theorem realSend_skip_replicate (cipher : Cipher) (k : Nat) (ws : List WriteRes) (s : SendBuffer)
    (n : Nat) :
    Agree (realSend cipher (List.replicate k (.fail EINTR) ++ ws) s n) (realSend cipher ws s n) := by
  induction k with
  | zero => exact agree_refl _
  | succ k ih =>
    rw [List.replicate_succ, List.cons_append]
    exact agree_trans _ _ _ (realSend_skip_eintr cipher _ s n) ih

theorem realSend_agree_cons (cipher : Cipher) (w : WriteRes) (ws ws2 : List WriteRes)
    (h : ∀ s n, Agree (realSend cipher ws2 s n) (realSend cipher ws s n)) (s : SendBuffer)
    (n : Nat) :
    Agree (realSend cipher (w :: ws2) s n) (realSend cipher (w :: ws) s n) := by
  cases hf : fetch cipher s n with
  | done s1 => simp [Agree, realSend, hf]
  | fault s1 => simp [Agree, realSend, hf]
  | ready s1 buf =>
    cases w with
    | fail e =>
      by_cases h1 : e = EAGAIN ∨ e = EWOULDBLOCK
      · simp only [Agree, realSend, hf, h1, if_true, and_self]
      · by_cases h2 : e = EINTR
        · subst h2
          rw [realSend_eintr cipher ws2 s s1 buf n hf, realSend_eintr cipher ws s s1 buf n hf]
          exact h s1 n
        · simp only [Agree, realSend, hf, h1, h2, if_false, and_self]
    | ok room =>
      rw [realSend_ok cipher ws2 s s1 buf room n hf, realSend_ok cipher ws s s1 buf room n hf]
      obtain ⟨a, b, c⟩ := h (advance s1 buf (min room (buf.length - s1._offset)))
        (n + min room (buf.length - s1._offset))
      exact ⟨a, by simp only [b], c⟩

theorem realSend_withEINTR (cipher : Cipher) (ks : List Nat) :
    ∀ (ws : List WriteRes) (s : SendBuffer) (n : Nat),
      Agree (realSend cipher (withEINTR ks ws) s n) (realSend cipher ws s n) := by
  induction ks with
  | nil =>
    intro ws s n
    cases ws <;> exact agree_refl _
  | cons k ks ih =>
    intro ws s n
    cases ws with
    | nil =>
      simp only [withEINTR]
      exact agree_trans _ _ _ (realSend_skip_replicate cipher k _ s n) (ih [] s n)
    | cons w ws =>
      simp only [withEINTR]
      exact agree_trans _ _ _ (realSend_skip_replicate cipher k _ s n)
        (realSend_agree_cons cipher w ws _ (ih ws) s n)

theorem realSend_pending_rest (cipher : Cipher) (pre : List WriteRes) (s : SendBuffer) (n : Nat)
    (h : (realSend cipher pre s n).ret = .pending) : (realSend cipher pre s n).rest = [] := by
  obtain ⟨-, -, ⟨buf, hc, hoff⟩, i4⟩ := realSend_pending cipher pre s n h
  have h0 := i4 []
  rw [List.append_nil] at h0
  have h1 := congrArg Outcome.rest h0
  rw [h1]
  simp only [realSend, fetch_curr cipher _ _ buf hc hoff]

theorem advance_count (s : SendBuffer) (buf : Bytes) (k : Nat) :
    (advance s buf k)._sentPackage =
      s._sentPackage + (if s._offset + k = buf.length then 1 else 0) := by
  simp only [advance]
  split_ifs <;> rfl

theorem work_idle (cipher : Cipher) (s : SendBuffer) (h : work cipher s = 0) :
    s._currBuffer = none ∧ s._outQueue = [] := by
  have hp : pendingCount s = 0 := by
    unfold work at h
    omega
  unfold pendingCount at hp
  cases hc : s._currBuffer with
  | some b => simp [hc] at hp
  | none =>
    simp [hc] at hp
    exact ⟨rfl, hp⟩

theorem realSend_completes (cipher : Cipher) (ws : List WriteRes) :
    ∀ (s : SendBuffer) (n : Nat), WF s → (∀ w ∈ ws, w.accepts = true) →
      work cipher s ≤ ws.length →
      (realSend cipher ws s n).ret = .returned 0 false ∧
      (realSend cipher ws s n).st._currBuffer = none ∧
      (realSend cipher ws s n).st._outQueue = [] := by
  induction ws with
  | nil =>
    intro s n hwf _ hw
    obtain ⟨hc, hq⟩ := work_idle cipher s (by simpa using hw)
    simp only [realSend, fetch_empty cipher s n hc hq]
    exact ⟨trivial, hc, hq⟩
  | cons w ws ih =>
    intro s n hwf hacc hw
    have hfd := fetch_drained cipher s n hwf
    cases hf : fetch cipher s n with
    | done s1 =>
      rw [hf] at hfd
      obtain ⟨h1, hc, hq⟩ := hfd
      simp only [realSend, hf]
      subst h1
      exact ⟨trivial, hc, hq⟩
    | fault s1 =>
      rw [hf] at hfd
      exact absurd hfd id
    | ready s1 buf =>
      rw [hf] at hfd
      obtain ⟨hd, hc, hoff, -, -⟩ := hfd
      have hpk := (fetch_ready cipher s s1 n buf hf).2.2.2.2
      have hw1 : work cipher s1 = work cipher s := by
        unfold work
        have h1 := (hd.2.1 []).1
        simp only [List.nil_append] at h1
        have h2 := hd.2.2.2.2
        rw [h1]
        omega
      have hwacc := hacc w (List.mem_cons_self _ _)
      cases w with
      | fail e => simp [WriteRes.accepts] at hwacc
      | ok room =>
        have hroom : 1 ≤ room := by simpa [WriteRes.accepts] using hwacc
        rw [realSend_ok cipher ws s s1 buf room n hf]
        have hk : min room (buf.length - s1._offset) ≤ buf.length - s1._offset :=
          Nat.min_le_right _ _
        have ha := advance_drained cipher s1 buf _ hd.1 hc hoff hk
        have hcnt := advance_count s1 buf (min room (buf.length - s1._offset))
        have hw2 : work cipher (advance s1 buf (min room (buf.length - s1._offset))) + 1 ≤
            work cipher s1 := by
          unfold work
          have h1 := congrArg List.length (ha.2.1 []).1
          rw [List.length_append, chunk_length] at h1
          have h2 := ha.2.2.2.2
          rw [hcnt] at h2
          split_ifs at h2 with hfull
          · omega
          · have : 1 ≤ min room (buf.length - s1._offset) := by
              rw [Nat.le_min]
              exact ⟨hroom, by omega⟩
            omega
        exact ih _ _ ha.1 (fun x hx => hacc x (List.mem_cons_of_mem _ hx))
          (by simp only [List.length_cons] at hw; omega)

theorem fetch_idleZero (cipher : Cipher) (s : SendBuffer) (n : Nat) (h : IdleZero s) :
    IdleZero (fetch cipher s n).state := by
  unfold fetch
  split
  · split_ifs <;> exact h
  · rename_i hcur
    split
    · intro _
      exact h hcur
    · simp only
      split
      · intro hc
        simp [Fetch.state] at hc
      · split
        · intro hc
          simp [Fetch.state] at hc
        · rename_i s2 hs2
          have hfr := callProcess_frame cipher _ _ _ hs2
          split
          · rename_i b hb
            intro hc
            have hc2 : s2._currBuffer = none := hc
            rw [hb] at hc2
            simp at hc2
          · intro _
            exact hfr.1

theorem advance_idleZero (s : SendBuffer) (buf : Bytes) (k : Nat)
    (hc : s._currBuffer = some buf) : IdleZero (advance s buf k) := by
  simp only [advance]
  split_ifs
  · intro _
    rfl
  · intro h
    have h2 : s._currBuffer = none := h
    rw [hc] at h2
    simp at h2

theorem realSend_idleZero (cipher : Cipher) (ws : List WriteRes) :
    ∀ (s : SendBuffer) (n : Nat), IdleZero s → IdleZero (realSend cipher ws s n).st := by
  induction ws with
  | nil =>
    intro s n h
    have hf := fetch_idleZero cipher s n h
    simp only [realSend]
    cases hfe : fetch cipher s n <;> rw [hfe] at hf <;> exact hf
  | cons w ws ih =>
    intro s n h
    have hf := fetch_idleZero cipher s n h
    simp only [realSend]
    cases hfe : fetch cipher s n with
    | done s1 => rw [hfe] at hf; exact hf
    | fault s1 => rw [hfe] at hf; exact hf
    | ready s1 buf =>
      rw [hfe] at hf
      have hf : IdleZero s1 := hf
      have hc := (fetch_ready cipher s s1 n buf hfe).1
      cases w with
      | fail e =>
        simp only
        split_ifs
        · exact hf
        · exact ih s1 n hf
        · exact hf
      | ok room =>
        simp only
        exact ih _ _ (advance_idleZero s1 buf _ hc)

theorem send_idleZero (cipher : Cipher) (s : SendBuffer) (nw : Bool) (data : Option Bytes)
    (ws : List WriteRes) (h : IdleZero s) : IdleZero (send cipher s nw data ws).st := by
  obtain ⟨-, -, p3, p4, -⟩ := pushData_frame s (dropEmpty data)
  have hp : IdleZero (pushData s (dropEmpty data)) := by
    intro hc
    rw [p4]
    exact h (p3 ▸ hc)
  simp only [send]
  split_ifs
  · exact hp
  · exact realSend_idleZero cipher ws _ 0 hp

theorem wf_entryEncryptMode (s : SendBuffer) (key iv : Bytes) (sm : Bool) (hwf : WF s) :
    WF (entryEncryptMode s key iv sm).2 := by
  rw [entryEncryptMode_eq]
  split_ifs
  · exact ⟨hwf.1, hwf.2.1, fun _ => rfl⟩
  · exact hwf

theorem entryEncryptMode_frame (s : SendBuffer) (key iv : Bytes) (sm : Bool) :
    (entryEncryptMode s key iv sm).2._currBuffer = s._currBuffer ∧
    (entryEncryptMode s key iv sm).2._offset = s._offset := by
  rw [entryEncryptMode_eq]
  split_ifs <;> exact ⟨rfl, rfl⟩

theorem entryWebSocketMode_frame (s : SendBuffer) (d : Option Bytes) :
    (entryWebSocketMode s d)._currBuffer = s._currBuffer ∧
    (entryWebSocketMode s d)._offset = s._offset := by
  rw [entryWebSocketMode_eq]
  cases dropEmpty d <;> exact ⟨rfl, rfl⟩

theorem reachable_wf (cipher : Cipher) (s : SendBuffer) (h : Reachable cipher s) :
    WF s ∧ IdleZero s := by
  obtain ⟨flag, ops, ws, rfl⟩ := h
  refine run_preserves cipher (fun t => WF t ∧ IdleZero t) (fun _ => True) ?_ ?_ ?_ ?_ ops _ ws
    (fun _ _ => trivial) ⟨wf_fresh flag, fun _ => rfl⟩
  · intro t nw d ws2 _ ht
    exact ⟨(send_drained cipher t nw d ws2 ht.1).1, send_idleZero cipher t nw d ws2 ht.2⟩
  · intro t d _ ht
    obtain ⟨-, -, p3, p4, -⟩ := pushData_frame t (dropEmpty d)
    refine ⟨(pushData_drained cipher t d ht.1).1, fun hc => ?_⟩
    have hc2 : (pushData t (dropEmpty d))._currBuffer = none := hc
    show (pushData t (dropEmpty d))._offset = 0
    rw [p4]
    exact ht.2 (p3 ▸ hc2)
  · intro t k i m _ ht
    obtain ⟨f1, f2⟩ := entryEncryptMode_frame t k i m
    refine ⟨wf_entryEncryptMode t k i m ht.1, fun hc => ?_⟩
    rw [f2]
    exact ht.2 (f1 ▸ hc)
  · intro t d _ ht
    obtain ⟨f1, f2⟩ := entryWebSocketMode_frame t d
    refine ⟨wf_entryWebSocketMode t d ht.1, fun hc => ?_⟩
    rw [f2]
    exact ht.2 (f1 ▸ hc)

theorem send_completes (cipher : Cipher) (s : SendBuffer) (nw : Bool) (data : Option Bytes)
    (ws : List WriteRes) (hwf : WF s) (hz : IdleZero s) (htok : s._sendToken = true)
    (hacc : ∀ w ∈ ws, w.accepts = true)
    (hlen : work cipher (pushData s (dropEmpty data)) ≤ ws.length) :
    (send cipher s nw data ws).ret = .returned 0 false ∧
    (send cipher s nw data ws).st._outQueue = [] ∧
    (send cipher s nw data ws).st._currBuffer = none ∧
    (send cipher s nw data ws).st._offset = 0 ∧
    (send cipher s nw data ws).st._sendToken = true ∧
    (send cipher s nw data ws).st._sentPackage =
      s._sentPackage + pendingCount s + (dropEmpty data).toList.length ∧
    (send cipher s nw data ws).st._sentBytes =
      s._sentBytes + (send cipher s nw data ws).wire.length := by
  obtain ⟨p1, p2, p3, p4, p5, p6, p7, p8⟩ := pushData_drained cipher s data hwf
  obtain ⟨-, -, q3, q4, -⟩ := pushData_frame s (dropEmpty data)
  rw [send_holding cipher s nw data ws htok]
  generalize pushData s (dropEmpty data) = s1 at p1 p5 p8 q3 q4 hlen
  have hwf0 : WF { s1 with _sendToken := false } := p1
  have hz0 : IdleZero { s1 with _sendToken := false } := by
    intro hc
    have hc2 : s1._currBuffer = none := hc
    show s1._offset = 0
    rw [q4]
    exact hz (q3 ▸ hc2)
  have hw0 : work cipher { s1 with _sendToken := false } ≤ ws.length := hlen
  obtain ⟨c1, c2, c3⟩ := realSend_completes cipher ws _ 0 hwf0 hacc hw0
  obtain ⟨d1, -, -, d4⟩ := realSend_drained cipher ws { s1 with _sendToken := false } 0 hwf0
  have hz1 := realSend_idleZero cipher ws { s1 with _sendToken := false } 0 hz0
  obtain ⟨e1, e2⟩ := d4 0 false c1
  have hcount := d1.2.2.2.2
  generalize realSend cipher ws { s1 with _sendToken := false } 0 = o
    at c1 c2 c3 d1 hz1 e1 e2 hcount ⊢
  refine ⟨c1, c3, c2, hz1 c2, e1, ?_, ?_⟩
  · have hpc : pendingCount o.st = 0 := by simp [pendingCount, c2, c3]
    have hpc0 : pendingCount { s1 with _sendToken := false } = pendingCount s1 := rfl
    have hsp0 : ({ s1 with _sendToken := false } : SendBuffer)._sentPackage = s1._sentPackage := rfl
    rw [hpc, hpc0, hsp0] at hcount
    omega
  · have hsb : ({ s1 with _sendToken := false } : SendBuffer)._sentBytes = s1._sentBytes := rfl
    rw [e2, hsb, p8]
    omega

theorem countP_set_get (l : List Pc) (t : Nat) (p q : Pc) (h : l[t]? = some p) :
    (l.set t q).countP Pc.inside + (if p.inside then 1 else 0) =
      l.countP Pc.inside + (if q.inside then 1 else 0) := by
  obtain ⟨hlt, hget⟩ := List.getElem?_eq_some_iff.mp h
  rw [List.countP_set Pc.inside l t q hlt, hget]
  have := List.boole_getElem_le_countP Pc.inside l t hlt
  rw [hget] at this
  omega

theorem isInside_set (sys : Sys) (b : SendBuffer) (t u : Nat) (p q : Pc)
    (h : sys.pcs[t]? = some p) :
    Sys.isInside { buf := b, pcs := sys.pcs.set t q } u =
      if t = u then q.inside else sys.isInside u := by
  obtain ⟨hlt, -⟩ := List.getElem?_eq_some_iff.mp h
  by_cases htu : t = u
  · subst htu
    rw [if_pos rfl]
    show (match (sys.pcs.set t q)[t]? with | some pc => pc.inside | none => false) = q.inside
    rw [List.getElem?_set_self hlt]
  · rw [if_neg htu]
    show (match (sys.pcs.set t q)[u]? with | some pc => pc.inside | none => false) = _
    rw [List.getElem?_set_ne htu]
    rfl

theorem isInside_get (sys : Sys) (t : Nat) (p : Pc) (h : sys.pcs[t]? = some p) :
    sys.isInside t = p.inside := by
  simp [Sys.isInside, h]

theorem fetch_token (cipher : Cipher) (s : SendBuffer) (n : Nat) :
    (∀ s1, fetch cipher s n = .done s1 → s1._sendToken = true) ∧
    (∀ s1 b, fetch cipher s n = .ready s1 b → s1._sendToken = s._sendToken) ∧
    (∀ s1, fetch cipher s n = .fault s1 → s1._sendToken = s._sendToken) := by
  have key : (∃ s1, fetch cipher s n = .done s1 ∧ s1._sendToken = true) ∨
      ((fetch cipher s n).state._sendToken = s._sendToken ∧
        ∀ s1, fetch cipher s n ≠ .done s1) := by
    unfold fetch
    split
    · split_ifs
      · exact Or.inr ⟨rfl, fun _ h => by cases h⟩
      · exact Or.inr ⟨rfl, fun _ h => by cases h⟩
    · split
      · exact Or.inl ⟨_, rfl, rfl⟩
      · simp only
        split
        · exact Or.inr ⟨rfl, fun _ h => by cases h⟩
        · split
          · exact Or.inr ⟨rfl, fun _ h => by cases h⟩
          · rename_i s2 hs2
            have hfr := callProcess_frame cipher _ _ _ hs2
            split
            · exact Or.inr ⟨hfr.2.2.1, fun _ h => by cases h⟩
            · exact Or.inr ⟨hfr.2.2.1, fun _ h => by cases h⟩
  rcases key with ⟨s0, h0, ht⟩ | ⟨hst, hnd⟩
  · refine ⟨fun s1 h => ?_, fun s1 b h => ?_, fun s1 h => ?_⟩
    · rw [h0] at h
      cases h
      exact ht
    · rw [h0] at h
      cases h
    · rw [h0] at h
      cases h
  · refine ⟨fun s1 h => absurd h (hnd s1), fun s1 b h => ?_, fun s1 h => ?_⟩
    · rw [h] at hst
      exact hst
    · rw [h] at hst
      exact hst

theorem entryEncryptMode_token (s : SendBuffer) (key iv : Bytes) (sm : Bool) :
    (entryEncryptMode s key iv sm).2._sendToken = s._sendToken := by
  rw [entryEncryptMode_eq]
  split_ifs <;> rfl

theorem entryWebSocketMode_token (s : SendBuffer) (d : Option Bytes) :
    (entryWebSocketMode s d)._sendToken = s._sendToken := by
  rw [entryWebSocketMode_eq]
  cases dropEmpty d <;> rfl

/-- Case analysis of one step: nothing happens, a thread outside changes
the buffer but not the token, a thread takes the free token and enters, the
thread inside goes on with the token held, or the thread inside sets the
token free and leaves. -/
theorem threadStep_cases (cipher : Cipher) (sys : Sys) (a : Act) (P : Sys → Prop)
    (hnop : P sys)
    (hbuf : ∀ b : SendBuffer, b._sendToken = sys.buf._sendToken → P { sys with buf := b })
    (henter : ∀ (b : SendBuffer) (data : Option Bytes), a = .sendEnter a.thread data →
      sys.buf._sendToken = true → sys.pcs[a.thread]? = some .outside → b._sendToken = false →
      P { buf := b, pcs := sys.pcs.set a.thread (.loopHead 0) })
    (hstay : ∀ (b : SendBuffer) (p q : Pc), sys.pcs[a.thread]? = some p → p.inside = true →
      q.inside = true → b._sendToken = sys.buf._sendToken →
      P { buf := b, pcs := sys.pcs.set a.thread q })
    (hleave : ∀ (b : SendBuffer) (p : Pc), sys.pcs[a.thread]? = some p → p.inside = true →
      b._sendToken = true → P { buf := b, pcs := sys.pcs.set a.thread .outside }) :
    P (threadStep cipher sys a) := by
  cases a with
  | sendEnter t data =>
    simp only [threadStep]
    split
    · rename_i hp
      have hp1 := (pushData_frame sys.buf (dropEmpty data)).1
      split_ifs with hc
      · exact hbuf _ hp1
      · have h1 : (pushData sys.buf (dropEmpty data))._sendToken = true := by
          simpa using hc
        exact henter _ data rfl (hp1 ▸ h1) hp rfl
    · exact hnop
  | fetchStep t =>
    simp only [threadStep]
    split
    · rename_i n hp
      have hft := fetch_token cipher sys.buf n
      cases hf : fetch cipher sys.buf n with
      | done s1 => exact hleave s1 (.loopHead n) hp rfl (hft.1 s1 hf)
      | ready s1 b => exact hstay s1 (.loopHead n) (.atWrite n) hp rfl rfl (hft.2.1 s1 b hf)
      | fault s1 => exact hstay s1 (.loopHead n) .faulted hp rfl rfl (hft.2.2 s1 hf)
    · exact hnop
  | writeStep t w =>
    simp only [threadStep]
    split
    · rename_i n hp
      split
      · exact hstay sys.buf (.atWrite n) .faulted hp rfl rfl rfl
      · rename_i buf hb
        cases w with
        | fail e =>
          simp only
          split_ifs
          · exact hleave _ (.atWrite n) hp rfl rfl
          · exact hstay sys.buf (.atWrite n) (.loopHead n) hp rfl rfl rfl
          · exact hleave _ (.atWrite n) hp rfl rfl
        | ok room =>
          simp only
          exact hstay _ (.atWrite n) (.loopHead _) hp rfl rfl (advance_frame sys.buf buf _).1
    · exact hnop
  | appendData t data =>
    simp only [threadStep]
    split
    · exact hbuf _ (pushData_frame sys.buf (dropEmpty data)).1
    · exact hnop
  | entryEncryptMode t key iv sm =>
    simp only [threadStep]
    split
    · exact hbuf _ (entryEncryptMode_token sys.buf key iv sm)
    · exact hnop
  | entryWebSocketMode t data =>
    simp only [threadStep]
    split
    · exact hbuf _ (entryWebSocketMode_token sys.buf data)
    · exact hnop

/-- A thread inside `realSend` holds the token and is the only one inside. -/
theorem inside_holds (sys : Sys) (hinv : TokenInv sys) (t : Nat) (p : Pc)
    (hp : sys.pcs[t]? = some p) (hin : p.inside = true) :
    sys.buf._sendToken = false ∧ sys.pcs.countP Pc.inside = 1 := by
  obtain ⟨hfree, hone⟩ := hinv
  obtain ⟨hlt, hget⟩ := List.getElem?_eq_some_iff.mp hp
  have hle := List.boole_getElem_le_countP Pc.inside sys.pcs t hlt
  rw [hget, hin] at hle
  simp only [if_true] at hle
  cases htok : sys.buf._sendToken with
  | false => exact ⟨rfl, hone htok⟩
  | true =>
    have : sys.pcs.countP Pc.inside = 0 := hfree htok
    omega

/-- What one step does to the token and to the threads inside `realSend`. -/
theorem threadStep_spec (cipher : Cipher) (sys : Sys) (a : Act) (hinv : TokenInv sys) :
    TokenInv (threadStep cipher sys a) ∧
    (∀ t, sys.isInside t = false → (threadStep cipher sys a).isInside t = true →
      (∃ data, a = .sendEnter t data) ∧ sys.buf._sendToken = true ∧
        (threadStep cipher sys a).buf._sendToken = false) ∧
    (sys.buf._sendToken = false → (threadStep cipher sys a).buf._sendToken = true →
      sys.isInside a.thread = true ∧ (threadStep cipher sys a).isInside a.thread = false) := by
  have hfree := hinv.1
  have hone := hinv.2
  refine threadStep_cases cipher sys a (fun sys1 => TokenInv sys1 ∧
    (∀ t, sys.isInside t = false → sys1.isInside t = true →
      (∃ data, a = .sendEnter t data) ∧ sys.buf._sendToken = true ∧
        sys1.buf._sendToken = false) ∧
    (sys.buf._sendToken = false → sys1.buf._sendToken = true →
      sys.isInside a.thread = true ∧ sys1.isInside a.thread = false)) ?_ ?_ ?_ ?_ ?_
  · refine ⟨hinv, fun t h1 h2 => ?_, fun h1 h2 => ?_⟩
    · rw [h1] at h2
      exact absurd h2 (by simp)
    · rw [h1] at h2
      exact absurd h2 (by simp)
  · intro b hb
    refine ⟨⟨fun h => hfree (hb ▸ h), fun h => hone (hb ▸ h)⟩, fun t h1 h2 => ?_, fun h1 h2 => ?_⟩
    · have : sys.isInside t = true := h2
      rw [h1] at this
      exact absurd this (by simp)
    · have h3 : b._sendToken = true := h2
      rw [hb, h1] at h3
      exact absurd h3 (by simp)
  · intro b data ha htok hp hb
    have hz : sys.pcs.countP Pc.inside = 0 := hfree htok
    have hcnt := countP_set_get sys.pcs a.thread .outside (.loopHead 0) hp
    simp only [Pc.inside, Bool.false_eq_true, if_false, if_true] at hcnt
    refine ⟨⟨fun h => ?_, ?_⟩, fun u h1 h2 => ?_, fun h1 _ => ?_⟩
    · have h3 : b._sendToken = true := h
      rw [hb] at h3
      exact absurd h3 (by simp)
    · intro _
      show (sys.pcs.set a.thread (.loopHead 0)).countP Pc.inside = 1
      omega
    · rw [isInside_set sys b a.thread u .outside (.loopHead 0) hp] at h2
      by_cases htu : a.thread = u
      · exact ⟨⟨data, htu ▸ ha⟩, htok, hb⟩
      · rw [if_neg htu, h1] at h2
        exact absurd h2 (by simp)
    · rw [htok] at h1
      exact absurd h1 (by simp)
  · intro b p q hp hpin hqin hb
    obtain ⟨htok, hc⟩ := inside_holds sys hinv a.thread p hp hpin
    have hcnt := countP_set_get sys.pcs a.thread p q hp
    rw [hpin, hqin] at hcnt
    simp only [if_true] at hcnt
    refine ⟨⟨fun h => ?_, ?_⟩, fun u h1 h2 => ?_, fun h1 h2 => ?_⟩
    · have h3 : b._sendToken = true := h
      rw [hb, htok] at h3
      exact absurd h3 (by simp)
    · intro _
      show (sys.pcs.set a.thread q).countP Pc.inside = 1
      omega
    · rw [isInside_set sys b a.thread u p q hp] at h2
      by_cases htu : a.thread = u
      · rw [← htu, isInside_get sys a.thread p hp, hpin] at h1
        exact absurd h1 (by simp)
      · rw [if_neg htu, h1] at h2
        exact absurd h2 (by simp)
    · have h3 : b._sendToken = true := h2
      rw [hb, h1] at h3
      exact absurd h3 (by simp)
  · intro b p hp hpin hb
    obtain ⟨htok, hc⟩ := inside_holds sys hinv a.thread p hp hpin
    have hcnt := countP_set_get sys.pcs a.thread p .outside hp
    rw [hpin] at hcnt
    simp only [Pc.inside, if_true, Bool.false_eq_true, if_false] at hcnt
    have hzero : (sys.pcs.set a.thread .outside).countP Pc.inside = 0 := by omega
    refine ⟨⟨fun _ => hzero, ?_⟩, fun u h1 h2 => ?_, fun _ _ => ?_⟩
    · intro h
      have h3 : b._sendToken = false := h
      rw [hb] at h3
      exact absurd h3 (by simp)
    · rw [isInside_set sys b a.thread u p .outside hp] at h2
      by_cases htu : a.thread = u
      · rw [if_pos htu] at h2
        simp [Pc.inside] at h2
      · rw [if_neg htu, h1] at h2
        exact absurd h2 (by simp)
    · rw [isInside_get sys a.thread p hp, isInside_set sys b a.thread a.thread p .outside hp]
      exact ⟨hpin, by simp [Pc.inside]⟩

theorem runThreads_append (cipher : Cipher) (sys : Sys) (acts : List Act) (a : Act) :
    runThreads cipher sys (acts ++ [a]) = threadStep cipher (runThreads cipher sys acts) a := by
  simp [runThreads, List.foldl_append]

theorem runThreads_inv (cipher : Cipher) (acts : List Act) :
    ∀ sys : Sys, TokenInv sys → TokenInv (runThreads cipher sys acts) := by
  induction acts with
  | nil =>
    intro sys h
    exact h
  | cons a acts ih =>
    intro sys h
    exact ih _ (threadStep_spec cipher sys a h).1

theorem init_inv (flag : Bool) (N : Nat) : TokenInv (Sys.init flag N) := by
  have h : (Sys.init flag N).insideCount = 0 := by
    simp [Sys.init, Sys.insideCount, List.countP_eq_zero, Pc.inside]
  refine ⟨fun _ => h, fun h0 => ?_⟩
  have h1 : (SendBuffer.fresh flag)._sendToken = false := h0
  simp [SendBuffer.fresh] at h1

theorem set_same (l : List Pc) (t : Nat) (p : Pc) (h : l[t]? = some p) : l.set t p = l := by
  apply List.ext_getElem?
  intro i
  by_cases hti : t = i
  · subst hti
    rw [List.getElem?_set_self (List.getElem?_eq_some_iff.mp h).1, h]
  · rw [List.getElem?_set_ne hti]

theorem threadStep_fetch_idle (cipher : Cipher) (sys : Sys) (t : Nat)
    (h : sys.pcs[t]? = some .outside ∨ sys.pcs[t]? = some .faulted) :
    threadStep cipher sys (.fetchStep t) = sys := by
  rcases h with h | h <;> simp only [threadStep, h]

theorem threadStep_write_idle (cipher : Cipher) (sys : Sys) (t : Nat) (w : WriteRes)
    (h : sys.pcs[t]? = some .outside ∨ sys.pcs[t]? = some .faulted) :
    threadStep cipher sys (.writeStep t w) = sys := by
  rcases h with h | h <;> simp only [threadStep, h]

theorem drainActs_idle (cipher : Cipher) (t : Nat) (ws : List WriteRes) (sys : Sys)
    (h : sys.pcs[t]? = some .outside ∨ sys.pcs[t]? = some .faulted) :
    runThreads cipher sys (drainActs t ws) = sys := by
  induction ws with
  | nil =>
    show threadStep cipher sys (.fetchStep t) = sys
    exact threadStep_fetch_idle cipher sys t h
  | cons w ws ih =>
    show runThreads cipher (threadStep cipher (threadStep cipher sys (.fetchStep t))
      (.writeStep t w)) (drainActs t ws) = sys
    rw [threadStep_fetch_idle cipher sys t h, threadStep_write_idle cipher sys t w h]
    exact ih

/-- A thread that runs the loop alone reaches the state of `realSend`. -/
theorem drainActs_realSend (cipher : Cipher) (t : Nat) (ws : List WriteRes) :
    ∀ (s : SendBuffer) (n : Nat) (pcs : List Pc), pcs[t]? = some (.loopHead n) →
      ∃ pc, runThreads cipher { buf := s, pcs := pcs } (drainActs t ws) =
          { buf := (realSend cipher ws s n).st, pcs := pcs.set t pc } ∧
        ((∃ e nw, (realSend cipher ws s n).ret = .returned e nw) → pc = .outside) := by
  induction ws with
  | nil =>
    intro s n pcs hp
    show ∃ pc, threadStep cipher { buf := s, pcs := pcs } (.fetchStep t) = _ ∧ _
    simp only [threadStep, hp, realSend]
    cases hf : fetch cipher s n with
    | done s1 => exact ⟨.outside, rfl, fun _ => rfl⟩
    | ready s1 b => exact ⟨.atWrite n, rfl, fun ⟨e, nw, h⟩ => by cases h⟩
    | fault s1 => exact ⟨.faulted, rfl, fun ⟨e, nw, h⟩ => by cases h⟩
  | cons w ws ih =>
    intro s n pcs hp
    obtain ⟨hlt, -⟩ := List.getElem?_eq_some_iff.mp hp
    have hstep : runThreads cipher { buf := s, pcs := pcs } (drainActs t (w :: ws)) =
        runThreads cipher (threadStep cipher (threadStep cipher { buf := s, pcs := pcs }
          (.fetchStep t)) (.writeStep t w)) (drainActs t ws) := rfl
    rw [hstep]
    have hfs : threadStep cipher { buf := s, pcs := pcs } (.fetchStep t) =
        match fetch cipher s n with
        | .done s1 => { buf := s1, pcs := pcs.set t .outside }
        | .ready s1 _ => { buf := s1, pcs := pcs.set t (.atWrite n) }
        | .fault s1 => { buf := s1, pcs := pcs.set t .faulted } := by
      simp only [threadStep, hp]
    rw [hfs]
    cases hf : fetch cipher s n with
    | done s1 =>
      have hidle : (pcs.set t Pc.outside)[t]? = some .outside ∨
          (pcs.set t Pc.outside)[t]? = some .faulted := Or.inl (List.getElem?_set_self hlt)
      simp only [realSend, hf]
      rw [threadStep_write_idle cipher _ t w hidle, drainActs_idle cipher t ws _ hidle]
      exact ⟨.outside, rfl, fun _ => rfl⟩
    | fault s1 =>
      have hidle : (pcs.set t Pc.faulted)[t]? = some .outside ∨
          (pcs.set t Pc.faulted)[t]? = some .faulted := Or.inr (List.getElem?_set_self hlt)
      simp only [realSend, hf]
      rw [threadStep_write_idle cipher _ t w hidle, drainActs_idle cipher t ws _ hidle]
      exact ⟨.faulted, rfl, fun ⟨e, nw, h⟩ => by cases h⟩
    | ready s1 buf =>
      have hcur := (fetch_ready cipher s s1 n buf hf).1
      have hat : (pcs.set t (Pc.atWrite n))[t]? = some (.atWrite n) := List.getElem?_set_self hlt
      have hidle : ((pcs.set t (Pc.atWrite n)).set t Pc.outside)[t]? = some .outside ∨
          ((pcs.set t (Pc.atWrite n)).set t Pc.outside)[t]? = some .faulted :=
        Or.inl (List.getElem?_set_self (by simpa using hlt))
      cases w with
      | fail errno =>
        simp only [realSend, hf, threadStep, hat, hcur]
        split_ifs with h1 h2
        · rw [drainActs_idle cipher t ws _ hidle, List.set_set]
          exact ⟨.outside, rfl, fun _ => rfl⟩
        · have hl : (pcs.set t (Pc.atWrite n)).set t (Pc.loopHead n) = pcs.set t (.loopHead n) :=
            List.set_set _ _ _ _
          rw [hl]
          obtain ⟨pc, hrun, hpc⟩ := ih s1 n (pcs.set t (.loopHead n)) (List.getElem?_set_self hlt)
          rw [hrun, List.set_set]
          exact ⟨pc, rfl, hpc⟩
        · rw [drainActs_idle cipher t ws _ hidle, List.set_set]
          exact ⟨.outside, rfl, fun _ => rfl⟩
      | ok room =>
        simp only [realSend, hf, threadStep, hat, hcur]
        rw [List.set_set]
        obtain ⟨pc, hrun, hpc⟩ := ih (advance s1 buf (min room (buf.length - s1._offset)))
          (n + min room (buf.length - s1._offset)) (pcs.set t (.loopHead (n + min room (buf.length - s1._offset))))
          (List.getElem?_set_self hlt)
        rw [hrun, List.set_set]
        exact ⟨pc, rfl, hpc⟩

/-- A thread that runs `send` with no other thread stepping in between
reaches the state of the sequential `send`, and is outside again when `send`
returns. -/
theorem sendEnter_send (cipher : Cipher) (sys : Sys) (t : Nat) (data : Option Bytes)
    (nw : Bool) (ws : List WriteRes) (hp : sys.pcs[t]? = some .outside) :
    (runThreads cipher sys (.sendEnter t data :: drainActs t ws)).buf =
        (send cipher sys.buf nw data ws).st ∧
      ((∃ e nw1, (send cipher sys.buf nw data ws).ret = .returned e nw1) →
        (runThreads cipher sys (.sendEnter t data :: drainActs t ws)).pcs = sys.pcs) := by
  obtain ⟨hlt, hget⟩ := List.getElem?_eq_some_iff.mp hp
  have hrun : runThreads cipher sys (.sendEnter t data :: drainActs t ws) =
      runThreads cipher (threadStep cipher sys (.sendEnter t data)) (drainActs t ws) := rfl
  rw [hrun]
  simp only [threadStep, hp, send]
  split_ifs with hc
  · rw [drainActs_idle cipher t ws { buf := pushData sys.buf (dropEmpty data), pcs := sys.pcs } (Or.inl hp)]
    exact ⟨rfl, fun _ => rfl⟩
  · obtain ⟨pc, hr, hpc⟩ := drainActs_realSend cipher t ws
      { pushData sys.buf (dropEmpty data) with _sendToken := false } 0
      (sys.pcs.set t (.loopHead 0)) (List.getElem?_set_self hlt)
    rw [hr, List.set_set]
    refine ⟨rfl, fun h => ?_⟩
    rw [hpc h]
    exact set_same sys.pcs t .outside hp

/-- Two threads call `send` on one buffer; the second finds the token taken
and returns, the first drains both payloads. -/
theorem two_threads_example :
    (runThreads sampleCipher (Sys.init false 2)
      [.sendEnter 0 (some [1, 2, 3]), .fetchStep 0, .sendEnter 1 (some [4])]).pcs
        = [.atWrite 0, .outside] ∧
    (runThreads sampleCipher (Sys.init false 2)
      [.sendEnter 0 (some [1, 2, 3]), .fetchStep 0, .sendEnter 1 (some [4]),
        .writeStep 0 (.ok 2), .fetchStep 0, .writeStep 0 (.ok 5), .fetchStep 0,
        .writeStep 0 (.ok 5), .fetchStep 0]) =
      { buf := { SendBuffer.fresh false with _sentBytes := 4, _sentPackage := 2 }
        pcs := [.outside, .outside] } := by
  decide

/-! ## Further properties -/

/-- C11 (empty payloads are discarded). `appendData` with an absent or an
empty payload leaves the whole state unchanged; `entryWebSocketMode` with an
absent or an empty payload leaves the queue and `_sentPackage` unchanged; and
for every state and every behaviour of `write`, `send` with an empty payload
has the same outcome (final state, return code, flag, bytes written, unused
script) as `send` with an absent payload. -/
theorem empty_payload_discarded (cipher : Cipher) (s : SendBuffer) (nw : Bool)
    (ws : List WriteRes) :
    appendData s none = s ∧ appendData s (some []) = s ∧
    (entryWebSocketMode s none)._outQueue = s._outQueue ∧
    (entryWebSocketMode s (some []))._outQueue = s._outQueue ∧
    (entryWebSocketMode s none)._sentPackage = s._sentPackage ∧
    (entryWebSocketMode s (some []))._sentPackage = s._sentPackage ∧
    send cipher s nw (some []) ws = send cipher s nw none ws :=
  ⟨rfl, rfl, rfl, rfl, rfl, rfl, rfl⟩

/-- C12 (inbound encryption gating). `RecvBuffer::entryEncryptMode` returns
false exactly when `_receivedPackage > 1`, and then the buffer is unchanged;
otherwise it returns true, the counter is unchanged and the receiver is a new
encrypted-stream receiver if `streamMode` and a new encrypted-package receiver
if not. -/
theorem recv_entryEncryptMode_gating (r : RecvBuffer) (key iv : Bytes) (streamMode : Bool) :
    ((r.entryEncryptMode key iv streamMode).1 = false ↔ r._receivedPackage > 1) ∧
    r.entryEncryptMode key iv streamMode =
      if r._receivedPackage > 1 then (false, r)
      else (true, { _receivedPackage := r._receivedPackage
                    _receiver := if streamMode then Receiver.EncryptedStreamReceiver key iv
                      else Receiver.EncryptedPackageReceiver key iv }) := by
  unfold RecvBuffer.entryEncryptMode
  by_cases h : r._receivedPackage > 1 <;> cases streamMode <;> simp [h]

/-- C13 as stated fails: after `entryEncryptMode` has succeeded on a fresh
buffer, a call of `entryWebSocketMode` selects `addWebSocketWrap`; the two
payloads sent afterwards go out as `[1, 2]` and as the frame of `[3, 4]`,
and the encryptor, still installed, has been fed nothing. -/
theorem websocket_mode_replaces_encrypt :
    (entryEncryptMode (SendBuffer.fresh false) [7] [9] true).1 = true ∧
    (run sampleCipher [Op.entryWebSocketMode none, Op.send false (some [1, 2]),
        Op.send false (some [3, 4])]
      (entryEncryptMode (SendBuffer.fresh false) [7] [9] true).2
      [.ok 9, .ok 9]).st._currBufferProcess = some .addWebSocketWrap ∧
    (run sampleCipher [Op.entryWebSocketMode none, Op.send false (some [1, 2]),
        Op.send false (some [3, 4])]
      (entryEncryptMode (SendBuffer.fresh false) [7] [9] true).2
      [.ok 9, .ok 9]).wire = [1, 2, 0x82, 2, 3, 4] ∧
    (run sampleCipher [Op.entryWebSocketMode none, Op.send false (some [1, 2]),
        Op.send false (some [3, 4])]
      (entryEncryptMode (SendBuffer.fresh false) [7] [9] true).2
      [.ok 9, .ok 9]).st._encryptor =
        some { streamMode := true, key := [7], iv := [9], fed := [] } := by
  refine ⟨by decide, by decide, by decide, by decide⟩

/-- C13, amended (the encryptor stays, the selector can be replaced). Once
`entryEncryptMode` has returned true, after every later sequence of public
operations under every behaviour of `write` the installed encryptor is still
the one installed then (same mode, key and IV; only its running state
advances), and as long as the sequence contains no call of
`entryWebSocketMode` the selected process is still `encryptData`. -/
theorem encryptor_stays_installed (cipher : Cipher) (s : SendBuffer) (key iv : Bytes) (sm : Bool)
    (ops : List Op) (ws : List WriteRes)
    (hact : (entryEncryptMode s key iv sm).1 = true) :
    (∃ fed : List Bytes,
      (run cipher ops (entryEncryptMode s key iv sm).2 ws).st._encryptor =
        some { streamMode := sm, key := key, iv := iv, fed := fed }) ∧
    ((∀ op ∈ ops, op.isEntryWebSocketMode = false) →
      (run cipher ops (entryEncryptMode s key iv sm).2 ws).st._currBufferProcess =
        some .encryptData) := by
  rw [entryEncryptMode_true s key iv sm hact]
  constructor
  · exact encId_some _ sm key iv (run_keeps_encryptor cipher sm key iv ops _ ws rfl)
  · intro hops
    exact run_keeps_process cipher ops _ ws hops rfl rfl

theorem encryptor_stays_installed_witness :
    (∃ fed : List Bytes,
      (run sampleCipher
          [Op.send false (some [1, 2]), Op.entryEncryptMode [8] [8] false, Op.appendData (some [3])]
          (entryEncryptMode (SendBuffer.fresh false) [7] [9] true).2 [.ok 1, .fail EAGAIN]).st._encryptor =
        some { streamMode := true, key := [7], iv := [9], fed := fed }) ∧
    ((∀ op ∈ [Op.send false (some [1, 2]), Op.entryEncryptMode [8] [8] false,
        Op.appendData (some [3])], op.isEntryWebSocketMode = false) →
      (run sampleCipher
          [Op.send false (some [1, 2]), Op.entryEncryptMode [8] [8] false, Op.appendData (some [3])]
          (entryEncryptMode (SendBuffer.fresh false) [7] [9] true).2
          [.ok 1, .fail EAGAIN]).st._currBufferProcess = some .encryptData) :=
  encryptor_stays_installed sampleCipher (SendBuffer.fresh false) [7] [9] true
    [Op.send false (some [1, 2]), Op.entryEncryptMode [8] [8] false, Op.appendData (some [3])]
    [.ok 1, .fail EAGAIN] (by decide)

/-- C14 (token busy). In every state whose send token is taken, `send`
returns `0` without calling `write` (nothing is written, the script is
untouched, the caller's flag is left as it was); the state is unchanged, the
token included, except that a non-empty payload is appended at the back of
the queue. -/
theorem send_token_busy (cipher : Cipher) (s : SendBuffer) (nw : Bool) (data : Option Bytes)
    (ws : List WriteRes) (htok : s._sendToken = false) :
    send cipher s nw data ws =
      { st := match data with
          | some (b :: bs) => { s with _outQueue := s._outQueue ++ [b :: bs] }
          | _ => s
        wire := [], rest := ws, ret := .returned 0 nw } := by
  have h := (pushData_frame s (dropEmpty data)).1
  rw [htok] at h
  simp only [send, h, Bool.not_false, if_true]
  cases data with
  | none => rfl
  | some d =>
    cases d with
    | nil => rfl
    | cons b bs => rfl

theorem send_token_busy_witness :
    send sampleCipher { SendBuffer.fresh false with _sendToken := false, _outQueue := [[5]] }
        true (some [1, 2]) [.ok 9] =
      { st := { SendBuffer.fresh false with _sendToken := false, _outQueue := [[5], [1, 2]] }
        wire := [], rest := [.ok 9], ret := .returned 0 true } :=
  send_token_busy sampleCipher
    { SendBuffer.fresh false with _sendToken := false, _outQueue := [[5]] } true (some [1, 2])
    [.ok 9] rfl

/-- C15 (at most one drainer). Take any number of threads on one fresh buffer
and any interleaving of their steps (entering `send`, the two halves of an
iteration of the loop of `realSend`, and calls of `appendData`,
`entryEncryptMode` and `entryWebSocketMode`), under any behaviour of `write`.
After every prefix of the interleaving at most one thread is inside
`realSend`; nobody is inside while the send token is free, and exactly one
thread is inside while it is taken. A step brings a thread inside `realSend`
only if it is that thread entering `send`, the token was free before the step
and is taken after it. A step sets a taken token free only if the thread
taking the step was inside `realSend` before it and is outside after it: the
token is released by the thread that holds it, on leaving `realSend`. -/
theorem at_most_one_drainer (cipher : Cipher) (encryptAfterFirstPackage : Bool) (N : Nat)
    (acts : List Act) (a : Act) :
    (runThreads cipher (Sys.init encryptAfterFirstPackage N) acts).insideCount ≤ 1 ∧
    ((runThreads cipher (Sys.init encryptAfterFirstPackage N) acts).buf._sendToken = true →
      (runThreads cipher (Sys.init encryptAfterFirstPackage N) acts).insideCount = 0) ∧
    ((runThreads cipher (Sys.init encryptAfterFirstPackage N) acts).buf._sendToken = false →
      (runThreads cipher (Sys.init encryptAfterFirstPackage N) acts).insideCount = 1) ∧
    (∀ t, (runThreads cipher (Sys.init encryptAfterFirstPackage N) acts).isInside t = false →
      (runThreads cipher (Sys.init encryptAfterFirstPackage N) (acts ++ [a])).isInside t = true →
      (∃ data, a = .sendEnter t data) ∧
      (runThreads cipher (Sys.init encryptAfterFirstPackage N) acts).buf._sendToken = true ∧
      (runThreads cipher (Sys.init encryptAfterFirstPackage N) (acts ++ [a])).buf._sendToken = false) ∧
    ((runThreads cipher (Sys.init encryptAfterFirstPackage N) acts).buf._sendToken = false →
      (runThreads cipher (Sys.init encryptAfterFirstPackage N) (acts ++ [a])).buf._sendToken = true →
      (runThreads cipher (Sys.init encryptAfterFirstPackage N) acts).isInside a.thread = true ∧
      (runThreads cipher (Sys.init encryptAfterFirstPackage N) (acts ++ [a])).isInside a.thread = false) := by
  have hinv := runThreads_inv cipher acts _ (init_inv encryptAfterFirstPackage N)
  have hstep := threadStep_spec cipher _ a hinv
  rw [runThreads_append]
  refine ⟨?_, hinv.1, hinv.2, hstep.2.1, hstep.2.2⟩
  cases htok : (runThreads cipher (Sys.init encryptAfterFirstPackage N) acts).buf._sendToken with
  | false => exact le_of_eq (hinv.2 htok)
  | true => exact le_of_eq_of_le (hinv.1 htok) (Nat.zero_le 1)

theorem at_most_one_drainer_witness :
    (runThreads sampleCipher (Sys.init false 2)
      [.sendEnter 0 (some [1, 2, 3]), .fetchStep 0, .sendEnter 1 (some [4])]).insideCount = 1 ∧
    (runThreads sampleCipher (Sys.init false 2)
      [.sendEnter 0 (some [1, 2, 3]), .fetchStep 0, .sendEnter 1 (some [4])]).isInside
        (Act.writeStep 0 (.fail EAGAIN)).thread = true ∧
    (runThreads sampleCipher (Sys.init false 2)
      ([.sendEnter 0 (some [1, 2, 3]), .fetchStep 0, .sendEnter 1 (some [4])] ++
        [.writeStep 0 (.fail EAGAIN)])).isInside (Act.writeStep 0 (.fail EAGAIN)).thread = false :=
  have h := at_most_one_drainer sampleCipher false 2
    [.sendEnter 0 (some [1, 2, 3]), .fetchStep 0, .sendEnter 1 (some [4])]
    (.writeStep 0 (.fail EAGAIN))
  ⟨h.2.2.1 (by decide), h.2.2.2.2 (by decide) (by decide)⟩

/-- C16 (`EINTR` is transparent). For every state, payload and script of
`write` results, inserting any number of `EINTR` failures at any positions of
the script leaves the final state, the return code and flag, and the bytes
written by `send` unchanged. Moreover, when the call is about to call `write`
and that call fails with `EINTR`, the call is in the same state as before
(token still held, counters unchanged), again about to call `write`. -/
theorem eintr_transparent (cipher : Cipher) (s : SendBuffer) (nw : Bool) (data : Option Bytes)
    (ws : List WriteRes) (ks : List Nat) :
    (send cipher s nw data (withEINTR ks ws)).st = (send cipher s nw data ws).st ∧
    (send cipher s nw data (withEINTR ks ws)).ret = (send cipher s nw data ws).ret ∧
    (send cipher s nw data (withEINTR ks ws)).wire = (send cipher s nw data ws).wire ∧
    (∀ pre : List WriteRes, (send cipher s nw data pre).ret = .pending →
      send cipher s nw data (pre ++ [.fail EINTR]) = send cipher s nw data pre) := by
  have hmain : Agree (send cipher s nw data (withEINTR ks ws)) (send cipher s nw data ws) := by
    simp only [send]
    split_ifs
    · exact ⟨rfl, rfl, rfl⟩
    · exact realSend_withEINTR cipher ks ws _ 0
  refine ⟨hmain.1, hmain.2.2, hmain.2.1, fun pre hpre => ?_⟩
  by_cases ht : s._sendToken = true
  · rw [send_holding cipher s nw data _ ht] at hpre ⊢
    rw [send_holding cipher s nw data _ ht]
    obtain ⟨-, -, ⟨buf, hc, hoff⟩, i4⟩ := realSend_pending cipher pre _ _ hpre
    have hrest := realSend_pending_rest cipher pre _ _ hpre
    rw [i4]
    generalize realSend cipher pre _ 0 = o at hc hoff hpre hrest ⊢
    have hf := fetch_curr cipher o.st (0 + o.wire.length) buf hc hoff
    rw [realSend_eintr cipher [] o.st o.st buf _ hf]
    simp only [realSend, hf, List.append_nil]
    cases o
    simp_all
  · have ht2 : (pushData s (dropEmpty data))._sendToken = false := by
      rw [(pushData_frame s (dropEmpty data)).1]
      cases h : s._sendToken
      · rfl
      · exact absurd h ht
    simp [send, ht2] at hpre

/-- C17 (drain completion). In every reachable state with the token free
there is a number `N` of `write` calls such that, on every script of at least
`N` results each of which succeeds with room for at least one byte, `send`
returns `0` with `needWaitSendEvent = false`, the queue is empty, nothing is in
flight, the offset is 0 and the token is free; `_sentPackage` has grown by the
number of payloads pending at entry (the one in flight, the queued ones) plus
one for a new non-empty payload, and `_sentBytes` by the number of bytes
written. -/
theorem drain_completion (cipher : Cipher) (s : SendBuffer) (nw : Bool) (data : Option Bytes)
    (hreach : Reachable cipher s) (htok : s._sendToken = true) :
    ∃ N : Nat, ∀ ws : List WriteRes, (∀ w ∈ ws, w.accepts = true) → N ≤ ws.length →
      (send cipher s nw data ws).ret = .returned 0 false ∧
      (send cipher s nw data ws).st._outQueue = [] ∧
      (send cipher s nw data ws).st._currBuffer = none ∧
      (send cipher s nw data ws).st._offset = 0 ∧
      (send cipher s nw data ws).st._sendToken = true ∧
      (send cipher s nw data ws).st._sentPackage =
        s._sentPackage + pendingCount s + (dropEmpty data).toList.length ∧
      (send cipher s nw data ws).st._sentBytes =
        s._sentBytes + (send cipher s nw data ws).wire.length := by
  obtain ⟨hwf, hz⟩ := reachable_wf cipher s hreach
  exact ⟨work cipher (pushData s (dropEmpty data)),
    fun ws hacc hlen => send_completes cipher s nw data ws hwf hz htok hacc hlen⟩

theorem drain_completion_witness :
    ∃ N : Nat, ∀ ws : List WriteRes, (∀ w ∈ ws, w.accepts = true) → N ≤ ws.length →
      (send sampleCipher blockedFirst true (some [3]) ws).ret = .returned 0 false ∧
      (send sampleCipher blockedFirst true (some [3]) ws).st._outQueue = [] ∧
      (send sampleCipher blockedFirst true (some [3]) ws).st._currBuffer = none ∧
      (send sampleCipher blockedFirst true (some [3]) ws).st._offset = 0 ∧
      (send sampleCipher blockedFirst true (some [3]) ws).st._sendToken = true ∧
      (send sampleCipher blockedFirst true (some [3]) ws).st._sentPackage =
        blockedFirst._sentPackage + pendingCount blockedFirst + (dropEmpty (some [3])).toList.length ∧
      (send sampleCipher blockedFirst true (some [3]) ws).st._sentBytes =
        blockedFirst._sentBytes + (send sampleCipher blockedFirst true (some [3]) ws).wire.length :=
  drain_completion sampleCipher blockedFirst true (some [3])
    ⟨false, [.send false (some [1, 2])], [.fail EAGAIN], rfl⟩ (by decide)

/-- C19 (no empty payload is queued). In every state reachable from a fresh
buffer by the four public operations, every queue entry has length at least
1; hence `addWebSocketWrap` run on the payload popped from the front never
faults (its `at(0)` finds a byte), and no call of `send` made in such a state
leaves defined behaviour. -/
theorem no_empty_payload_queued (cipher : Cipher) (s : SendBuffer) (hreach : Reachable cipher s) :
    (∀ q ∈ s._outQueue, 1 ≤ q.length) ∧
    (∀ (q : Bytes) (qs : List Bytes), s._currBuffer = none → s._outQueue = q :: qs →
      (addWebSocketWrap { s with _currBuffer := some q, _outQueue := qs, _offset := 0 }).isSome
        = true) ∧
    (∀ (nw : Bool) (data : Option Bytes) (ws : List WriteRes),
      (send cipher s nw data ws).ret ≠ .fault) := by
  obtain ⟨hwf, -⟩ := reachable_wf cipher s hreach
  refine ⟨fun q hq => ?_, fun q qs _ hq => ?_, fun nw data ws =>
    (send_drained cipher s nw data ws hwf).2.1⟩
  · have := hwf.1 q hq
    cases q with
    | nil => exact absurd rfl this
    | cons a as => simp
  · have hne : q ≠ [] := hwf.1 q (by rw [hq]; exact List.mem_cons_self _ _)
    by_cases h0 : s._sentPackage = 0
    · simp [addWebSocketWrap, h0]
    · rw [wsFrame_eq { s with _currBuffer := some q, _outQueue := qs, _offset := 0 } q rfl hne h0]
      rfl

theorem no_empty_payload_queued_witness :
    (∀ q ∈ (run sampleCipher
        [Op.entryWebSocketMode (some []), Op.send false (some [1]), Op.appendData (some []),
          Op.appendData (some [2]), Op.send true (some [])]
        (SendBuffer.fresh false) [.ok 1, .fail EAGAIN]).st._outQueue, 1 ≤ q.length) ∧
    (run sampleCipher
        [Op.entryWebSocketMode (some []), Op.send false (some [1]), Op.appendData (some []),
          Op.appendData (some [2]), Op.send true (some [])]
        (SendBuffer.fresh false) [.ok 1, .fail EAGAIN]).st._sentPackage = 1 :=
  ⟨(no_empty_payload_queued sampleCipher _ ⟨false,
      [Op.entryWebSocketMode (some []), Op.send false (some [1]), Op.appendData (some []),
        Op.appendData (some [2]), Op.send true (some [])], [.ok 1, .fail EAGAIN], rfl⟩).1,
    by decide⟩

/-- C20 (the data-frame wrapping is injective). With a package already sent,
if `addWebSocketWrap` produces the same buffer for two payloads `A` and `B` of
length at least 2, then `A = B`; the length of the output is strictly
increasing in the length of the payload; and no such output is the output
for a 1-byte payload. -/
theorem data_frame_injective (s t : SendBuffer) (A B : Bytes)
    (hs : s._currBuffer = some A) (ht : t._currBuffer = some B)
    (hA : 2 ≤ A.length) (hB : 2 ≤ B.length)
    (hsp : 0 < s._sentPackage) (htp : 0 < t._sentPackage) :
    ((addWebSocketWrap s).map (fun x => x._currBuffer) =
        (addWebSocketWrap t).map (fun x => x._currBuffer) → A = B) ∧
    (A.length < B.length → (wsFrame A).length < (wsFrame B).length) ∧
    (∀ (u : SendBuffer) (b : Nat), u._currBuffer = some [b] → 0 < u._sentPackage →
      (addWebSocketWrap s).map (fun x => x._currBuffer) ≠
        (addWebSocketWrap u).map (fun x => x._currBuffer)) := by
  rw [wrap_output s A hs (by omega) hsp, wrap_output t B ht (by omega) htp]
  refine ⟨fun h => ?_, fun h => ?_, fun u b hu hup h => ?_⟩
  · simp only [Option.some.injEq] at h
    exact wsFrame_injective A B hA hB h
  · rw [wsFrame_length A hA, wsFrame_length B hB]
    split_ifs <;> omega
  · rw [wrap_output u [b] hu (by simp) hup] at h
    simp only [Option.some.injEq] at h
    have hl := congrArg List.length h
    rw [wsFrame_length A hA, wsFrame_control] at hl
    simp only [List.length_cons, List.length_nil] at hl
    split_ifs at hl <;> omega

theorem data_frame_injective_witness :
    ((addWebSocketWrap { SendBuffer.fresh false with _sentPackage := 1, _currBuffer := some [1, 2] }).map
        (fun x => x._currBuffer) =
      (addWebSocketWrap { SendBuffer.fresh true with _sentPackage := 4, _currBuffer := some [3, 4, 5] }).map
        (fun x => x._currBuffer) → [1, 2] = [3, 4, 5]) ∧
    ([1, 2].length < [3, 4, 5].length → (wsFrame [1, 2]).length < (wsFrame [3, 4, 5]).length) :=
  have h := data_frame_injective
    { SendBuffer.fresh false with _sentPackage := 1, _currBuffer := some [1, 2] }
    { SendBuffer.fresh true with _sentPackage := 4, _currBuffer := some [3, 4, 5] }
    [1, 2] [3, 4, 5] rfl rfl (by decide) (by decide) (by decide) (by decide)
  ⟨h.1, h.2.1⟩

end fpnn
